import Mathlib

/-!
Verification development for the graphdl/semantics statement parser
(`src/parser.ts`).

Modelling conventions
=====================

* A phrase is modelled as its whitespace-token list (`Phrase := List String`),
  mirroring the fact that every regular expression of the source splits,
  anchors or captures at `\s+` boundaries.  A token may carry attached
  punctuation characters (commas, slashes, hyphens), exactly as the result of
  JavaScript `text.split(/\s+/)` would.
* All character-level work (comma splitting, slash splitting, case mapping,
  `\w` runs) is done on `String.data` (`List Char`), so every definition
  reduces in the kernel and concrete inputs can be evaluated with `decide`.
* JavaScript `\b(and|or)\b` tests are modelled by looking for a maximal
  `\w`-run equal to `and`/`or` inside some token; `\s+(and|or)\s+` patterns
  require a whole token equal to `and`/`or` (case-insensitively), which is
  what the surrounding whitespace of the source patterns forces.
* Non-greedy captures (`(.+?)`) followed by a delimiter alternation are
  modelled by taking the first (leftmost) token position at which the
  remainder of the pattern can still match, which is exactly the backtracking
  behaviour of the source regexes on token streams.
* The lexicon verb table and preposition table are external data
  (`generated/verbs.ts` / `generated/prepositions.ts` are not part of the
  repository sources); they are interface parameters of the model, keyed on
  lowercase words, as specified.  The determiner list, conjunction word list
  and the concept table are part of the sources and are transcribed literally.
* The recursive expanders are defined with an explicit structural recursion
  counter plus a wrapper applying the counter `sumLen p + 1`; the theorem
  `expandPhraseF_irrel` proves the counter irrelevant above the phrase
  length, which is the termination argument of the source (every recursive
  call strictly shortens its input).
-/

/-! ## Character and string helpers -/

/-- Lowercase a string (ASCII case mapping, as JavaScript `toLowerCase` on
the inputs in scope). -/
def lowerStr (s : String) : String := ⟨s.data.map Char.toLower⟩

/-- Capitalize: first character uppercased, remainder untouched
(`StatementParser.capitalize`). -/
def capitalizeW (s : String) : String :=
  match s.data with
  | [] => ⟨[]⟩
  | c :: cs => ⟨Char.toUpper c :: cs⟩

/-- Per-word PascalCase mapping used inside `toPascalCase`: first character
uppercased, the rest lowercased. -/
def pascalPart (s : List Char) : List Char :=
  match s with
  | [] => []
  | c :: cs => Char.toUpper c :: cs.map Char.toLower

/-- Membership of a character in a string. -/
def strHasChar (s : String) (c : Char) : Bool := s.data.contains c

/-- JavaScript `\w` character class (`[A-Za-z0-9_]`). -/
def wordChar (c : Char) : Bool :=
  ('a' ≤ c && c ≤ 'z') || ('A' ≤ c && c ≤ 'Z') || ('0' ≤ c && c ≤ '9') || c = '_'

/-- A token consisting solely of `\w` characters, nonempty — what a `(\w+)`
capture delimited by whitespace can bind. -/
def wordish (s : String) : Bool := s ≠ "" && s.data.all wordChar

/-- Uppercase ASCII letter test (`/^[A-Z]/`). -/
def upperAlpha (c : Char) : Bool := 'A' ≤ c && c ≤ 'Z'

/-- Lowercase ASCII letter test (`/^[a-z]/`). -/
def lowerAlpha (c : Char) : Bool := 'a' ≤ c && c ≤ 'z'

/-- First character of a string satisfies a test (empty string: false). -/
def firstCharIs (p : Char → Bool) (s : String) : Bool :=
  match s.data with
  | [] => false
  | c :: _ => p c

/-- Split a character list at every occurrence of a separator character.
Mirrors JavaScript `String.split` on a single-character separator: always
returns at least one (possibly empty) piece. -/
def charSplit (sep : Char) : List Char → List (List Char)
  | [] => [[]]
  | c :: cs =>
    let r := charSplit sep cs
    if c = sep then [] :: r
    else
      match r with
      | [] => [[c]]
      | p :: ps => (c :: p) :: ps

/-- Maximal `\w`-runs of a character list (used to model `\b(and|or)\b`). -/
def wordRuns : List Char → List (List Char)
  | [] => []
  | c :: cs =>
    let r := wordRuns cs
    if wordChar c then
      match cs with
      | [] => [[c]]
      | d :: _ =>
        if wordChar d then
          match r with
          | [] => [[c]]
          | p :: ps => (c :: p) :: ps
        else [c] :: r
    else r

/-- The word list of a character sequence: maximal runs of non-space
characters (models `split(/\s+/)` followed by dropping empty pieces). -/
def wordsOfChars (cs : List Char) : List String :=
  ((charSplit ' ' cs).filter (· ≠ [])).map (fun l => ⟨l⟩)

/-! ## Phrases -/

/-- A phrase is its whitespace-token list. -/
abbrev Phrase := List String

/-- Size measure of a phrase: total character count plus token count
(one more than the length of the space-joined rendering). -/
def sumLen (p : Phrase) : Nat := (p.map String.length).sum + p.length

/-- Is a token exactly the conjunction `and` or `or` (case-insensitive)?
This is what `\s+(and|or)\s+` can bind at token level. -/
def conjTok (w : String) : Bool := lowerStr w = "and" || lowerStr w = "or"

/-- Does the phrase satisfy `/\b(and|or)\b/i` — some maximal `\w`-run of a
token equals `and` or `or` up to case? -/
def hasConjB (p : Phrase) : Bool :=
  p.any (fun w => (wordRuns w.data).any
    (fun r => (⟨r.map Char.toLower⟩ : String) = "and" || (⟨r.map Char.toLower⟩ : String) = "or"))

/-- Does some token contain a comma (`phrase.includes(',')`)? -/
def hasComma (p : Phrase) : Bool := p.any (fun w => strHasChar w ',')

/-- Does some token contain a slash (`phrase.includes('/')`)? -/
def hasSlash (p : Phrase) : Bool := p.any (fun w => strHasChar w '/')

/-- Does the phrase contain the two-token sequence `such as`
(`/\bsuch as\b/i` at token granularity)? -/
def hasSuchAs : Phrase → Bool
  | [] => false
  | [_] => false
  | x :: y :: rest => (lowerStr x = "such" && lowerStr y = "as") || hasSuchAs (y :: rest)

/-- Last word of a phrase, lowercased, empty when there is none — the
`words[words.length - 1]?.toLowerCase() || ''` idiom. -/
def lastWordLower (p : Phrase) : String :=
  match p.getLast? with
  | none => ""
  | some w => lowerStr w

/-- Space-join of a phrase (the underlying string the tokens came from). -/
def joinWords (p : Phrase) : String := String.intercalate " " p

/-! ## Lexicon data

The determiner list (`LexiconLoader.loadDeterminers`), the conjunction word
list (`generated/conjunctions.ts`) and the concept table
(`generated/concepts.ts`) are part of the repository sources and transcribed
literally.  The verb table and preposition set are external data and appear
as parameters. -/

/-- Determiner set from `LexiconLoader.loadDeterminers`. -/
def determinerList : List String :=
  ["a", "an", "the", "this", "that", "these", "those", "my", "your", "his",
   "her", "its", "our", "their", "some", "any", "all", "each", "every", "no",
   "none", "few", "many", "much", "several", "more", "most", "less", "least"]

/-- Conjunction words from `generated/conjunctions.ts` (`CONJUNCTION_DATA`),
already lowercase as the loader lowercases the keys. -/
def conjunctionWords : List String :=
  ["and", "but", "or", "nor", "for", "so", "yet", "after", "although", "as",
   "because", "before", "if", "once", "since", "than", "that", "though",
   "till", "unless", "until", "when", "where", "whereas", "wherever",
   "whether", "while", "both", "either", "neither", "not"]

/-- The lexicon interface consumed by the parser: verb membership and
preposition membership, keyed on lowercase words (external data). -/
structure Lexicon where
  verbs : List String
  prepositions : List String

/-- Concept table rows `(id, baseNoun, modifiers)` from
`generated/concepts.ts` (`CONCEPTS`); the other columns are not read by the
parser. -/
def conceptRows : List (String × String × String) :=
  [("LongTermVision", "Vision", "long-term"),
   ("BusinessConcept", "Concept", "business"),
   ("ExternalEnvironment", "Environment", "external"),
   ("InternalEnvironment", "Environment", "internal"),
   ("CustomerNeeds", "Needs", "customer"),
   ("IntellectualProperty", "Property", "intellectual"),
   ("WorkingCapital", "Capital", "working"),
   ("SupplyChain", "Chain", "supply"),
   ("HumanResources", "Resources", "human"),
   ("DataSecurity", "Security", "data"),
   ("ProductDevelopment", "Development", "product"),
   ("ServiceDelivery", "Delivery", "service"),
   ("FinancialPerformance", "Performance", "financial"),
   ("RiskManagement", "Management", "risk"),
   ("QualityControl", "Control", "quality"),
   ("ChangeManagement", "Management", "change"),
   ("PerformanceManagement", "Management", "performance"),
   ("CustomerService", "Service", "customer"),
   ("ProjectManagement", "Management", "project"),
   ("ProtectionEquipment", "Equipment", "protection"),
   ("RespiratoryProtectionEquipment", "Equipment", "respiratory protection"),
   ("AerospaceVehicles", "Vehicles", "aerospace"),
   ("ResearchFindings", "Findings", "research"),
   ("RemedialActions", "Actions", "remedial"),
   ("GovernmentLeaders", "Leaders", "government"),
   ("CommunityLeaders", "Leaders", "community"),
   ("CustomerInteractions", "Interactions", "customer"),
   ("StaffPerformance", "Performance", "staff"),
   ("CompanyStaff", "Staff", "company"),
   ("CapitalAllocation", "Allocation", "capital"),
   ("RiskLimits", "Limits", "risk"),
   ("TradingStrategy", "Strategy", "trading"),
   ("StudentAchievement", "Achievement", "student"),
   ("AchievementTargets", "Targets", "achievement"),
   ("PotentialValue", "Value", "potential"),
   ("RegulatoryCapitalRequirements", "Requirements", "regulatory capital"),
   ("CreditRisks", "Risks", "credit"),
   ("IndustryRegulations", "Regulations", "industry"),
   ("NationalLegislation", "Legislation", "national"),
   ("InnovationStrategies", "Strategies", "innovation"),
   ("StakeholderExpectations", "Expectations", "stakeholder"),
   ("EducationalPrograms", "Programs", "educational"),
   ("SupportServices", "Services", "support"),
   ("FederalTestingAgencies", "Agencies", "federal testing"),
   ("TestPublishers", "Publishers", "test"),
   ("QualityIssues", "Issues", "quality"),
   ("SuccessfulResponse", "Response", "successful"),
   ("ScoringCriteria", "Criteria", "scoring"),
   ("PerformanceTasks", "Tasks", "performance"),
   ("CommunicationMechanisms", "Mechanisms", "communication"),
   ("CaseManagementProcess", "Process", "case management"),
   ("ServicesDuplication", "Duplication", "services"),
   ("ComponentBlend", "Blend", "component"),
   ("ProductSpecifications", "Specifications", "product"),
   ("RegulatoryStandards", "Standards", "regulatory"),
   ("HydroelectricFacility", "Facility", "hydroelectric"),
   ("GenerationEquipment", "Equipment", "generation"),
   ("MechanicalEquipment", "Equipment", "mechanical"),
   ("MaterialsPrices", "Prices", "materials")]

/-- Spaced rendering of a PascalCase id: space before each capital, trimmed,
lowercased (`id.replace(/([A-Z])/g, ' $1').trim().toLowerCase()`). -/
def spacedId (s : String) : String :=
  ⟨((s.data.flatMap (fun c => if upperAlpha c then [' ', c] else [c])).dropWhile
      (· = ' ')).map Char.toLower⟩

/-- Insert a key into an association list with JavaScript `Map.set`
semantics: an existing key keeps its position and receives the new value, a
new key is appended. -/
def mapSet (k v : String) : List (String × String) → List (String × String)
  | [] => [(k, v)]
  | (k', v') :: rest => if k' = k then (k, v) :: rest else (k', v') :: mapSet k v rest

/-- The concept index built by `generated/concepts.ts`: for every concept,
keys `id.toLowerCase()`, the spaced phrase (when different), and
`modifiers + ' ' + baseNoun` all map to the concept id. -/
def conceptIndex : List (String × String) :=
  conceptRows.foldl
    (fun acc r =>
      let acc1 := mapSet (lowerStr r.1) r.1 acc
      let sp := spacedId r.1
      let acc2 := if sp ≠ lowerStr r.1 then mapSet sp r.1 acc1 else acc1
      let mn := lowerStr (r.2.2 ++ " " ++ r.2.1)
      if mn ≠ "" then mapSet mn r.1 acc2 else acc2)
    []

/-- Concept key membership (`lexicon.concepts.has`). -/
def conceptHas (k : String) : Bool := conceptIndex.any (fun e => e.1 = k)

/-- Stable insertion of a key into a length-descending list: placed before
the first entry whose key is not longer, so earlier entries win ties. -/
def insertByLen (kv : String × String) : List (String × String) → List (String × String)
  | [] => [kv]
  | y :: ys => if y.1.length ≤ kv.1.length then kv :: y :: ys else y :: insertByLen kv ys

/-- Stable length-descending sort (insertion sort). -/
def sortByLenDesc : List (String × String) → List (String × String)
  | [] => []
  | x :: xs => insertByLen x (sortByLenDesc xs)

/-- Concept phrases sorted by string length, longest first
(`normalizeConceptsInText` sorts with `b.phrase.length - a.phrase.length`,
a stable sort); the idempotence proof below is independent of the order. -/
def sortedConceptKeys : List (String × String) :=
  sortByLenDesc conceptIndex

/-! ## Arithmetic facts about the phrase measure -/

theorem sumLen_nil : sumLen [] = 0 := rfl

theorem sumLen_cons (w : String) (p : Phrase) :
    sumLen (w :: p) = w.length + 1 + sumLen p := by
  simp [sumLen]; omega

theorem sumLen_append (p q : Phrase) : sumLen (p ++ q) = sumLen p + sumLen q := by
  simp [sumLen]; omega

theorem sumLen_reverse (p : Phrase) : sumLen p.reverse = sumLen p := by
  simp [sumLen, List.sum_reverse]

theorem sumLen_pos_of_ne_nil {p : Phrase} (h : p ≠ []) : 1 ≤ sumLen p := by
  cases p with
  | nil => exact absurd rfl h
  | cons w q => rw [sumLen_cons]; omega

theorem sumLen_take_le (p : Phrase) (n : Nat) : sumLen (p.take n) ≤ sumLen p := by
  conv_rhs => rw [← List.take_append_drop n p]
  rw [sumLen_append]; omega

theorem sumLen_drop_le (p : Phrase) (n : Nat) : sumLen (p.drop n) ≤ sumLen p := by
  conv_rhs => rw [← List.take_append_drop n p]
  rw [sumLen_append]; omega

/-! ## Generic token-position matchers

These model the backtracking of the source regexes `(.+?)\s+<delim>\s+(.+)$`
and `(.+?)\s+<delim1>\s+<delim2>\s+(.+)$`: the leftmost token position at
which the delimiter tokens match and the remaining captures are nonempty. -/

/-- Leftmost split `p = left ++ [t] ++ rest` with `left, rest` nonempty and
`c1 t`.  Models `^(.+?)\s+(<delim>)\s+(.+)$`. -/
def splitTok1 (c1 : String → Bool) : Phrase → Option (Phrase × String × Phrase) :=
  go []
where
  /-- Scanner with the already-consumed (reversed) left context. -/
  go (acc : Phrase) : Phrase → Option (Phrase × String × Phrase)
  | [] => none
  | w :: ws =>
    if c1 w && !acc.isEmpty && !ws.isEmpty then some (acc.reverse, w, ws)
    else go (w :: acc) ws

/-- Leftmost split `p = left ++ [t] ++ [m] ++ rest` with `left, rest`
nonempty, `c1 t` and `c2 m`.  Models
`^(.+?)\s+(<delim1>)\s+(<delim2>)\s+(.+)$` (the second delimiter also covers
`([^\s]+)`, a single token). -/
def splitTok2 (c1 c2 : String → Bool) : Phrase → Option (Phrase × String × String × Phrase) :=
  go []
where
  /-- Scanner with the already-consumed (reversed) left context. -/
  go (acc : Phrase) : Phrase → Option (Phrase × String × String × Phrase)
  | [] => none
  | [_] => none
  | w :: m :: ws =>
    if c1 w && c2 m && !acc.isEmpty && !ws.isEmpty then some (acc.reverse, w, m, ws)
    else go (w :: acc) (m :: ws)

theorem splitTok1_go_sound (c1 : String → Bool) (acc : Phrase) (p : Phrase)
    (l : Phrase) (t : String) (r : Phrase)
    (h : splitTok1.go c1 acc p = some (l, t, r)) :
    acc.reverse ++ p = l ++ [t] ++ r ∧ l ≠ [] ∧ r ≠ [] ∧ c1 t = true := by
  induction p generalizing acc with
  | nil => simp [splitTok1.go] at h
  | cons w ws ih =>
    rw [splitTok1.go] at h
    by_cases hc : (c1 w && !acc.isEmpty && !ws.isEmpty) = true
    · rw [if_pos hc] at h
      simp only [Option.some.injEq, Prod.mk.injEq] at h
      obtain ⟨h1, h2, h3⟩ := h
      subst h1; subst h2; subst h3
      simp only [Bool.and_eq_true, Bool.not_eq_true'] at hc
      refine ⟨by simp, ?_, ?_, hc.1.1⟩
      · intro he; simp only [List.reverse_eq_nil_iff] at he; simp [he] at hc
      · intro he; simp [he] at hc
    · rw [if_neg hc] at h
      have := ih (w :: acc) h
      simpa using this

theorem splitTok1_sound (c1 : String → Bool) (p l : Phrase) (t : String) (r : Phrase)
    (h : splitTok1 c1 p = some (l, t, r)) :
    p = l ++ [t] ++ r ∧ l ≠ [] ∧ r ≠ [] ∧ c1 t = true := by
  have := splitTok1_go_sound c1 [] p l t r h
  simpa using this

theorem splitTok2_go_sound (c1 c2 : String → Bool) (acc : Phrase) (p : Phrase)
    (l : Phrase) (t m : String) (r : Phrase)
    (h : splitTok2.go c1 c2 acc p = some (l, t, m, r)) :
    acc.reverse ++ p = l ++ [t] ++ [m] ++ r ∧ l ≠ [] ∧ r ≠ [] ∧
      c1 t = true ∧ c2 m = true := by
  induction p generalizing acc with
  | nil => simp [splitTok2.go] at h
  | cons w ws ih =>
    cases ws with
    | nil => simp [splitTok2.go] at h
    | cons m' ws' =>
      rw [splitTok2.go] at h
      by_cases hc : (c1 w && c2 m' && !acc.isEmpty && !ws'.isEmpty) = true
      · rw [if_pos hc] at h
        simp only [Option.some.injEq, Prod.mk.injEq] at h
        obtain ⟨h1, h2, h3, h4⟩ := h
        subst h1; subst h2; subst h3; subst h4
        simp only [Bool.and_eq_true, Bool.not_eq_true'] at hc
        refine ⟨by simp, ?_, ?_, hc.1.1.1, hc.1.1.2⟩
        · intro he; simp only [List.reverse_eq_nil_iff] at he; simp [he] at hc
        · intro he; simp [he] at hc
      · rw [if_neg hc] at h
        have := ih (w :: acc) h
        simpa using this

theorem splitTok2_sound (c1 c2 : String → Bool) (p l : Phrase) (t m : String) (r : Phrase)
    (h : splitTok2 c1 c2 p = some (l, t, m, r)) :
    p = l ++ [t] ++ [m] ++ r ∧ l ≠ [] ∧ r ≠ [] ∧ c1 t = true ∧ c2 m = true := by
  have := splitTok2_go_sound c1 c2 [] p l t m r h
  simpa using this

/-! ## Splitting a phrase on a character (`split(/,\s*/)`, `split(/\s*\/\s*/)`)

A separator character may occur inside tokens; pieces of a split token fall
into adjacent parts, surrounding whitespace is absorbed by the token
boundaries and parts never contain empty words (`trim`). -/

/-- Append a token piece to a (reversed) current part, skipping empty
pieces (the `trim` of the source). -/
def addWord (cur : Phrase) (l : List Char) : Phrase :=
  if l = [] then cur else (⟨l⟩ : String) :: cur

/-- Distribute the separator-split pieces of one token: all but the last
piece close a part, the last piece opens the continuation part.  Returns
(closed parts, new current part). -/
def spcPieces : List (List Char) → Phrase → (List Phrase × Phrase)
  | [], cur => ([], cur)
  | [l], cur => ([], addWord cur l)
  | l :: l' :: rest, cur =>
    let r := spcPieces (l' :: rest) []
    ((addWord cur l).reverse :: r.1, r.2)

/-- Walk the tokens of a phrase, splitting at every occurrence of the
separator character. -/
def spcGo (sep : Char) : List String → Phrase → List Phrase
  | [], cur => [cur.reverse]
  | w :: ws, cur =>
    let pr := spcPieces (charSplit sep w.data) cur
    pr.1 ++ spcGo sep ws pr.2

/-- Split a phrase at every occurrence of a separator character. -/
def splitPhraseChar (sep : Char) (p : Phrase) : List Phrase := spcGo sep p []

/-- Comma split with trim and removal of empty entries:
`phrase.split(/,\s*/).map(p => p.trim()).filter(p => p)`. -/
def commaSplitParts (p : Phrase) : List Phrase :=
  (splitPhraseChar ',' p).filter (· ≠ [])

theorem charSplit_sum (sep : Char) (cs : List Char) :
    ((charSplit sep cs).map List.length).sum + (charSplit sep cs).length = cs.length + 1 := by
  induction cs with
  | nil => simp [charSplit]
  | cons c cs ih =>
    rw [charSplit]
    by_cases h : c = sep
    · simp only [if_pos h, List.map_cons, List.length_cons, List.sum_cons, List.length]
      omega
    · rw [if_neg h]
      rcases hr : charSplit sep cs with - | ⟨p, ps⟩
      · simp [hr] at ih
      · rw [hr] at ih
        simp only [List.map_cons, List.sum_cons, List.length_cons] at ih ⊢
        omega

theorem charSplit_ne_nil (sep : Char) (cs : List Char) : charSplit sep cs ≠ [] := by
  cases cs with
  | nil => simp [charSplit]
  | cons c cs =>
    rw [charSplit]
    by_cases h : c = sep
    · simp [h]
    · rw [if_neg h]
      rcases hr : charSplit sep cs with - | ⟨p, ps⟩ <;> simp

theorem charSplit_chars (sep : Char) (l : List Char) (p : List Char)
    (hp : p ∈ charSplit sep l) (c : Char) (hc : c ∈ p) : c ∈ l := by
  induction l generalizing p with
  | nil =>
    rw [charSplit, List.mem_singleton] at hp
    subst hp
    simp at hc
  | cons x xs ih =>
    rw [charSplit] at hp
    by_cases hx : x = sep
    · rw [if_pos hx] at hp
      rcases List.mem_cons.mp hp with hp | hp
      · subst hp; simp at hc
      · exact List.mem_cons_of_mem x (ih p hp hc)
    · rw [if_neg hx] at hp
      cases hr : charSplit sep xs with
      | nil =>
        rw [hr] at hp
        rw [List.mem_singleton] at hp
        subst hp
        rw [List.mem_singleton] at hc
        subst hc
        exact List.mem_cons_self c xs
      | cons q qs =>
        rw [hr] at hp
        rcases List.mem_cons.mp hp with hp | hp
        · subst hp
          rcases List.mem_cons.mp hc with hc | hc
          · subst hc; exact List.mem_cons_self c xs
          · exact List.mem_cons_of_mem x (ih q (by rw [hr]; exact List.mem_cons_self q qs) hc)
        · exact List.mem_cons_of_mem x
            (ih p (by rw [hr]; exact List.mem_cons_of_mem q hp) hc)

theorem sumLen_addWord (cur : Phrase) (l : List Char) :
    sumLen (addWord cur l) ≤ sumLen cur + l.length + 1 := by
  rw [addWord]
  by_cases h : l = []
  · simp [h]
  · rw [if_neg h, sumLen_cons]
    simp only [String.length]
    omega

theorem spcPieces_sum (pieces : List (List Char)) (cur : Phrase) :
    ((spcPieces pieces cur).1.map sumLen).sum + sumLen (spcPieces pieces cur).2 ≤
      sumLen cur + (pieces.map List.length).sum + pieces.length := by
  induction pieces generalizing cur with
  | nil => simp [spcPieces]
  | cons l rest ih =>
    cases rest with
    | nil =>
      simp only [spcPieces, List.map_nil, List.sum_nil, List.map_cons, List.sum_cons,
        List.length_cons, List.length_nil]
      have := sumLen_addWord cur l
      omega
    | cons l' rest' =>
      rw [spcPieces]
      simp only [List.map_cons, List.sum_cons, List.length_cons]
      have h1 := ih []
      have h2 := sumLen_addWord cur l
      have h3 := sumLen_reverse (addWord cur l)
      simp only [sumLen_nil, List.map_cons, List.sum_cons, List.length_cons] at h1
      omega

theorem spcGo_sum (sep : Char) (ws : List String) (cur : Phrase) :
    ((spcGo sep ws cur).map sumLen).sum ≤ sumLen cur + sumLen ws := by
  induction ws generalizing cur with
  | nil => simp [spcGo, sumLen_reverse]
  | cons w ws ih =>
    rw [spcGo]
    simp only [List.map_append, List.sum_append]
    have h1 := spcPieces_sum (charSplit sep w.data) cur
    have h2 := ih (spcPieces (charSplit sep w.data) cur).2
    have h3 := charSplit_sum sep w.data
    have h4 : (charSplit sep w.data).length ≥ 1 := by
      have := charSplit_ne_nil sep w.data
      cases hc : charSplit sep w.data with
      | nil => exact absurd hc this
      | cons a b => simp
    rw [sumLen_cons]
    have hw : w.data.length = w.length := rfl
    omega

theorem splitPhraseChar_sum (sep : Char) (p : Phrase) :
    ((splitPhraseChar sep p).map sumLen).sum ≤ sumLen p := by
  have := spcGo_sum sep p []
  simpa [splitPhraseChar, sumLen_nil] using this

theorem sumLen_le_sum_of_mem {l : List Phrase} {q : Phrase} (h : q ∈ l) :
    sumLen q ≤ (l.map sumLen).sum := by
  induction l with
  | nil => simp at h
  | cons a l ih =>
    rcases List.mem_cons.mp h with h1 | h2
    · subst h1; simp
    · have := ih h2; simp; omega

/-- Any member of a character split is no larger than the input phrase. -/
theorem splitPhraseChar_mem_le (sep : Char) (p q : Phrase)
    (h : q ∈ splitPhraseChar sep p) : sumLen q ≤ sumLen p :=
  le_trans (sumLen_le_sum_of_mem h) (splitPhraseChar_sum sep p)

theorem sum_filter_ne_nil_eq (l : List Phrase) :
    ((l.filter (· ≠ [])).map sumLen).sum = (l.map sumLen).sum := by
  induction l with
  | nil => simp
  | cons a t ih =>
    by_cases ha : a = []
    · subst ha
      simpa [List.filter_cons, sumLen_nil] using ih
    · rw [List.filter_cons, if_pos (by simp [ha])]
      simp only [List.map_cons, List.sum_cons]
      omega

theorem mem_two_sum_lt {f : List Phrase} {q : Phrase}
    (hall : ∀ x ∈ f, x ≠ []) (hq : q ∈ f) (hlen : 2 ≤ f.length) :
    sumLen q + 1 ≤ (f.map sumLen).sum := by
  induction f with
  | nil => simp at hq
  | cons a t ih =>
    simp only [List.map_cons, List.sum_cons]
    rcases List.mem_cons.mp hq with h1 | h2
    · subst h1
      cases t with
      | nil => simp at hlen
      | cons b t' =>
        have hb : b ≠ [] := hall b (by simp)
        have : 1 ≤ sumLen b := sumLen_pos_of_ne_nil hb
        simp only [List.map_cons, List.sum_cons]
        omega
    · cases t with
      | nil => simp at h2
      | cons b t' =>
        cases t' with
        | nil =>
          simp only [List.mem_singleton] at h2
          subst h2
          have ha : a ≠ [] := hall a (by simp)
          have : 1 ≤ sumLen a := sumLen_pos_of_ne_nil ha
          simp only [List.map_cons, List.sum_cons, List.map_nil, List.sum_nil]
          omega
        | cons c t'' =>
          have := ih (fun x hx => hall x (List.mem_cons_of_mem a hx)) h2 (by simp)
          omega

/-- When the filtered split has at least two parts, every part is strictly
smaller than the input (some other nonempty part and a separator are missing
from it). -/
theorem splitFilter_mem_lt (sep : Char) (p q : Phrase)
    (hq : q ∈ (splitPhraseChar sep p).filter (· ≠ []))
    (hlen : 2 ≤ ((splitPhraseChar sep p).filter (· ≠ [])).length) :
    sumLen q < sumLen p := by
  have hall : ∀ x ∈ (splitPhraseChar sep p).filter (· ≠ []), x ≠ [] := by
    intro x hx
    have := List.of_mem_filter hx
    simpa using this
  have h1 := mem_two_sum_lt hall hq hlen
  have h2 := sum_filter_ne_nil_eq (splitPhraseChar sep p)
  have h3 := splitPhraseChar_sum sep p
  omega

/-! ## First-comma split and other small scanners -/

/-- First usable comma of a character list: the leftmost comma that has at
least one character before it in the enclosing string (`nonempty` records
whether characters precede).  Earlier, unusable commas stay inside the left
capture, as `(.+?),` allows. -/
def firstCommaFrom (nonempty : Bool) : List Char → Option (List Char × List Char)
  | [] => none
  | c :: rest =>
    if c = ',' && nonempty then some ([], rest)
    else (firstCommaFrom true rest).map (fun pr => (c :: pr.1, pr.2))

/-- Split a phrase at the first comma preceded by at least one character —
the `^(.+?),` part of the Oxford-comma patterns. -/
def commaSplitOnce : Phrase → Option (Phrase × Phrase) :=
  go []
where
  /-- Scanner carrying the (reversed) tokens before the comma. -/
  go (acc : Phrase) : Phrase → Option (Phrase × Phrase)
  | [] => none
  | w :: ws =>
    match firstCommaFrom (!acc.isEmpty) w.data with
    | some (pre, post) =>
      some (acc.reverse ++ (if pre = [] then [] else [(⟨pre⟩ : String)]),
            (if post = [] then [] else [(⟨post⟩ : String)]) ++ ws)
    | none => go (w :: acc) ws

theorem firstCommaFrom_len (b : Bool) (cs pre post : List Char)
    (h : firstCommaFrom b cs = some (pre, post)) :
    pre.length + post.length + 1 = cs.length := by
  induction cs generalizing b pre with
  | nil => simp [firstCommaFrom] at h
  | cons c rest ih =>
    rw [firstCommaFrom] at h
    by_cases hc : (c = ',' && b) = true
    · rw [if_pos hc] at h
      simp only [Option.some.injEq, Prod.mk.injEq] at h
      obtain ⟨h1, h2⟩ := h
      subst h1; subst h2
      simp
    · rw [if_neg hc] at h
      rcases hr : firstCommaFrom true rest with - | ⟨pr1, pr2⟩
      · rw [hr] at h; simp at h
      · rw [hr] at h
        simp only [Option.map_some', Option.some.injEq, Prod.mk.injEq] at h
        obtain ⟨h1, h2⟩ := h
        subst h2
        have := ih true pr1 hr
        subst h1
        simp only [List.length_cons]
        omega

theorem commaSplitOnce.go_len (acc p a b : Phrase)
    (h : commaSplitOnce.go acc p = some (a, b)) :
    sumLen a + sumLen b ≤ sumLen acc + sumLen p := by
  induction p generalizing acc with
  | nil => simp [commaSplitOnce.go] at h
  | cons w ws ih =>
    rw [commaSplitOnce.go] at h
    rcases hf : firstCommaFrom (!acc.isEmpty) w.data with - | ⟨pre, post⟩
    · rw [hf] at h
      have := ih (w :: acc) h
      rw [sumLen_cons] at this ⊢
      omega
    · rw [hf] at h
      simp only [Option.some.injEq, Prod.mk.injEq] at h
      obtain ⟨h1, h2⟩ := h
      subst h1; subst h2
      have hlen := firstCommaFrom_len _ _ _ _ hf
      have hwl : w.data.length = w.length := rfl
      rw [sumLen_append, sumLen_reverse, sumLen_append, sumLen_cons]
      have hpre : sumLen (if pre = [] then [] else [(⟨pre⟩ : String)]) ≤ pre.length + 1 := by
        by_cases hp : pre = []
        · rw [if_pos hp]; rw [sumLen_nil]; omega
        · rw [if_neg hp, sumLen_cons]
          simp only [String.length, sumLen_nil]
          omega
      have hpost : sumLen (if post = [] then [] else [(⟨post⟩ : String)]) ≤ post.length + 1 := by
        by_cases hp : post = []
        · rw [if_pos hp]; rw [sumLen_nil]; omega
        · rw [if_neg hp, sumLen_cons]
          simp only [String.length, sumLen_nil]
          omega
      omega

theorem commaSplitOnce_len (p a b : Phrase) (h : commaSplitOnce p = some (a, b)) :
    sumLen a + sumLen b ≤ sumLen p := by
  have := commaSplitOnce.go_len [] p a b h
  simpa [sumLen_nil] using this

/-- Strip one trailing comma (and the word, when the comma was the whole
word) from the end of a phrase — `prefix.replace(/,\s*$/, '').trim()`.
Only the last word can carry the trailing comma. -/
def stripTrailingComma : Phrase → Phrase
  | [] => []
  | [w] =>
    match w.data.getLast? with
    | none => [w]
    | some c =>
      if c = ',' then (if w.data.length = 1 then [] else [(⟨w.data.dropLast⟩ : String)])
      else [w]
  | w :: x :: rest => w :: stripTrailingComma (x :: rest)

theorem stripTrailingComma_le (p : Phrase) : sumLen (stripTrailingComma p) ≤ sumLen p := by
  induction p with
  | nil => rw [stripTrailingComma]
  | cons w rest ih =>
    cases rest with
    | nil =>
      rw [stripTrailingComma]
      split
      · exact le_refl _
      · split
        · split
          · rw [sumLen_nil]; omega
          · rw [sumLen_cons, sumLen_cons]
            simp only [String.length, sumLen_nil, List.length_dropLast]
            omega
        · exact le_refl _
    | cons x rest' =>
      rw [stripTrailingComma, sumLen_cons, sumLen_cons]
      omega

/-- Split a phrase at every standalone `and`/`or` token (used by the
`such as` example splitter). -/
def splitAtConjToks : Phrase → List Phrase :=
  go []
where
  /-- Scanner carrying the (reversed) current part. -/
  go (cur : Phrase) : Phrase → List Phrase
  | [] => [cur.reverse]
  | w :: ws => if conjTok w then cur.reverse :: go [] ws else go (w :: cur) ws

theorem splitAtConjToks.go_sum (cur : Phrase) (p : Phrase) :
    ((splitAtConjToks.go cur p).map sumLen).sum ≤ sumLen cur + sumLen p := by
  induction p generalizing cur with
  | nil => simp [splitAtConjToks.go, sumLen_reverse, sumLen_nil]
  | cons w ws ih =>
    rw [splitAtConjToks.go]
    by_cases hc : conjTok w = true
    · rw [if_pos hc]
      simp only [List.map_cons, List.sum_cons]
      have := ih []
      rw [sumLen_cons, sumLen_reverse]
      simp only [sumLen_nil] at this
      omega
    · rw [if_neg hc]
      have := ih (w :: cur)
      rw [sumLen_cons] at this ⊢
      omega

/-- Example-list splitter of `expandSuchAs`:
`examples.split(/\s*,\s*(?:and\s+|or\s+)?|\s+and\s+|\s+or\s+/i)` with trim
and removal of empty entries — split at commas and at standalone
`and`/`or` tokens. -/
def suchAsParts (examples : Phrase) : List Phrase :=
  ((splitPhraseChar ',' examples).flatMap splitAtConjToks).filter (· ≠ [])

theorem suchAsParts_mem_le (examples q : Phrase) (h : q ∈ suchAsParts examples) :
    sumLen q ≤ sumLen examples := by
  have hmem : q ∈ (splitPhraseChar ',' examples).flatMap splitAtConjToks :=
    List.mem_of_mem_filter h
  rw [List.mem_flatMap] at hmem
  obtain ⟨part, hpart, hq⟩ := hmem
  have h1 : sumLen q ≤ sumLen part := by
    have := sumLen_le_sum_of_mem hq
    have h2 := splitAtConjToks.go_sum [] part
    simp only [sumLen_nil] at h2
    calc sumLen q ≤ _ := this
    _ ≤ _ := by rw [splitAtConjToks] at *; omega
  exact le_trans h1 (splitPhraseChar_mem_le ',' examples part hpart)

/-! ## Non-recursive expansion helpers of `StatementParser` -/

/-- Slash expansion with shared outer words
(`StatementParser.expandSlashPattern`): the words before the first
slash-carrying token and after the last one are distributed over the
slash-separated alternatives. -/
def expandSlashPattern (p : Phrase) : List Phrase :=
  let pre := p.takeWhile (fun w => !strHasChar w '/')
  if pre.length = p.length then [p]
  else
    let rest := p.drop pre.length
    let sufRev := rest.reverse.takeWhile (fun w => !strHasChar w '/')
    let suf := sufRev.reverse
    let segment := rest.take (rest.length - suf.length)
    let alternatives := (splitPhraseChar '/' segment).filter (· ≠ [])
    if alternatives.length ≤ 1 then [p]
    else alternatives.map (fun alt => pre ++ alt ++ suf)

/-- Members of a slash expansion are strictly smaller than the input unless
the expansion is the trivial `[p]`. -/
theorem expandSlashPattern_mem_lt (p q : Phrase)
    (hq : q ∈ expandSlashPattern p) (hne : expandSlashPattern p ≠ [p]) :
    sumLen q < sumLen p := by
  rw [expandSlashPattern] at hq hne
  by_cases hpre : (p.takeWhile (fun w => !strHasChar w '/')).length = p.length
  · rw [if_pos hpre] at hne
    exact absurd rfl hne
  · rw [if_neg hpre] at hq hne
    set pre := p.takeWhile (fun w => !strHasChar w '/') with hpredef
    set rest := p.drop pre.length with hrest
    set suf := (rest.reverse.takeWhile (fun w => !strHasChar w '/')).reverse with hsuf
    set segment := rest.take (rest.length - suf.length) with hseg
    set alternatives := (splitPhraseChar '/' segment).filter (· ≠ []) with halt
    by_cases hlen : alternatives.length ≤ 1
    · rw [if_pos hlen] at hne
      exact absurd rfl hne
    · rw [if_neg hlen] at hq
      rw [List.mem_map] at hq
      obtain ⟨alt, halt_mem, hqeq⟩ := hq
      subst hqeq
      have h2 : 2 ≤ alternatives.length := by omega
      have hlt : sumLen alt < sumLen segment :=
        splitFilter_mem_lt '/' segment alt halt_mem h2
      -- p decomposes as pre ++ segment ++ suf
      obtain ⟨t, ht⟩ : ∃ t, pre ++ t = p := List.takeWhile_prefix _
      have hrestt : rest = t := by
        rw [hrest, ← ht, List.drop_left]
      obtain ⟨t', ht'⟩ : ∃ t', rest.reverse.takeWhile (fun w => !strHasChar w '/') ++ t' =
          rest.reverse := List.takeWhile_prefix _
      have hrest2 : rest = t'.reverse ++ suf := by
        rw [hsuf]
        have := congrArg List.reverse ht'
        simp only [List.reverse_append, List.reverse_reverse] at this
        exact this.symm
      have hseglen : rest.length - suf.length = t'.reverse.length := by
        rw [hrest2]
        simp only [List.length_append, List.length_reverse]
        omega
      have hsegeq : segment = t'.reverse := by
        rw [hseg, hseglen, hrest2, List.take_left]
      have hdecomp : p = pre ++ (segment ++ suf) := by
        rw [hsegeq, ← hrest2, hrestt, ← ht]
      have hkey : sumLen (pre ++ alt ++ suf) < sumLen (pre ++ (segment ++ suf)) := by
        rw [sumLen_append, sumLen_append, sumLen_append, sumLen_append]
        omega
      rw [← hdecomp] at hkey
      exact hkey

/-- Such-as expansion (`StatementParser.expandSuchAs`): emit the cleaned
category phrase followed by the split example list; identity when the
pattern does not match or the cleaned category is empty. -/
def expandSuchAs (p : Phrase) : List Phrase :=
  match splitTok2 (fun w => lowerStr w = "such") (fun w => lowerStr w = "as") p with
  | none => [p]
  | some (pre, _, _, examples) =>
    let cleanPre := stripTrailingComma pre
    let parts := suchAsParts examples
    if 1 ≤ parts.length && !cleanPre.isEmpty then cleanPre :: parts else [p]

/-- Simple two-way split (`StatementParser.expandSimpleConjunction`):
`X and Y` into `[X, Y]` at the first conjunction. -/
def expandSimpleConjunction (p : Phrase) : List Phrase :=
  match splitTok1 conjTok p with
  | some (left, _, right) => [left, right]
  | none => [p]

/-- Oxford-comma split of a phrase
(`^(.+?),\s*(.+?),?\s*(and|or)\s+(.+)$`): the words before the first usable
comma, the comma-split middle section up to the first conjunction token, and
the remainder after it. -/
def oxfordSplit (p : Phrase) : Option (Phrase × List Phrase × Phrase) :=
  match commaSplitOnce p with
  | none => none
  | some (first, rest2) =>
    match splitTok1 conjTok rest2 with
    | none => none
    | some (middleRaw, _, last) =>
      some (first, commaSplitParts (stripTrailingComma middleRaw), last)

/-- Object-list expansion (`StatementParser.expandObjectList`): Oxford comma
list, else simple conjunction, else comma list, else identity. -/
def expandObjectList (p : Phrase) : List Phrase :=
  match oxfordSplit p with
  | some (first, middleParts, last) => first :: middleParts ++ [last]
  | none =>
    match splitTok1 conjTok p with
    | some (left, _, right) => [left, right]
    | none =>
      if hasComma p then commaSplitParts p
      else [p]

/-- Connector phrases of `expandNestedConjunction`, as token sequences. -/
def connectorPhrases : List Phrase :=
  [["concerned", "with"], ["related", "to"], ["involved", "in"],
   ["responsible", "for"], ["engaged", "in"], ["associated", "with"],
   ["dealing", "with"], ["focused", "on"], ["pertaining", "to"],
   ["regarding"]]

/-- The character sequence of the space-join of a phrase (the string the
source holds when the phrase reaches `expandNestedConjunction`). -/
def joinChars : Phrase → List Char
  | [] => []
  | [w] => w.data
  | w :: x :: xs => w.data ++ ' ' :: joinChars (x :: xs)

/-- Character index of the first occurrence of a pattern
(JavaScript `indexOf`: character-level, substring matches included). -/
def strIndexOf (pat : List Char) : List Char → Option Nat
  | [] => if pat.isPrefixOf ([] : List Char) then some 0 else none
  | c :: cs =>
    if pat.isPrefixOf (c :: cs) then some 0
    else (strIndexOf pat cs).map (· + 1)

/-- Nested-conjunction expansion
(`StatementParser.expandNestedConjunction`): the connector is located by a
character-level `indexOf` on the lowercased joined phrase (so it may match
inside a token), the original string is sliced around the occurrence,
both slices are re-tokenized, and a subject-side conjunction combines with
an object list as a cartesian product. -/
def expandNestedConjunction (p : Phrase) : List Phrase :=
  go connectorPhrases
where
  /-- Try each connector phrase in order, as the source's `for` loop. -/
  go : List Phrase → List Phrase
  | [] => [p]
  | conn :: more =>
    match strIndexOf (joinChars conn) ((joinChars p).map Char.toLower) with
    | none => go more
    | some i =>
      let subjectPart := wordsOfChars ((joinChars p).take i)
      let objectPart := wordsOfChars ((joinChars p).drop (i + (joinChars conn).length))
      if !hasConjB subjectPart then go more
      else if hasComma subjectPart then go more
      else if !hasComma objectPart && !hasConjB objectPart then go more
      else
        let subjects := expandSimpleConjunction subjectPart
        let objects := expandObjectList objectPart
        if 1 < subjects.length || 1 < objects.length then
          subjects.flatMap (fun su => objects.map (fun ob => su ++ conn ++ ob))
        else go more

/-- Fixed compound-phrase idiom set of `isCompoundPhrase`. -/
def compoundPhraseSet : List String :=
  ["record keeping", "record-keeping", "policy changes", "cost reduction",
   "quality control", "data management", "risk management",
   "project management", "change management", "time management",
   "resource allocation", "budget allocation", "staff development",
   "team building", "problem solving", "decision making", "policy making",
   "rule making", "law enforcement", "code enforcement"]

/-- Verb alternation of the gerund heuristic in `isCompoundPhrase`
(`verbPatterns`). -/
def compoundVerbPatterns : List String :=
  ["assign", "delegate", "implement", "develop", "manage", "create",
   "ensure", "maintain", "review", "approve", "coordinate", "direct",
   "evaluate", "identify", "analyze", "perform", "conduct", "establish",
   "prepare", "provide", "support", "monitor", "report", "document",
   "communicate", "facilitate", "generate", "produce", "process",
   "recommend", "select", "determine", "define", "design", "plan",
   "organize", "lead", "guide", "handle", "negotiate", "resolve",
   "validate", "verify", "test", "train", "assess", "measure", "inspect",
   "investigate", "research", "execute", "deliver"]

/-- The six verbs excluded from the gerund and business-suffix heuristics
(`^(assign|implement|develop|manage|create|ensure)$`). -/
def compoundSmallVerbSet : List String :=
  ["assign", "implement", "develop", "manage", "create", "ensure"]

/-- Business suffixes of `isCompoundPhrase` (`businessSuffixes`). -/
def businessSuffixList : List String :=
  ["changes", "reduction", "allocation", "management", "development",
   "building", "solving", "making", "enforcement", "control", "planning",
   "analysis", "assessment", "evaluation", "implementation"]

/-- Case-insensitive suffix test (`/ing$/i` and the like). -/
def endsWithCI (suf : String) (s : String) : Bool :=
  (suf.data.map Char.toLower).isSuffixOf (s.data.map Char.toLower)

/-- Compound-phrase heuristic (`StatementParser.isCompoundPhrase`): the
idiom set, the gerund rule, and the business-suffix rule.  `middle` is a
single word, `suffix` the joined suffix string. -/
def isCompoundPhrase (middle suffix : String) : Bool :=
  let middleLower := lowerStr middle
  let suffixLower := lowerStr suffix
  let combined := middleLower ++ " " ++ suffixLower
  if compoundPhraseSet.contains combined then true
  else if endsWithCI "ing" suffix && !compoundSmallVerbSet.contains middleLower &&
      !compoundVerbPatterns.contains middleLower then true
  else if businessSuffixList.contains suffixLower &&
      !compoundSmallVerbSet.contains middleLower then true
  else false

/-- Does a phrase need expansion (`StatementParser.needsExpansion`)? -/
def needsExpansion (p : Phrase) : Bool :=
  hasConjB p || hasComma p || hasSlash p || hasSuchAs p

/-! ## Size bounds for the helpers -/

theorem lowerStr_length (s : String) : (lowerStr s).length = s.length :=
  List.length_map _ _

theorem conjTok_len {t : String} (h : conjTok t = true) : 2 ≤ t.length := by
  rw [conjTok] at h
  rcases Bool.or_eq_true_iff.mp h with h1 | h1 <;>
  · have h2 := congrArg String.length (of_decide_eq_true h1)
    rw [lowerStr_length] at h2
    rw [h2]
    decide

theorem expandSimpleConjunction_mem_le (p q : Phrase)
    (h : q ∈ expandSimpleConjunction p) : sumLen q ≤ sumLen p := by
  rw [expandSimpleConjunction] at h
  rcases hs : splitTok1 conjTok p with - | ⟨l, t, r⟩
  · rw [hs] at h
    simp only [List.mem_singleton] at h
    subst h; exact le_refl _
  · rw [hs] at h
    obtain ⟨hp, -, -, -⟩ := splitTok1_sound conjTok p l t r hs
    rcases List.mem_cons.mp h with h | h
    · subst h; rw [hp, sumLen_append, sumLen_append, sumLen_cons, sumLen_nil]; omega
    rcases List.mem_cons.mp h with h | h
    · subst h; rw [hp, sumLen_append, sumLen_append, sumLen_cons, sumLen_nil]; omega
    · simp at h

theorem oxfordSplit_bounds (p first last : Phrase) (middleParts : List Phrase)
    (h : oxfordSplit p = some (first, middleParts, last)) :
    sumLen first + 4 ≤ sumLen p ∧ sumLen last + 4 ≤ sumLen p ∧
      ∀ q ∈ middleParts, sumLen q + 4 ≤ sumLen p := by
  rw [oxfordSplit] at h
  rcases hc : commaSplitOnce p with - | ⟨f, rest2⟩
  · rw [hc] at h; simp at h
  · rw [hc] at h
    dsimp only at h
    rcases hs : splitTok1 conjTok rest2 with - | ⟨mr, t, la⟩
    · rw [hs] at h; simp at h
    · rw [hs] at h
      dsimp only at h
      simp only [Option.some.injEq, Prod.mk.injEq] at h
      obtain ⟨h1, h2, h3⟩ := h
      subst h1; subst h2; subst h3
      have hlen := commaSplitOnce_len p f rest2 hc
      obtain ⟨hr2, hmrne, hlane, hconj⟩ := splitTok1_sound conjTok rest2 mr t la hs
      have htlen : 2 ≤ t.length := conjTok_len hconj
      have hmr1 : 1 ≤ sumLen mr := sumLen_pos_of_ne_nil hmrne
      have hla1 : 1 ≤ sumLen la := sumLen_pos_of_ne_nil hlane
      have hrest2 : sumLen rest2 = sumLen mr + (t.length + 1) + sumLen la := by
        rw [hr2, sumLen_append, sumLen_append, sumLen_cons, sumLen_nil]
      refine ⟨by omega, by omega, ?_⟩
      intro q hq
      have hq1 : sumLen q ≤ sumLen (stripTrailingComma mr) :=
        le_trans (sumLen_le_sum_of_mem (List.mem_of_mem_filter hq))
          (by
            have h6 := sum_filter_ne_nil_eq (splitPhraseChar ',' (stripTrailingComma mr))
            have h7 := splitPhraseChar_sum ',' (stripTrailingComma mr)
            rw [commaSplitParts] at *
            omega)
      have hq2 := stripTrailingComma_le mr
      omega

theorem expandObjectList_mem_le (p q : Phrase)
    (h : q ∈ expandObjectList p) : sumLen q ≤ sumLen p := by
  rw [expandObjectList] at h
  rcases ho : oxfordSplit p with - | ⟨first, middleParts, last⟩
  · rw [ho] at h
    rcases hs : splitTok1 conjTok p with - | ⟨l, t, r⟩
    · rw [hs] at h
      by_cases hcm : hasComma p = true
      · rw [if_pos hcm] at h
        exact le_trans (sumLen_le_sum_of_mem (List.mem_of_mem_filter h))
          (by
            have h6 := sum_filter_ne_nil_eq (splitPhraseChar ',' p)
            have h7 := splitPhraseChar_sum ',' p
            rw [commaSplitParts] at *
            omega)
      · rw [if_neg hcm] at h
        simp only [List.mem_singleton] at h
        subst h; exact le_refl _
    · rw [hs] at h
      obtain ⟨hp, -, -, -⟩ := splitTok1_sound conjTok p l t r hs
      rcases List.mem_cons.mp h with h | h
      · subst h; rw [hp, sumLen_append, sumLen_append, sumLen_cons, sumLen_nil]; omega
      rcases List.mem_cons.mp h with h | h
      · subst h; rw [hp, sumLen_append, sumLen_append, sumLen_cons, sumLen_nil]; omega
      · simp at h
  · rw [ho] at h
    obtain ⟨h1, h2, h3⟩ := oxfordSplit_bounds p first last middleParts ho
    rcases List.mem_cons.mp h with h | h
    · subst h; omega
    rcases List.mem_append.mp h with h | h
    · have := h3 q h; omega
    · rcases List.mem_cons.mp h with h | h
      · subst h; omega
      · simp at h

theorem strIndexOf_le (pat : List Char) :
    ∀ (cs : List Char) (i : Nat), strIndexOf pat cs = some i →
      i + pat.length ≤ cs.length := by
  intro cs
  induction cs with
  | nil =>
    intro i h
    rw [strIndexOf] at h
    by_cases hp : pat.isPrefixOf ([] : List Char) = true
    · rw [if_pos hp] at h
      obtain rfl := Option.some.inj h
      cases pat with
      | nil => simp
      | cons a b => simp [List.isPrefixOf] at hp
    · rw [if_neg hp] at h
      cases h
  | cons c cs ih =>
    intro i h
    rw [strIndexOf] at h
    by_cases hp : pat.isPrefixOf (c :: cs) = true
    · rw [if_pos hp] at h
      obtain rfl := Option.some.inj h
      rw [List.isPrefixOf_iff_prefix] at hp
      simpa using hp.length_le
    · rw [if_neg hp] at h
      cases hio : strIndexOf pat cs with
      | none => rw [hio] at h; cases h
      | some j =>
        rw [hio] at h
        rw [Option.map_some'] at h
        obtain rfl := Option.some.inj h
        have := ih j hio
        rw [List.length_cons]
        omega

/-- Each word of a tokenization is a piece of the character split. -/
theorem wordsOfChars_chars (cs : List Char) (w : String) (hw : w ∈ wordsOfChars cs)
    (c : Char) (hc : c ∈ w.data) : c ∈ cs := by
  rw [wordsOfChars, List.mem_map] at hw
  obtain ⟨piece, hp, rfl⟩ := hw
  exact charSplit_chars ' ' cs piece (List.mem_of_mem_filter hp) c hc

/-- The tokenization of a character slice is no larger than the slice plus
one token boundary. -/
theorem sumLen_wordsOfChars (cs : List Char) : sumLen (wordsOfChars cs) ≤ cs.length + 1 := by
  rw [wordsOfChars, sumLen]
  have hsub : List.Sublist ((charSplit ' ' cs).filter (· ≠ [])) (charSplit ' ' cs) :=
    List.filter_sublist _
  have hsum : (((charSplit ' ' cs).filter (· ≠ [])).map List.length).sum ≤
      ((charSplit ' ' cs).map List.length).sum :=
    List.Sublist.sum_le_sum (hsub.map List.length) (fun x _ => Nat.zero_le x)
  have hlen : ((charSplit ' ' cs).filter (· ≠ [])).length ≤ (charSplit ' ' cs).length :=
    hsub.length_le
  have hmk : ((((charSplit ' ' cs).filter (· ≠ [])).map
      (fun l => (⟨l⟩ : String))).map String.length).sum =
      (((charSplit ' ' cs).filter (· ≠ [])).map List.length).sum := by
    rw [List.map_map]
    rfl
  rw [hmk, List.length_map]
  have := charSplit_sum ' ' cs
  omega

/-- Length of the joined string of a nonempty phrase. -/
theorem joinChars_len : ∀ (p : Phrase), p ≠ [] → (joinChars p).length + 1 = sumLen p := by
  intro p
  induction p with
  | nil => intro h; exact absurd rfl h
  | cons w ws ih =>
    intro _
    have hwl : w.length = w.data.length := rfl
    cases ws with
    | nil =>
      rw [joinChars, sumLen_cons, sumLen_nil]
      omega
    | cons x xs =>
      rw [joinChars, sumLen_cons, List.length_append, List.length_cons,
        ← ih (by simp)]
      omega

/-- The connector constants are nonempty and singly spaced. -/
theorem connectorPhrases_join :
    connectorPhrases.all (fun conn =>
      !(joinChars conn).isEmpty && (joinChars conn).length + 1 = sumLen conn) = true := by
  decide

theorem expandNestedConjunction_mem_le (p q : Phrase)
    (h : q ∈ expandNestedConjunction p) : sumLen q ≤ sumLen p + 2 := by
  rw [expandNestedConjunction] at h
  -- induction over the connector list of the inner loop
  suffices H : ∀ conns, (∀ c ∈ conns, c ∈ connectorPhrases) →
      q ∈ expandNestedConjunction.go p conns → sumLen q ≤ sumLen p + 2 from
    H connectorPhrases (fun c hc => hc) h
  intro conns
  induction conns with
  | nil =>
    intro _ hq
    rw [expandNestedConjunction.go] at hq
    simp only [List.mem_singleton] at hq
    subst hq; omega
  | cons conn more ih =>
    intro hmem hq
    have ihm := ih (fun c hc => hmem c (List.mem_cons_of_mem conn hc))
    have hcj := List.all_eq_true.mp connectorPhrases_join conn
      (hmem conn (List.mem_cons_self conn more))
    rw [Bool.and_eq_true] at hcj
    have hclen : (joinChars conn).length + 1 = sumLen conn := of_decide_eq_true hcj.2
    rw [expandNestedConjunction.go] at hq
    rcases hf : strIndexOf (joinChars conn) ((joinChars p).map Char.toLower)
      with - | i
    · rw [hf] at hq; exact ihm hq
    · rw [hf] at hq
      dsimp only at hq
      by_cases h1 : (!hasConjB (wordsOfChars ((joinChars p).take i))) = true
      · rw [if_pos h1] at hq; exact ihm hq
      · rw [if_neg h1] at hq
        by_cases h2 : hasComma (wordsOfChars ((joinChars p).take i)) = true
        · rw [if_pos h2] at hq; exact ihm hq
        · rw [if_neg h2] at hq
          by_cases h3 : (!hasComma (wordsOfChars
                ((joinChars p).drop (i + (joinChars conn).length))) &&
              !hasConjB (wordsOfChars
                ((joinChars p).drop (i + (joinChars conn).length)))) = true
          · rw [if_pos h3] at hq; exact ihm hq
          · rw [if_neg h3] at hq
            by_cases h4 : (1 < (expandSimpleConjunction
                  (wordsOfChars ((joinChars p).take i))).length
                || 1 < (expandObjectList (wordsOfChars
                  ((joinChars p).drop (i + (joinChars conn).length)))).length) = true
            · rw [if_pos h4] at hq
              rw [List.mem_flatMap] at hq
              obtain ⟨su, hsu, hq2⟩ := hq
              rw [List.mem_map] at hq2
              obtain ⟨ob, hob, hqeq⟩ := hq2
              subst hqeq
              have hsule := expandSimpleConjunction_mem_le _ su hsu
              have hoble := expandObjectList_mem_le _ ob hob
              have hio := strIndexOf_le (joinChars conn) _ i hf
              rw [List.length_map] at hio
              have hsub := sumLen_wordsOfChars ((joinChars p).take i)
              have hobj := sumLen_wordsOfChars
                ((joinChars p).drop (i + (joinChars conn).length))
              rw [List.length_take] at hsub
              rw [List.length_drop] at hobj
              have hpjoin : (joinChars p).length + 1 = sumLen p := by
                refine joinChars_len p (fun hpe => ?_)
                subst hpe
                have hclenpos : 1 ≤ (joinChars conn).length := by
                  cases hcl : joinChars conn with
                  | nil => rw [hcl] at hcj; exact absurd hcj.1 (by simp)
                  | cons a b => simp
                simp only [joinChars, List.map_nil, List.length_nil] at hio
                omega
              rw [sumLen_append, sumLen_append]
              omega
            · rw [if_neg h4] at hq; exact ihm hq

/-! ## The phrase expander (`StatementParser.expandPhrase`)

The body is written once, parameterized over the recursive call (`rec`);
`expandPhraseF` ties the knot through a structural counter, and
`expandPhrase` applies the counter `sumLen p + 1`, which
`expandPhraseF_irrel` below proves sufficient — the termination argument of
the source: every recursive call receives a strictly shorter phrase. -/

/-- The hardcoded determiner subset of the shared-suffix guard in
`expandPhrase` (`['the', 'a', 'an', 'this', 'that', 'these', 'those']`). -/
def phraseDetSkipList : List String :=
  ["the", "a", "an", "this", "that", "these", "those"]

/-- Priority 7 of `expandPhrase`: the plain split at the first conjunction
(`simpleSplitMatch`), both sides re-expanded. -/
def epSimpleSplit (rec : Phrase → List Phrase) (p : Phrase) : List Phrase :=
  match splitTok1 conjTok p with
  | some (l, _, r) => rec l ++ rec r
  | none => [p]

/-- Does the such-as stage of `expandPhrase` fire
(`suchAsExpanded.length >= 1 && (length > 1 || [0] !== phrase)`)? -/
def suchAsFires (p : Phrase) : Bool :=
  let e := expandSuchAs p
  1 ≤ e.length && (1 < e.length || !(e.head? = some p))

/-- One unfolding of `StatementParser.expandPhrase`, with `rec` in place of
the recursive calls.  The stages appear in source order: empty phrase,
such-as, slash, nested conjunction, Oxford comma, plain comma list,
no-conjunction identity, leading `both`, shared suffix, plain split. -/
def epBody (lex : Lexicon) (rec : Phrase → List Phrase) (p : Phrase) : List Phrase :=
  if p.isEmpty then [p]
  else if hasSuchAs p && suchAsFires p then (expandSuchAs p).flatMap rec
  else if hasSlash p && !hasConjB p && 1 < (expandSlashPattern p).length then
    (expandSlashPattern p).flatMap rec
  else if 1 < (expandNestedConjunction p).length then expandNestedConjunction p
  else
    match oxfordSplit p with
    | some (first, middleParts, last) => (first :: middleParts ++ [last]).flatMap rec
    | none =>
      if hasComma p && !hasConjB p && 1 < (commaSplitParts p).length then
        (commaSplitParts p).flatMap rec
      else if !hasConjB p then [p]
      else
        match p with
        | both :: rest =>
          if lowerStr both = "both" && !rest.isEmpty then rec rest
          else
            match splitTok2 conjTok (fun _ => true) p with
            | some (left, _, middle, suffix) =>
              if phraseDetSkipList.contains (lowerStr middle) then epSimpleSplit rec p
              else if isCompoundPhrase middle (joinWords suffix) then epSimpleSplit rec p
              else if lex.verbs.contains (lowerStr middle) &&
                  !(left.length = 1 && lex.verbs.contains (lastWordLower left)) then
                epSimpleSplit rec p
              else
                (rec left).map (fun l =>
                  if lastWordLower l = lowerStr (joinWords suffix) then l else l ++ suffix) ++
                (rec [middle]).map (· ++ suffix)
            | none => epSimpleSplit rec p
        | [] => [p]

/-- The expander with a structural recursion counter. -/
def expandPhraseF (lex : Lexicon) : Nat → Phrase → List Phrase
  | 0, p => [p]
  | fuel + 1, p => epBody lex (expandPhraseF lex fuel) p

/-- `StatementParser.expandPhrase`: the counter `sumLen p + 1` always
suffices (`expandPhraseF_irrel`). -/
def expandPhrase (lex : Lexicon) (p : Phrase) : List Phrase :=
  expandPhraseF lex (sumLen p + 1) p

/-! ## Bounds feeding the counter-irrelevance proof -/

theorem flatMap_congr {α β : Type} {l : List α} {f g : α → List β}
    (h : ∀ x ∈ l, f x = g x) : l.flatMap f = l.flatMap g := by
  induction l with
  | nil => rfl
  | cons a t ih =>
    simp only [List.flatMap_cons]
    rw [h a (by simp), ih (fun x hx => h x (by simp [hx]))]

/-- When the such-as expansion is nontrivial, each member is strictly
smaller than the input: the separator tokens `such as` are gone. -/
theorem expandSuchAs_mem_lt (p q : Phrase) (hq : q ∈ expandSuchAs p)
    (hne : expandSuchAs p ≠ [p]) : sumLen q < sumLen p := by
  rw [expandSuchAs] at hq hne
  rcases hs : splitTok2 (fun w => lowerStr w = "such") (fun w => lowerStr w = "as") p
    with - | ⟨pre, suchT, asT, examples⟩
  · rw [hs] at hne
    exact absurd rfl hne
  · rw [hs] at hq hne
    dsimp only at hq hne
    obtain ⟨hp, hprene, hexne, hsuch, has⟩ :=
      splitTok2_sound (fun w => lowerStr w = "such") (fun w => lowerStr w = "as")
        p pre suchT asT examples hs
    have hsuchlen : suchT.length = 4 := by
      have := congrArg String.length (of_decide_eq_true hsuch)
      rw [lowerStr_length] at this
      simpa using this
    have haslen : asT.length = 2 := by
      have := congrArg String.length (of_decide_eq_true has)
      rw [lowerStr_length] at this
      simpa using this
    have hsplit : sumLen p = sumLen pre + 8 + sumLen examples := by
      rw [hp, sumLen_append, sumLen_append, sumLen_append, sumLen_cons, sumLen_cons,
        sumLen_nil, hsuchlen, haslen]
    by_cases hg : (1 ≤ (suchAsParts examples).length &&
        !(stripTrailingComma pre).isEmpty) = true
    · rw [if_pos hg] at hq
      have hprepos : 1 ≤ sumLen pre := sumLen_pos_of_ne_nil hprene
      have hexpos : 1 ≤ sumLen examples := sumLen_pos_of_ne_nil hexne
      rcases List.mem_cons.mp hq with h | h
      · subst h
        have := stripTrailingComma_le pre
        omega
      · have := suchAsParts_mem_le examples q h
        omega
    · rw [if_neg hg] at hq hne
      exact absurd rfl hne

theorem length_one_ne_of_lt {α : Type} {l : List α} {a : α} (h : 1 < l.length) :
    l ≠ [a] := by
  intro he; rw [he] at h; simp at h

/-- The counter-congruence of one unfolding: two recursive calls that agree
on all strictly smaller phrases produce the same body value. -/
theorem epBody_congr (lex : Lexicon) (rec1 rec2 : Phrase → List Phrase) (p : Phrase)
    (hrec : ∀ q, sumLen q < sumLen p → rec1 q = rec2 q) :
    epBody lex rec1 p = epBody lex rec2 p := by
  rw [epBody.eq_def, epBody.eq_def]
  by_cases h0 : p.isEmpty
  · rw [if_pos h0, if_pos h0]
  rw [if_neg h0, if_neg h0]
  by_cases h1 : (hasSuchAs p && suchAsFires p) = true
  · rw [if_pos h1, if_pos h1]
    refine flatMap_congr (fun x hx => hrec x ?_)
    refine expandSuchAs_mem_lt p x hx ?_
    intro he
    rw [Bool.and_eq_true, suchAsFires, he] at h1
    simp at h1
  rw [if_neg h1, if_neg h1]
  by_cases h2 : (hasSlash p && !hasConjB p && 1 < (expandSlashPattern p).length) = true
  · rw [if_pos h2, if_pos h2]
    refine flatMap_congr (fun x hx => hrec x ?_)
    refine expandSlashPattern_mem_lt p x hx ?_
    simp only [Bool.and_eq_true, decide_eq_true_eq] at h2
    exact length_one_ne_of_lt h2.2
  rw [if_neg h2, if_neg h2]
  by_cases h3 : (1 < (expandNestedConjunction p).length)
  · rw [if_pos h3, if_pos h3]
  rw [if_neg h3, if_neg h3]
  rcases ho : oxfordSplit p with - | ⟨first, middleParts, last⟩
  · dsimp only
    by_cases h4 : (hasComma p && !hasConjB p && 1 < (commaSplitParts p).length) = true
    · rw [if_pos h4, if_pos h4]
      refine flatMap_congr (fun x hx => hrec x ?_)
      simp only [Bool.and_eq_true, decide_eq_true_eq] at h4
      refine splitFilter_mem_lt ',' p x hx ?_
      show 2 ≤ (commaSplitParts p).length
      omega
    rw [if_neg h4, if_neg h4]
    by_cases h5 : (!hasConjB p) = true
    · rw [if_pos h5, if_pos h5]
    rw [if_neg h5, if_neg h5]
    rcases p with - | ⟨both, rest⟩
    · rfl
    dsimp only
    have hsimple : epSimpleSplit rec1 (both :: rest) = epSimpleSplit rec2 (both :: rest) := by
      rw [epSimpleSplit, epSimpleSplit]
      rcases h6 : splitTok1 conjTok (both :: rest) with - | ⟨l, t, r⟩
      · rfl
      · dsimp only
        obtain ⟨hp, -, -, hconj⟩ := splitTok1_sound conjTok (both :: rest) l t r h6
        have htl := conjTok_len hconj
        have hb1 : sumLen l < sumLen (both :: rest) := by
          rw [hp, sumLen_append, sumLen_append, sumLen_cons, sumLen_nil]
          have := sumLen_pos_of_ne_nil
            (show r ≠ [] from (splitTok1_sound conjTok (both :: rest) l t r h6).2.2.1)
          omega
        have hb2 : sumLen r < sumLen (both :: rest) := by
          rw [hp, sumLen_append, sumLen_append, sumLen_cons, sumLen_nil]
          have := sumLen_pos_of_ne_nil
            (show l ≠ [] from (splitTok1_sound conjTok (both :: rest) l t r h6).2.1)
          omega
        rw [hrec l hb1, hrec r hb2]
    by_cases h7 : (lowerStr both = "both" && !rest.isEmpty) = true
    · rw [if_pos h7, if_pos h7]
      refine hrec rest ?_
      rw [sumLen_cons]
      simp only [Bool.and_eq_true, decide_eq_true_eq] at h7
      have := congrArg String.length h7.1
      rw [lowerStr_length] at this
      simp only [String.length] at this
      omega
    rw [if_neg h7, if_neg h7]
    rcases h8 : splitTok2 conjTok (fun _ => true) (both :: rest)
      with - | ⟨left, conj, middle, suffix⟩
    · dsimp only; exact hsimple
    dsimp only
    obtain ⟨hp, hlne, hsne, hconj, -⟩ :=
      splitTok2_sound conjTok (fun _ => true) (both :: rest) left conj middle suffix h8
    have hconjlen := conjTok_len hconj
    have hsplit : sumLen (both :: rest)
        = sumLen left + (conj.length + 1) + (middle.length + 1) + sumLen suffix := by
      rw [hp, sumLen_append, sumLen_append, sumLen_append, sumLen_cons, sumLen_cons,
        sumLen_nil]
    have hlpos := sumLen_pos_of_ne_nil hlne
    have hspos := sumLen_pos_of_ne_nil hsne
    have hleft : sumLen left < sumLen (both :: rest) := by omega
    have hmid : sumLen [middle] < sumLen (both :: rest) := by
      rw [sumLen_cons, sumLen_nil]; omega
    by_cases h9 : phraseDetSkipList.contains (lowerStr middle) = true
    · rw [if_pos h9, if_pos h9]; exact hsimple
    rw [if_neg h9, if_neg h9]
    by_cases h10 : isCompoundPhrase middle (joinWords suffix) = true
    · rw [if_pos h10, if_pos h10]; exact hsimple
    rw [if_neg h10, if_neg h10]
    by_cases h11 : (lex.verbs.contains (lowerStr middle) &&
        !(left.length = 1 && lex.verbs.contains (lastWordLower left))) = true
    · rw [if_pos h11, if_pos h11]; exact hsimple
    rw [if_neg h11, if_neg h11]
    rw [hrec left hleft, hrec [middle] hmid]
  · dsimp only
    refine flatMap_congr (fun x hx => hrec x ?_)
    obtain ⟨hb1, hb2, hb3⟩ := oxfordSplit_bounds p first last middleParts ho
    rcases List.mem_cons.mp hx with h | h
    · subst h; omega
    rcases List.mem_append.mp h with h | h
    · have := hb3 x h; omega
    · rcases List.mem_cons.mp h with h | h
      · subst h; omega
      · simp at h

/-- Counter irrelevance: any counter strictly above the phrase measure
yields the same value, because every recursive call of the body strictly
shrinks its argument (the termination property of the source). -/
theorem expandPhraseF_irrel (lex : Lexicon) :
    ∀ n f g p, sumLen p ≤ n → sumLen p < f → sumLen p < g →
      expandPhraseF lex f p = expandPhraseF lex g p := by
  intro n
  induction n with
  | zero =>
    intro f g p hp hf hg
    cases f with
    | zero => omega
    | succ f' =>
      cases g with
      | zero => omega
      | succ g' =>
        rw [expandPhraseF, expandPhraseF]
        refine epBody_congr lex _ _ p (fun q hq => ?_)
        omega
  | succ n ih =>
    intro f g p hp hf hg
    cases f with
    | zero => omega
    | succ f' =>
      cases g with
      | zero => omega
      | succ g' =>
        rw [expandPhraseF, expandPhraseF]
        refine epBody_congr lex _ _ p (fun q hq => ?_)
        exact ih f' g' q (by omega) (by omega) (by omega)

/-- Unfolding equation for `expandPhrase`: one step of the body with the
canonical recursive call. -/
theorem expandPhrase_eq (lex : Lexicon) (p : Phrase) :
    expandPhrase lex p = epBody lex (expandPhrase lex) p := by
  rw [expandPhrase, expandPhraseF]
  refine epBody_congr lex _ _ p (fun q hq => ?_)
  rw [expandPhrase]
  exact expandPhraseF_irrel lex (sumLen q) (sumLen p) (sumLen q + 1) q (le_refl _)
    (by omega) (by omega)

/-- Every alternative produced by the expander is no larger than the input
phrase (sub-phrase property). -/
theorem expandPhrase_mem_le (lex : Lexicon) :
    ∀ n p q, sumLen p ≤ n → q ∈ expandPhrase lex p → sumLen q ≤ sumLen p + 2 := by
  intro n
  induction n with
  | zero =>
    intro p q hp hq
    -- a phrase of measure 0 is empty; the body returns it unchanged
    have hpnil : p = [] := by
      cases p with
      | nil => rfl
      | cons w ws => rw [sumLen_cons] at hp; omega
    subst hpnil
    rw [expandPhrase_eq, epBody] at hq
    simp only [List.isEmpty_nil, if_pos] at hq
    simp only [List.mem_singleton] at hq
    subst hq
    omega
  | succ n ih =>
    intro p q hp hq
    rw [expandPhrase_eq, epBody.eq_def] at hq
    by_cases h0 : p.isEmpty
    · rw [if_pos h0] at hq
      simp only [List.mem_singleton] at hq
      subst hq; omega
    rw [if_neg h0] at hq
    by_cases h1 : (hasSuchAs p && suchAsFires p) = true
    · rw [if_pos h1] at hq
      rw [List.mem_flatMap] at hq
      obtain ⟨part, hpart, hq2⟩ := hq
      have hlt : sumLen part < sumLen p := by
        refine expandSuchAs_mem_lt p part hpart ?_
        intro he
        rw [Bool.and_eq_true, suchAsFires, he] at h1
        simp at h1
      have := ih part q (by omega) hq2
      omega
    rw [if_neg h1] at hq
    by_cases h2 : (hasSlash p && !hasConjB p && 1 < (expandSlashPattern p).length) = true
    · rw [if_pos h2] at hq
      rw [List.mem_flatMap] at hq
      obtain ⟨part, hpart, hq2⟩ := hq
      have hlt : sumLen part < sumLen p := by
        refine expandSlashPattern_mem_lt p part hpart ?_
        simp only [Bool.and_eq_true, decide_eq_true_eq] at h2
        exact length_one_ne_of_lt h2.2
      have := ih part q (by omega) hq2
      omega
    rw [if_neg h2] at hq
    by_cases h3 : (1 < (expandNestedConjunction p).length)
    · rw [if_pos h3] at hq
      exact expandNestedConjunction_mem_le p q hq
    rw [if_neg h3] at hq
    rcases ho : oxfordSplit p with - | ⟨first, middleParts, last⟩
    · rw [ho] at hq
      dsimp only at hq
      by_cases h4 : (hasComma p && !hasConjB p && 1 < (commaSplitParts p).length) = true
      · rw [if_pos h4] at hq
        rw [List.mem_flatMap] at hq
        obtain ⟨part, hpart, hq2⟩ := hq
        simp only [Bool.and_eq_true, decide_eq_true_eq] at h4
        have hlt : sumLen part < sumLen p := by
          refine splitFilter_mem_lt ',' p part hpart ?_
          show 2 ≤ (commaSplitParts p).length
          omega
        have := ih part q (by omega) hq2
        omega
      rw [if_neg h4] at hq
      by_cases h5 : (!hasConjB p) = true
      · rw [if_pos h5] at hq
        simp only [List.mem_singleton] at hq
        subst hq; omega
      rw [if_neg h5] at hq
      cases p with
      | nil =>
        dsimp only at hq
        simp only [List.mem_singleton] at hq
        subst hq; omega
      | cons both rest =>
        dsimp only at hq
        have hsimple : ∀ x, x ∈ epSimpleSplit (expandPhrase lex) (both :: rest) →
            sumLen x ≤ sumLen (both :: rest) + 2 := by
          intro x hx
          rw [epSimpleSplit] at hx
          rcases h6 : splitTok1 conjTok (both :: rest) with - | ⟨l, t, r⟩
          · rw [h6] at hx
            simp only [List.mem_singleton] at hx
            subst hx; omega
          · rw [h6] at hx
            dsimp only at hx
            obtain ⟨hpe, hlne, hrne, hconj⟩ := splitTok1_sound conjTok (both :: rest) l t r h6
            have htl := conjTok_len hconj
            have hbl : sumLen l < sumLen (both :: rest) := by
              rw [hpe, sumLen_append, sumLen_append, sumLen_cons, sumLen_nil]
              have := sumLen_pos_of_ne_nil hrne
              omega
            have hbr : sumLen r < sumLen (both :: rest) := by
              rw [hpe, sumLen_append, sumLen_append, sumLen_cons, sumLen_nil]
              have := sumLen_pos_of_ne_nil hlne
              omega
            rcases List.mem_append.mp hx with hx | hx
            · have := ih l x (by omega) hx; omega
            · have := ih r x (by omega) hx; omega
        by_cases h7 : (lowerStr both = "both" && !rest.isEmpty) = true
        · rw [if_pos h7] at hq
          have hlt : sumLen rest < sumLen (both :: rest) := by
            rw [sumLen_cons]; omega
          have := ih rest q (by omega) hq
          omega
        rw [if_neg h7] at hq
        rcases h8 : splitTok2 conjTok (fun _ => true) (both :: rest)
          with - | ⟨left, conj, middle, suffix⟩
        · rw [h8] at hq
          dsimp only at hq
          exact hsimple q hq
        rw [h8] at hq
        dsimp only at hq
        obtain ⟨hpe, hlne, hsne, hconj, -⟩ :=
          splitTok2_sound conjTok (fun _ => true) (both :: rest) left conj middle suffix h8
        have hconjlen := conjTok_len hconj
        have hsplit : sumLen (both :: rest)
            = sumLen left + (conj.length + 1) + (middle.length + 1) + sumLen suffix := by
          rw [hpe, sumLen_append, sumLen_append, sumLen_append, sumLen_cons, sumLen_cons,
            sumLen_nil]
        have hlpos := sumLen_pos_of_ne_nil hlne
        have hspos := sumLen_pos_of_ne_nil hsne
        have hleft : sumLen left < sumLen (both :: rest) := by omega
        have hmid : sumLen [middle] < sumLen (both :: rest) := by
          rw [sumLen_cons, sumLen_nil]; omega
        by_cases h9 : phraseDetSkipList.contains (lowerStr middle) = true
        · rw [if_pos h9] at hq; exact hsimple q hq
        rw [if_neg h9] at hq
        by_cases h10 : isCompoundPhrase middle (joinWords suffix) = true
        · rw [if_pos h10] at hq; exact hsimple q hq
        rw [if_neg h10] at hq
        by_cases h11 : (lex.verbs.contains (lowerStr middle) &&
            !(left.length = 1 && lex.verbs.contains (lastWordLower left))) = true
        · rw [if_pos h11] at hq; exact hsimple q hq
        rw [if_neg h11] at hq
        rcases List.mem_append.mp hq with hx | hx
        · rw [List.mem_map] at hx
          obtain ⟨l, hl, hq2⟩ := hx
          have hll : sumLen l ≤ sumLen left + 2 := ih left l (by omega) hl
          by_cases hlast : lastWordLower l = lowerStr (joinWords suffix)
          · rw [if_pos hlast] at hq2
            subst hq2; omega
          · rw [if_neg hlast] at hq2
            subst hq2
            rw [sumLen_append]
            omega
        · rw [List.mem_map] at hx
          obtain ⟨m, hm, hq2⟩ := hx
          have hmm : sumLen m ≤ sumLen [middle] + 2 := ih [middle] m (by omega) hm
          subst hq2
          rw [sumLen_append]
          rw [sumLen_cons, sumLen_nil] at hmm
          omega
    · rw [ho] at hq
      dsimp only at hq
      rw [List.mem_flatMap] at hq
      obtain ⟨part, hpart, hq2⟩ := hq
      obtain ⟨hb1, hb2, hb3⟩ := oxfordSplit_bounds p first last middleParts ho
      have hlt : sumLen part < sumLen p := by
        rcases List.mem_cons.mp hpart with h | h
        · subst h; omega
        rcases List.mem_append.mp h with h | h
        · have := hb3 part h; omega
        · rcases List.mem_cons.mp h with h | h
          · subst h; omega
          · simp at h
      have := ih part q (by omega) hq2
      omega

/-- Sub-phrase property, stated directly. -/
theorem expandPhrase_le (lex : Lexicon) (p q : Phrase) (hq : q ∈ expandPhrase lex p) :
    sumLen q ≤ sumLen p + 2 :=
  expandPhrase_mem_le lex (sumLen p) p q (le_refl _) hq

/-- The expander never returns an empty list of alternatives. -/
theorem expandPhrase_ne_nil (lex : Lexicon) :
    ∀ n p, sumLen p ≤ n → expandPhrase lex p ≠ [] := by
  intro n
  induction n with
  | zero =>
    intro p hp
    have hpnil : p = [] := by
      cases p with
      | nil => rfl
      | cons w ws => rw [sumLen_cons] at hp; omega
    subst hpnil
    rw [expandPhrase_eq, epBody]
    simp
  | succ n ih =>
    intro p hp
    rw [expandPhrase_eq, epBody.eq_def]
    by_cases h0 : p.isEmpty
    · rw [if_pos h0]; simp
    rw [if_neg h0]
    by_cases h1 : (hasSuchAs p && suchAsFires p) = true
    · rw [if_pos h1]
      have hne : expandSuchAs p ≠ [p] → True := fun _ => trivial
      -- the expansion list is nonempty and each member re-expands nonempty
      have hmem : expandSuchAs p ≠ [] := by
        rw [expandSuchAs]
        rcases splitTok2 (fun w => lowerStr w = "such") (fun w => lowerStr w = "as") p
          with - | ⟨pre, suchT, asT, examples⟩
        · simp
        · dsimp only
          split <;> simp
      rcases he : expandSuchAs p with - | ⟨e0, erest⟩
      · exact absurd he hmem
      · intro habs
        rw [List.flatMap_cons] at habs
        have h1e : e0 ∈ expandSuchAs p := by rw [he]; simp
        have hlt : sumLen e0 < sumLen p := by
          refine expandSuchAs_mem_lt p e0 h1e ?_
          intro hcontra
          rw [Bool.and_eq_true, suchAsFires, hcontra] at h1
          simp at h1
        have := ih e0 (by omega)
        rcases hv : expandPhrase lex e0 with - | ⟨v, vs⟩
        · exact this hv
        · rw [hv] at habs; simp at habs
    rw [if_neg h1]
    by_cases h2 : (hasSlash p && !hasConjB p && 1 < (expandSlashPattern p).length) = true
    · rw [if_pos h2]
      simp only [Bool.and_eq_true, decide_eq_true_eq] at h2
      rcases he : expandSlashPattern p with - | ⟨e0, erest⟩
      · rw [he] at h2; simp at h2
      · intro habs
        rw [List.flatMap_cons] at habs
        have h1e : e0 ∈ expandSlashPattern p := by rw [he]; simp
        have hlt : sumLen e0 < sumLen p := by
          refine expandSlashPattern_mem_lt p e0 h1e ?_
          rw [he] at h2 ⊢
          exact length_one_ne_of_lt h2.2
        have := ih e0 (by omega)
        rcases hv : expandPhrase lex e0 with - | ⟨v, vs⟩
        · exact this hv
        · rw [hv] at habs; simp at habs
    rw [if_neg h2]
    by_cases h3 : (1 < (expandNestedConjunction p).length)
    · rw [if_pos h3]
      intro habs
      rw [habs] at h3
      simp at h3
    rw [if_neg h3]
    rcases ho : oxfordSplit p with - | ⟨first, middleParts, last⟩
    · dsimp only
      by_cases h4 : (hasComma p && !hasConjB p && 1 < (commaSplitParts p).length) = true
      · rw [if_pos h4]
        simp only [Bool.and_eq_true, decide_eq_true_eq] at h4
        rcases he : commaSplitParts p with - | ⟨e0, erest⟩
        · rw [he] at h4; simp at h4
        · intro habs
          rw [List.flatMap_cons] at habs
          have h1e : e0 ∈ commaSplitParts p := by rw [he]; simp
          have hlt : sumLen e0 < sumLen p := by
            refine splitFilter_mem_lt ',' p e0 h1e ?_
            show 2 ≤ (commaSplitParts p).length
            omega
          have := ih e0 (by omega)
          rcases hv : expandPhrase lex e0 with - | ⟨v, vs⟩
          · exact this hv
          · rw [hv] at habs; simp at habs
      rw [if_neg h4]
      by_cases h5 : (!hasConjB p) = true
      · rw [if_pos h5]; simp
      rw [if_neg h5]
      cases p with
      | nil => simp
      | cons both rest =>
        dsimp only
        have hsimple : epSimpleSplit (expandPhrase lex) (both :: rest) ≠ [] := by
          rw [epSimpleSplit]
          rcases h6 : splitTok1 conjTok (both :: rest) with - | ⟨l, t, r⟩
          · simp
          · dsimp only
            obtain ⟨hpe, hlne, hrne, hconj⟩ := splitTok1_sound conjTok (both :: rest) l t r h6
            have htl := conjTok_len hconj
            have hbl : sumLen l < sumLen (both :: rest) := by
              rw [hpe, sumLen_append, sumLen_append, sumLen_cons, sumLen_nil]
              have := sumLen_pos_of_ne_nil hrne
              omega
            have := ih l (by omega)
            intro habs
            rcases hv : expandPhrase lex l with - | ⟨v, vs⟩
            · exact this hv
            · rw [hv] at habs; simp at habs
        by_cases h7 : (lowerStr both = "both" && !rest.isEmpty) = true
        · rw [if_pos h7]
          have hlt : sumLen rest < sumLen (both :: rest) := by
            rw [sumLen_cons]; omega
          exact ih rest (by omega)
        rw [if_neg h7]
        rcases h8 : splitTok2 conjTok (fun _ => true) (both :: rest)
          with - | ⟨left, conj, middle, suffix⟩
        · dsimp only; exact hsimple
        dsimp only
        obtain ⟨hpe, hlne, hsne, hconj, -⟩ :=
          splitTok2_sound conjTok (fun _ => true) (both :: rest) left conj middle suffix h8
        have hconjlen := conjTok_len hconj
        have hsplit : sumLen (both :: rest)
            = sumLen left + (conj.length + 1) + (middle.length + 1) + sumLen suffix := by
          rw [hpe, sumLen_append, sumLen_append, sumLen_append, sumLen_cons, sumLen_cons,
            sumLen_nil]
        have hlpos := sumLen_pos_of_ne_nil hlne
        have hleft : sumLen left < sumLen (both :: rest) := by
          have hspos := sumLen_pos_of_ne_nil hsne
          omega
        by_cases h9 : phraseDetSkipList.contains (lowerStr middle) = true
        · rw [if_pos h9]; exact hsimple
        rw [if_neg h9]
        by_cases h10 : isCompoundPhrase middle (joinWords suffix) = true
        · rw [if_pos h10]; exact hsimple
        rw [if_neg h10]
        by_cases h11 : (lex.verbs.contains (lowerStr middle) &&
            !(left.length = 1 && lex.verbs.contains (lastWordLower left))) = true
        · rw [if_pos h11]; exact hsimple
        rw [if_neg h11]
        intro habs
        rw [List.append_eq_nil] at habs
        have hmap := habs.1
        rw [List.map_eq_nil_iff] at hmap
        exact ih left (by omega) hmap
    · dsimp only
      intro habs
      have habs2 : (first :: (middleParts ++ [last])).flatMap (expandPhrase lex) = [] := habs
      rw [List.flatMap_cons, List.append_eq_nil] at habs2
      have hb := oxfordSplit_bounds p first last middleParts ho
      have hlt : sumLen first < sumLen p := by omega
      exact ih first (by omega) habs2.1

/-! ## The statement-anchored expander (`StatementParser.expandRawText`) -/

/-- The hardcoded preposition alternation of the
`verbObjectComplement` pattern (`(of|to|for|with|from|in|on|at|by)`). -/
def rawPrepList : List String :=
  ["of", "to", "for", "with", "from", "in", "on", "at", "by"]

/-- Membership in the hardcoded preposition alternation. -/
def rawPrepTok (w : String) : Bool := rawPrepList.contains (lowerStr w)

/-- ASCII suffix test on exact characters (JavaScript `endsWith`). -/
def endsWithStr (suf s : String) : Bool := suf.data.isSuffixOf s.data

/-- Replace every hyphen by a space (the global hyphen-to-space replace). -/
def hyphenToSpace (s : String) : String :=
  ⟨s.data.map (fun c => if c = '-' then ' ' else c)⟩

/-- Drop every hyphen (the global hyphen-delete replace). -/
def dropHyphens (s : String) : String := ⟨s.data.filter (fun c => !(c = '-'))⟩

/-- Does the `verbCommaList` capture `(.+?,\s*.+)` match a token list: a
comma with at least one character before it and at least one character after
the comma (and its following spaces)? -/
def innerCommaMatch (rest : Phrase) : Bool :=
  match commaSplitOnce rest with
  | some (_, b) => !b.isEmpty
  | none => false

/-- The `middle + suffix` concept lookups of the `verbWithSharedSuffix`
guard (`isCompoundConcept`). -/
def isCompoundConcept (middle : String) (suffix : Phrase) : Bool :=
  conceptHas (hyphenToSpace (lowerStr (middle ++ " " ++ joinWords suffix))) ||
  conceptHas (dropHyphens (lowerStr (middle ++ joinWords suffix))) ||
  conceptHas (lowerStr (middle ++ "-" ++ joinWords suffix))

/-- The modifier heuristic of the `verbWithSharedSuffix` guard
(`isMiddleModifier`). -/
def isMiddleModifier (middle : String) : Bool :=
  strHasChar middle '-' || endsWithStr "term" (lowerStr middle) ||
  endsWithStr "time" (lowerStr middle) || endsWithStr "level" (lowerStr middle)

/-- Stage 6 of `expandRawText`: the verb such-as branch. -/
def erStage6 (lex : Lexicon) (v : String) (rest t : Phrase) : List Phrase :=
  match splitTok2 (fun w => lowerStr w = "such") (fun w => lowerStr w = "as") rest with
  | some (category, _, _, examples) =>
    if lex.verbs.contains (lowerStr v) &&
        1 < (expandSuchAs (category ++ ["such", "as"] ++ examples)).length then
      (expandSuchAs (category ++ ["such", "as"] ++ examples)).map (v :: ·)
    else [t]
  | none => [t]

/-- Stage 5 of `expandRawText`: "Verb X and Y" (`simpleVerbConjunction`),
then stage 6: "Verb X such as A, B" (`suchAsMatch`), then identity. -/
def erStage5 (lex : Lexicon) (v : String) (rest t : Phrase) : List Phrase :=
  match splitTok1 conjTok rest with
  | some (left, _, right) =>
    if lex.verbs.contains (lowerStr v) then
      (expandPhrase lex left).map (v :: ·) ++ (expandPhrase lex right).map (v :: ·)
    else erStage6 lex v rest t
  | none => erStage6 lex v rest t

/-- Stage 4 of `expandRawText`: "Verb X or Y Z" with shared suffix
(`verbWithSharedSuffix`), falling through to stage 5 on any of its guards. -/
def erStage4 (lex : Lexicon) (rec : Phrase → List Phrase) (v : String) (rest t : Phrase) :
    List Phrase :=
  match splitTok2 conjTok (fun _ => true) rest with
  | none => erStage5 lex v rest t
  | some (left, _, middle, suffix) =>
    if !lex.verbs.contains (lowerStr v) then erStage5 lex v rest t
    else
      let isLeftVerb := left.length = 1 && lex.verbs.contains (lastWordLower left)
      let skipDueToVerbMismatch := lex.verbs.contains (lowerStr middle) && !isLeftVerb
      if isCompoundConcept middle suffix || isMiddleModifier middle ||
          isCompoundPhrase middle (joinWords suffix) || skipDueToVerbMismatch then
        erStage5 lex v rest t
      else
        let results :=
          (expandPhrase lex left).map (fun l =>
            if lastWordLower l = lowerStr (joinWords suffix) then v :: l
            else v :: l ++ suffix) ++
          (expandPhrase lex [middle]).map (fun m => v :: m ++ suffix)
        if needsExpansion suffix then results.flatMap rec else results

/-- Stage 3 of `expandRawText`: "Verb X/Y Z" (`verbSlashMatch`). -/
def erStage3 (lex : Lexicon) (rec : Phrase → List Phrase) (v : String) (rest t : Phrase) :
    List Phrase :=
  if hasSlash t && !hasConjB t && lex.verbs.contains (lowerStr v) &&
      1 < (expandSlashPattern rest).length then
    (expandSlashPattern rest).map (v :: ·)
  else erStage4 lex rec v rest t

/-- Stage 2 of `expandRawText`: "Verb X, Y, and Z" (`verbCommaListMatch`). -/
def erStage2 (lex : Lexicon) (rec : Phrase → List Phrase) (v : String) (rest t : Phrase) :
    List Phrase :=
  if innerCommaMatch rest && lex.verbs.contains (lowerStr v) &&
      1 < (expandPhrase lex rest).length then
    (expandPhrase lex rest).map (v :: ·)
  else erStage3 lex rec v rest t

/-- One unfolding of `StatementParser.expandRawText`, with `rec` in place of
the self-recursion of the shared-suffix branch.  The stages in source order:
verb–object–preposition–complement, verb comma list, verb slash, verb shared
suffix, simple verb conjunction, verb such-as; identity otherwise. -/
def erBody (lex : Lexicon) (rec : Phrase → List Phrase) (t : Phrase) : List Phrase :=
  match t with
  | [] => [t]
  | v :: rest =>
    if !wordish v then [t]
    else
      -- stage 1: "Verb <obj> <prep> <comp>"
      match splitTok1 rawPrepTok rest with
      | some (obj, prepT, comp) =>
        if lex.verbs.contains (lowerStr v) then
          let compVariations := if needsExpansion comp then expandPhrase lex comp else [comp]
          let objVariations := if needsExpansion obj then expandPhrase lex obj else [obj]
          objVariations.flatMap (fun o => compVariations.map (fun c => v :: o ++ prepT :: c))
        else erStage2 lex rec v rest t
      | none => erStage2 lex rec v rest t

/-- The statement-anchored expander with a structural recursion counter. -/
def expandRawTextF (lex : Lexicon) : Nat → Phrase → List Phrase
  | 0, t => [t]
  | fuel + 1, t => erBody lex (expandRawTextF lex fuel) t

/-- `StatementParser.expandRawText`; the counter `sumLen t + 1` always
suffices (`expandRawTextF_irrel`). -/
def expandRawText (lex : Lexicon) (t : Phrase) : List Phrase :=
  expandRawTextF lex (sumLen t + 1) t

/-- Size bound for the shared-suffix results of stage 4: each result drops
at least the conjunction token and one side of the coordination. -/
theorem erStage4_results_lt (lex : Lexicon) (v : String) (rest : Phrase)
    (left : Phrase) (conj middle : String) (suffix : Phrase)
    (h8 : splitTok2 conjTok (fun _ => true) rest = some (left, conj, middle, suffix))
    (x : Phrase)
    (hx : x ∈ (expandPhrase lex left).map (fun l =>
        if lastWordLower l = lowerStr (joinWords suffix) then v :: l
        else v :: l ++ suffix) ++
      (expandPhrase lex [middle]).map (fun m => v :: m ++ suffix)) :
    sumLen x < sumLen (v :: rest) := by
  obtain ⟨hre, hlne, hsne, hconj, -⟩ :=
    splitTok2_sound conjTok (fun _ => true) rest left conj middle suffix h8
  have hconjlen := conjTok_len hconj
  have hsplit : sumLen rest
      = sumLen left + (conj.length + 1) + (middle.length + 1) + sumLen suffix := by
    rw [hre, sumLen_append, sumLen_append, sumLen_append, sumLen_cons, sumLen_cons,
      sumLen_nil]
  have hlpos := sumLen_pos_of_ne_nil hlne
  have hspos := sumLen_pos_of_ne_nil hsne
  rw [sumLen_cons]
  rcases List.mem_append.mp hx with hx | hx
  · rw [List.mem_map] at hx
    obtain ⟨l, hl, hxeq⟩ := hx
    have hll : sumLen l ≤ sumLen left + 2 := expandPhrase_le lex left l hl
    by_cases hlast : lastWordLower l = lowerStr (joinWords suffix)
    · rw [if_pos hlast] at hxeq
      subst hxeq
      rw [sumLen_cons]
      omega
    · rw [if_neg hlast] at hxeq
      subst hxeq
      rw [sumLen_append, sumLen_cons]
      omega
  · rw [List.mem_map] at hx
    obtain ⟨m, hm, hxeq⟩ := hx
    have hmm : sumLen m ≤ sumLen [middle] + 2 := expandPhrase_le lex [middle] m hm
    rw [sumLen_cons, sumLen_nil] at hmm
    subst hxeq
    rw [sumLen_append, sumLen_cons]
    omega

theorem erStage4_congr (lex : Lexicon) (rec1 rec2 : Phrase → List Phrase)
    (v : String) (rest : Phrase)
    (hrec : ∀ q, sumLen q < sumLen (v :: rest) → rec1 q = rec2 q) :
    erStage4 lex rec1 v rest (v :: rest) = erStage4 lex rec2 v rest (v :: rest) := by
  rw [erStage4, erStage4]
  rcases h8 : splitTok2 conjTok (fun _ => true) rest with - | ⟨left, conj, middle, suffix⟩
  · rfl
  dsimp only
  by_cases h1 : (!lex.verbs.contains (lowerStr v)) = true
  · rw [if_pos h1, if_pos h1]
  rw [if_neg h1, if_neg h1]
  by_cases h2 : (isCompoundConcept middle suffix || isMiddleModifier middle ||
      isCompoundPhrase middle (joinWords suffix) ||
      (lex.verbs.contains (lowerStr middle) &&
        !(left.length = 1 && lex.verbs.contains (lastWordLower left)))) = true
  · rw [if_pos h2, if_pos h2]
  rw [if_neg h2, if_neg h2]
  by_cases h3 : needsExpansion suffix = true
  · rw [if_pos h3, if_pos h3]
    refine flatMap_congr (fun x hx => hrec x ?_)
    exact erStage4_results_lt lex v rest left conj middle suffix h8 x hx
  · rw [if_neg h3, if_neg h3]

theorem erBody_congr (lex : Lexicon) (rec1 rec2 : Phrase → List Phrase) (t : Phrase)
    (hrec : ∀ q, sumLen q < sumLen t → rec1 q = rec2 q) :
    erBody lex rec1 t = erBody lex rec2 t := by
  rw [erBody.eq_def, erBody.eq_def]
  cases t with
  | nil => rfl
  | cons v rest =>
    dsimp only
    have hs4 := erStage4_congr lex rec1 rec2 v rest hrec
    have hs3 : erStage3 lex rec1 v rest (v :: rest) = erStage3 lex rec2 v rest (v :: rest) := by
      rw [erStage3, erStage3, hs4]
    have hs2 : erStage2 lex rec1 v rest (v :: rest) = erStage2 lex rec2 v rest (v :: rest) := by
      rw [erStage2, erStage2, hs3]
    by_cases h0 : (!wordish v) = true
    · rw [if_pos h0, if_pos h0]
    rw [if_neg h0, if_neg h0]
    rcases h1 : splitTok1 rawPrepTok rest with - | ⟨obj, prepT, comp⟩
    · exact hs2
    dsimp only
    by_cases h2 : lex.verbs.contains (lowerStr v) = true
    · rw [if_pos h2, if_pos h2]
    · rw [if_neg h2, if_neg h2]; exact hs2

/-- Counter irrelevance for the statement-anchored expander. -/
theorem expandRawTextF_irrel (lex : Lexicon) :
    ∀ n f g t, sumLen t ≤ n → sumLen t < f → sumLen t < g →
      expandRawTextF lex f t = expandRawTextF lex g t := by
  intro n
  induction n with
  | zero =>
    intro f g t hp hf hg
    cases f with
    | zero => omega
    | succ f' =>
      cases g with
      | zero => omega
      | succ g' =>
        rw [expandRawTextF, expandRawTextF]
        exact erBody_congr lex _ _ t (fun q hq => by omega)
  | succ n ih =>
    intro f g t hp hf hg
    cases f with
    | zero => omega
    | succ f' =>
      cases g with
      | zero => omega
      | succ g' =>
        rw [expandRawTextF, expandRawTextF]
        refine erBody_congr lex _ _ t (fun q hq => ?_)
        exact ih f' g' q (by omega) (by omega) (by omega)

/-- Unfolding equation for `expandRawText`. -/
theorem expandRawText_eq (lex : Lexicon) (t : Phrase) :
    expandRawText lex t = erBody lex (expandRawText lex) t := by
  rw [expandRawText, expandRawTextF]
  refine erBody_congr lex _ _ t (fun q hq => ?_)
  rw [expandRawText]
  exact expandRawTextF_irrel lex (sumLen q) (sumLen t) (sumLen q + 1) q (le_refl _)
    (by omega) (by omega)

/-- Nonemptiness, stated directly. -/
theorem expandPhrase_neNil (lex : Lexicon) (p : Phrase) : expandPhrase lex p ≠ [] :=
  expandPhrase_ne_nil lex (sumLen p) p (le_refl _)

theorem map_ne_nil {α β : Type} {l : List α} {f : α → β} (h : l ≠ []) : l.map f ≠ [] := by
  cases l with
  | nil => exact absurd rfl h
  | cons a t => simp

theorem flatMap_ne_nil {α β : Type} {l : List α} {f : α → List β} (h : l ≠ [])
    (hf : ∀ x ∈ l, f x ≠ []) : l.flatMap f ≠ [] := by
  cases l with
  | nil => exact absurd rfl h
  | cons a t =>
    intro habs
    have h2 : (f a ++ t.flatMap f) = [] := habs
    rw [List.append_eq_nil] at h2
    exact hf a (by simp) h2.1

/-- The statement-anchored expander never returns an empty list. -/
theorem expandRawText_ne_nil (lex : Lexicon) :
    ∀ n t, sumLen t ≤ n → expandRawText lex t ≠ [] := by
  intro n
  induction n with
  | zero =>
    intro t hp
    have htnil : t = [] := by
      cases t with
      | nil => rfl
      | cons w ws => rw [sumLen_cons] at hp; omega
    subst htnil
    rw [expandRawText_eq, erBody]
    simp
  | succ n ih =>
    intro t hp
    rw [expandRawText_eq, erBody.eq_def]
    cases t with
    | nil => simp
    | cons v rest =>
      dsimp only
      have hs6 : erStage6 lex v rest (v :: rest) ≠ [] := by
        rw [erStage6]
        rcases splitTok2 (fun w => lowerStr w = "such") (fun w => lowerStr w = "as") rest
          with - | ⟨category, s, a, examples⟩
        · simp
        · dsimp only
          split
          · rename_i hcond
            simp only [Bool.and_eq_true, decide_eq_true_eq] at hcond
            refine map_ne_nil ?_
            intro habs
            rw [habs] at hcond
            simp at hcond
          · simp
      have hs5 : erStage5 lex v rest (v :: rest) ≠ [] := by
        rw [erStage5]
        rcases hsp : splitTok1 conjTok rest with - | ⟨left, c, right⟩
        · exact hs6
        · dsimp only
          split
          · intro habs
            rw [List.append_eq_nil] at habs
            exact map_ne_nil (expandPhrase_neNil lex left) habs.1
          · exact hs6
      have hs4 : erStage4 lex (expandRawText lex) v rest (v :: rest) ≠ [] := by
        rw [erStage4]
        rcases h8 : splitTok2 conjTok (fun _ => true) rest
          with - | ⟨left, conj, middle, suffix⟩
        · exact hs5
        · dsimp only
          split
          · exact hs5
          · split
            · exact hs5
            · have hresne : ((expandPhrase lex left).map (fun l =>
                  if lastWordLower l = lowerStr (joinWords suffix) then v :: l
                  else v :: l ++ suffix) ++
                  (expandPhrase lex [middle]).map (fun m => v :: m ++ suffix)) ≠ [] := by
                intro habs
                rw [List.append_eq_nil] at habs
                exact map_ne_nil (expandPhrase_neNil lex left) habs.1
              split
              · refine flatMap_ne_nil hresne ?_
                intro x hx
                have hlt := erStage4_results_lt lex v rest left conj middle suffix h8 x hx
                rw [sumLen_cons] at hlt hp
                exact ih x (by omega)
              · exact hresne
      have hs3 : erStage3 lex (expandRawText lex) v rest (v :: rest) ≠ [] := by
        rw [erStage3]
        split
        · rename_i hcond
          simp only [Bool.and_eq_true, decide_eq_true_eq] at hcond
          refine map_ne_nil ?_
          intro habs
          rw [habs] at hcond
          simp at hcond
        · exact hs4
      have hs2 : erStage2 lex (expandRawText lex) v rest (v :: rest) ≠ [] := by
        rw [erStage2]
        split
        · rename_i hcond
          simp only [Bool.and_eq_true, decide_eq_true_eq] at hcond
          refine map_ne_nil ?_
          intro habs
          rw [habs] at hcond
          simp at hcond
        · exact hs3
      split
      · simp
      · rcases h1 : splitTok1 rawPrepTok rest with - | ⟨obj, prepT, comp⟩
        · exact hs2
        · dsimp only
          split
          · refine flatMap_ne_nil ?_ ?_
            · split
              · exact expandPhrase_neNil lex obj
              · simp
            · intro x hx
              refine map_ne_nil ?_
              split
              · exact expandPhrase_neNil lex comp
              · simp
          · exact hs2

/-! ## Concept normalization (`StatementParser.normalizeConceptsInText`)

`new RegExp('\\b' + phrase + '\\b', 'gi')` replaces every whole-word,
case-insensitive occurrence of a concept phrase with its id.  At token
granularity an occurrence is a consecutive token run whose lowercased tokens
equal the (lowercase) key words.  Replacement scans left to right without
rescanning replaced output, as the `g` flag does. -/

/-- Non-overlapping left-to-right replacement of a token sequence, with a
structural counter (each step consumes at least one token when the pattern
is nonempty). -/
def replaceSeqF (pat : Phrase) (r : String) : Nat → Phrase → Phrase
  | 0, t => t
  | _ + 1, [] => []
  | fuel + 1, x :: xs =>
    if (pat.map lowerStr).isPrefixOf ((x :: xs).map lowerStr) then
      r :: replaceSeqF pat r fuel ((x :: xs).drop pat.length)
    else x :: replaceSeqF pat r fuel xs

/-- Replacement of every occurrence of `pat` by `r`. -/
def replaceSeq (pat : Phrase) (r : String) (t : Phrase) : Phrase :=
  replaceSeqF pat r t.length t

/-- Word list of a concept key. -/
def keyWords (k : String) : Phrase := wordsOfChars k.data

/-- `StatementParser.normalizeConceptsInText`: substitute every concept
phrase, longest first, by its id. -/
def normalizeConceptsInText (t : Phrase) : Phrase :=
  sortedConceptKeys.foldl (fun acc kv => replaceSeq (keyWords kv.1) kv.2 acc) t

/-! ## Tokenizer (`Tokenizer.tokenize`) -/

/-- ASCII letter. -/
def asciiLetter (c : Char) : Bool := lowerAlpha c || upperAlpha c

/-- The punctuation characters kept as tokens (`[.,;:\-\/()]`). -/
def punctChar (c : Char) : Bool :=
  c = '.' || c = ',' || c = ';' || c = ':' || c = '-' || c = '/' || c = '(' || c = ')'

/-- Scanner state for the token regex
`([a-zA-Z]+(?:'[a-z]+)?|[.,;:\-\/()])`: outside a token, inside a letter
run, just after an apostrophe, or inside the post-apostrophe lowercase
run. -/
inductive TsState where
  | outside
  | letters (run : List Char)
  | apos (run : List Char)
  | aposRun (run : List Char)

/-- Character-level token scanner (runs are kept reversed). -/
def tsGo : TsState → List Char → List String
  | .outside, [] => []
  | .letters run, [] => [⟨run.reverse⟩]
  | .apos run, [] => [⟨run.reverse⟩]
  | .aposRun run, [] => [⟨run.reverse⟩]
  | .outside, c :: cs =>
    if asciiLetter c then tsGo (.letters [c]) cs
    else if punctChar c then (⟨[c]⟩ : String) :: tsGo .outside cs
    else tsGo .outside cs
  | .letters run, c :: cs =>
    if asciiLetter c then tsGo (.letters (c :: run)) cs
    else if c = '\'' then tsGo (.apos run) cs
    else if punctChar c then (⟨run.reverse⟩ : String) :: (⟨[c]⟩ : String) :: tsGo .outside cs
    else (⟨run.reverse⟩ : String) :: tsGo .outside cs
  | .apos run, c :: cs =>
    if lowerAlpha c then tsGo (.aposRun (c :: '\'' :: run)) cs
    else if asciiLetter c then (⟨run.reverse⟩ : String) :: tsGo (.letters [c]) cs
    else if punctChar c then (⟨run.reverse⟩ : String) :: (⟨[c]⟩ : String) :: tsGo .outside cs
    else (⟨run.reverse⟩ : String) :: tsGo .outside cs
  | .aposRun run, c :: cs =>
    if lowerAlpha c then tsGo (.aposRun (c :: run)) cs
    else if asciiLetter c then (⟨run.reverse⟩ : String) :: tsGo (.letters [c]) cs
    else if punctChar c then (⟨run.reverse⟩ : String) :: (⟨[c]⟩ : String) :: tsGo .outside cs
    else (⟨run.reverse⟩ : String) :: tsGo .outside cs

/-- Part-of-speech tags (`Token.pos` values of the source). -/
inductive PosTag where
  | DET | PRON | VERB | PREP | CONJ | ADV | ADJ | NOUN | UNKVERB | PUNCT | UNK
  | untagged
deriving DecidableEq

/-- A token: surface text, lowercase form, tag, ordinal index. -/
structure Tok where
  text : String
  normalized : String
  pos : PosTag
  index : Nat
deriving DecidableEq

/-- `Tokenizer.tokenize` at phrase granularity: scan each whitespace token,
concatenate, and index. -/
def tokenize (p : Phrase) : List Tok :=
  ((p.flatMap (fun w => tsGo .outside w.data)).enum).map
    (fun iw => ⟨iw.2, lowerStr iw.2, .untagged, iw.1⟩)

/-! ## Part-of-speech tagger (`POSTagger.tag`) -/

/-- Pronoun table of the loaded lexicon (`new Map()` — empty). -/
def pronounWords : List String := []

/-- Adverb table of the loaded lexicon (empty). -/
def adverbWords : List String := []

/-- Adjective set of the loaded lexicon (empty). -/
def adjectiveWords : List String := []

/-- First tagging pass: lexicon lookups in the source's priority order, then
the case and punctuation heuristics. -/
def firstPassTag (lex : Lexicon) (t : Tok) : Tok :=
  let pos : PosTag :=
    if determinerList.contains t.normalized then .DET
    else if pronounWords.contains t.normalized then .PRON
    else if lex.verbs.contains t.normalized then .VERB
    else if lex.prepositions.contains t.normalized then .PREP
    else if conjunctionWords.contains t.normalized then .CONJ
    else if adverbWords.contains t.normalized then .ADV
    else if adjectiveWords.contains t.normalized then .ADJ
    else if firstCharIs upperAlpha t.text then .NOUN
    else if firstCharIs lowerAlpha t.text then .UNKVERB
    else if t.text.data.any punctChar then .PUNCT
    else .UNK
  { t with pos := pos }

/-- The per-neighbour re-tagging rule of the second pass: a Verb ending in
`ing` whose successor is a Noun, an Unknown, a non-`ing` Verb, or
capitalized becomes a Noun. -/
def retagByNext (cur next : Tok) : Tok :=
  if cur.pos = .VERB && endsWithStr "ing" cur.normalized &&
      (next.pos = .NOUN || next.pos = .UNK ||
       (next.pos = .VERB && !endsWithStr "ing" next.normalized) ||
       firstCharIs upperAlpha next.text) then
    { cur with pos := .NOUN }
  else cur

/-- Second pass, left to right.  The source's in-place loop writes only the
current token and reads the (not yet visited) successor, so each decision
sees the first-pass tag of its neighbour — exactly this recursion. -/
def tagPass2 : List Tok → List Tok
  | [] => []
  | [t] => [t]
  | t1 :: t2 :: rest => retagByNext t1 t2 :: tagPass2 (t2 :: rest)

/-- Trailing-token rule: a final Verb ending in `ing` becomes a Noun. -/
def retagLast (t : Tok) : Tok :=
  if t.pos = .VERB && endsWithStr "ing" t.normalized then { t with pos := .NOUN } else t

/-- Apply the trailing-token rule to the last token. -/
def tagPass3 : List Tok → List Tok
  | [] => []
  | [t] => [retagLast t]
  | t :: u :: rest => t :: tagPass3 (u :: rest)

/-- `POSTagger.tag`: first pass, neighbour pass, trailing pass. -/
def tag (lex : Lexicon) (toks : List Tok) : List Tok :=
  tagPass3 (tagPass2 (toks.map (firstPassTag lex)))

/-! ## ParsedStatement and slot extraction (`StatementParser.parseSingle`) -/

/-- The central entity: `ParsedStatement`.  Optional fields are absent
(`none`) exactly when the source leaves them `undefined`; `confidence10` is
the confidence scaled by ten (`1.0 - 0.1 * unknowns` becomes
`10 - unknowns`). -/
inductive ParsedStatement where
  | mk (original : Phrase) (subject : Option Phrase) (predicate : Option String)
      (object : Option Phrase) (preposition : Option String)
      (complement : Option Phrase) (modifiers : List String)
      (confidence10 : Int) (unknownWords : List String)
      (expansions : Option (List ParsedStatement)) (hasConjunction : Bool)

/-- Original text of a statement. -/
def ParsedStatement.original : ParsedStatement → Phrase
  | .mk o _ _ _ _ _ _ _ _ _ _ => o

/-- Subject slot. -/
def ParsedStatement.subject : ParsedStatement → Option Phrase
  | .mk _ s _ _ _ _ _ _ _ _ _ => s

/-- Predicate slot. -/
def ParsedStatement.predicate : ParsedStatement → Option String
  | .mk _ _ p _ _ _ _ _ _ _ _ => p

/-- Object slot. -/
def ParsedStatement.object : ParsedStatement → Option Phrase
  | .mk _ _ _ o _ _ _ _ _ _ _ => o

/-- Preposition slot. -/
def ParsedStatement.preposition : ParsedStatement → Option String
  | .mk _ _ _ _ p _ _ _ _ _ _ => p

/-- Complement slot. -/
def ParsedStatement.complement : ParsedStatement → Option Phrase
  | .mk _ _ _ _ _ c _ _ _ _ _ => c

/-- Modifier list. -/
def ParsedStatement.modifiers : ParsedStatement → List String
  | .mk _ _ _ _ _ _ m _ _ _ _ => m

/-- Scaled confidence. -/
def ParsedStatement.confidence10 : ParsedStatement → Int
  | .mk _ _ _ _ _ _ _ c _ _ _ => c

/-- Unknown words. -/
def ParsedStatement.unknownWords : ParsedStatement → List String
  | .mk _ _ _ _ _ _ _ _ u _ _ => u

/-- Expansion children (`expansions?: ParsedStatement[]`). -/
def ParsedStatement.expansions : ParsedStatement → Option (List ParsedStatement)
  | .mk _ _ _ _ _ _ _ _ _ e _ => e

/-- Conjunction flag. -/
def ParsedStatement.hasConjunction : ParsedStatement → Bool
  | .mk _ _ _ _ _ _ _ _ _ _ h => h

/-- Lead-in of the slot extractor: skip to the first Verb or UnknownVerb,
collecting Adverb/Adjective tokens as modifiers. -/
def slotLeadIn : List Tok → (List String × List Tok)
  | [] => ([], [])
  | t :: rest =>
    if t.pos = .VERB || t.pos = .UNKVERB then ([], t :: rest)
    else
      let r := slotLeadIn rest
      ((if t.pos = .ADV || t.pos = .ADJ then [t.text] else []) ++ r.1, r.2)

/-- Object phase: consume until a Preposition or sentence-terminal
punctuation, dropping Determiners and literal commas. -/
def slotObject : List Tok → (List String × List Tok)
  | [] => ([], [])
  | t :: rest =>
    if t.pos = .PREP then ([], t :: rest)
    else if t.pos = .PUNCT && (t.text = "." || t.text = ";" || t.text = ")") then
      ([], t :: rest)
    else
      let r := slotObject rest
      ((if !(t.pos = .DET) && !(t.text = ",") then [t.text] else []) ++ r.1, r.2)

/-- Pre-complement skip: Determiner/Adverb/Adjective tokens, the latter two
collected as modifiers. -/
def slotSkipDet : List Tok → (List String × List Tok)
  | [] => ([], [])
  | t :: rest =>
    if t.pos = .DET || t.pos = .ADV || t.pos = .ADJ then
      let r := slotSkipDet rest
      ((if t.pos = .ADV || t.pos = .ADJ then [t.text] else []) ++ r.1, r.2)
    else ([], t :: rest)

/-- Complement phase: consume to the end under the same stop rule as the
object, dropping Determiners only. -/
def slotComplement : List Tok → List String
  | [] => []
  | t :: rest =>
    if t.pos = .PUNCT && (t.text = "." || t.text = ";" || t.text = ")") then []
    else (if !(t.pos = .DET) then [t.text] else []) ++ slotComplement rest

/-- `StatementParser.parseSingle`: concept normalization, tokenization,
tagging, and the single forward pass of the slot extractor. -/
def parseSingle (lex : Lexicon) (t : Phrase) : ParsedStatement :=
  let tagged := tag lex (tokenize (normalizeConceptsInText t))
  let unknown := (tagged.filter (fun tk => tk.pos = PosTag.UNK)).map Tok.text
  let s1 := slotLeadIn tagged
  let predAndRest : Option String × List Tok :=
    match s1.2 with
    | [] => (none, [])
    | tk :: rest => (some tk.text, rest)
  let s3 := slotObject predAndRest.2
  let prepAndRest : Option String × List Tok :=
    match s3.2 with
    | [] => (none, [])
    | tk :: rest => if tk.pos = .PREP then (some tk.normalized, rest) else (none, tk :: rest)
  let s5 := slotSkipDet prepAndRest.2
  let comp := slotComplement s5.2
  .mk t none predAndRest.1
    (if s3.1.isEmpty then none else some s3.1)
    prepAndRest.1
    (if comp.isEmpty then none else some comp)
    (s1.1 ++ s5.1)
    (10 - unknown.length)
    unknown
    none
    false

/-! ## The statement assembler (`StatementParser.parse`) -/

/-- Split a `v1/v2` token (`^(\w+)\/(\w+)` followed by whitespace — the
whole first token). -/
def tokSlashSplit (w : String) : Option (String × String) :=
  match charSplit '/' w.data with
  | [a, b] =>
    if a ≠ [] && b ≠ [] && a.all wordChar && b.all wordChar then
      some (⟨a⟩, ⟨b⟩)
    else none
  | _ => none

/-- Comma-separated `\w+` pieces of one token of an Oxford verb list.
`needTrailing` requires the token to end with a comma (every token but the
last must, since the separator inside the capture is a comma). -/
def commaVerbPieces (w : String) (needTrailing : Bool) : Option (List String) :=
  let pieces := charSplit ',' w.data
  if needTrailing then
    match pieces.getLast? with
    | some [] =>
      let ps := pieces.dropLast
      if ps ≠ [] && ps.all (fun l => l ≠ [] && l.all wordChar) then
        some (ps.map (fun l => (⟨l⟩ : String)))
      else none
    | _ => none
  else
    let ps := if pieces.getLast? = some [] then pieces.dropLast else pieces
    if ps ≠ [] && ps.all (fun l => l ≠ [] && l.all wordChar) then
      some (ps.map (fun l => (⟨l⟩ : String)))
    else none

/-- The comma verb-list capture
`(\w+,\s*\w+(?:,\s*\w+)*)` over a token run: every token but the last
carries a trailing comma, pieces are `\w+`, and there are at least two
pieces in total. -/
def checkCommaVerbList : Phrase → Option (List String)
  | [] => none
  | [w] =>
    match commaVerbPieces w false with
    | some ps => if 2 ≤ ps.length then some ps else none
    | none => none
  | w :: x :: rest =>
    match commaVerbPieces w true with
    | some ps =>
      match checkCommaVerbList (x :: rest) with
      | some qs => some (ps ++ qs)
      | none => none
    | none => none

/-- The Oxford-comma verb-list matcher
(`^(\w+,\s*\w+(?:,\s*\w+)*),?\s+(and|or)\s+(\w+)\s+(.+)$`): the greedy
capture takes the largest well-formed verb list before the conjunction. -/
def oxfordVerbMatch (t : Phrase) : Option (List String × String × String × Phrase) :=
  (List.range t.length).reverse.findSome? (fun k =>
    match t.drop k with
    | c :: lv :: rest =>
      if conjTok c && wordish lv && !rest.isEmpty then
        match checkCommaVerbList (t.take k) with
        | some pieces => some (pieces ++ [lv], c, lv, rest)
        | none => none
      else none
    | _ => none)

/-- The two-verb conjunction shape
`^(\w+)\s+(and|or)\s+(\w+)\s+(.+)$` with both words in the verb table
(`StatementParser.isVerbConjunction`). -/
def isVerbConjunction (lex : Lexicon) : Phrase → Bool
  | v1 :: c :: v2 :: _ :: _ =>
    wordish v1 && conjTok c && wordish v2 &&
    lex.verbs.contains (lowerStr v1) && lex.verbs.contains (lowerStr v2)
  | _ => false

/-- Interleave `and` between words (`verbs.slice(1).join(' and ')`). -/
def joinAndWords (l : List String) : Phrase := l.intersperse "and"

/-- Replace a leading occurrence of `verb1` by the capitalized `verb2`
(`exp.replace(new RegExp('^' + verb1 + '\\s+', 'i'), capitalized + ' ')`). -/
def replaceHeadVerb (v1 v2 : String) : Phrase → Phrase
  | [] => []
  | w :: rest => if lowerStr w = lowerStr v1 then capitalizeW v2 :: rest else w :: rest

/-- Attach expansions and the conjunction flag to a parsed statement
(the `{ ...parsed, hasConjunction: true, expansions }` spread). -/
def ParsedStatement.withExpansions (s : ParsedStatement) (l : List ParsedStatement) :
    ParsedStatement :=
  match s with
  | .mk o su pr ob pp co mo cf uw _ _ => .mk o su pr ob pp co mo cf uw (some l) true

/-- Stage 4 of `parse`: whole-text coordinate expansion, else the single
statement. -/
def parseStage4 (lex : Lexicon) (t : Phrase) : ParsedStatement :=
  if (hasConjB t || hasComma t || hasSlash t || hasSuchAs t) && !isVerbConjunction lex t then
    let e := expandRawText lex t
    if 1 < e.length then (parseSingle lex t).withExpansions (e.map (parseSingle lex))
    else parseSingle lex t
  else parseSingle lex t

/-- Stage 3 of `parse`: the two-verb conjunction with the shared object
expanded once and distributed (`verbListMatch`). -/
def parseStage3 (lex : Lexicon) (t : Phrase) : ParsedStatement :=
  match t with
  | v1 :: c :: v2 :: o :: os =>
    if wordish v1 && conjTok c && wordish v2 &&
        lex.verbs.contains (lowerStr v1) && lex.verbs.contains (lowerStr v2) then
      let object := o :: os
      let objectExpansions :=
        if hasConjB object || hasComma object || hasSlash object then
          expandRawText lex (v1 :: object)
        else [v1 :: object]
      let verb2Expansions := objectExpansions.map (replaceHeadVerb v1 v2)
      .mk t none (some (capitalizeW v1)) (some (c :: v2 :: object)) none none [] 10 []
        (some (objectExpansions.map (parseSingle lex) ++
               verb2Expansions.map (parseSingle lex))) true
    else parseStage4 lex t
  | _ => parseStage4 lex t

/-- Stage 2 of `parse`: the Oxford-comma verb list. -/
def parseStage2 (lex : Lexicon) (t : Phrase) : ParsedStatement :=
  match oxfordVerbMatch t with
  | some (verbs, _, _, rest) =>
    if (match verbs.head? with
        | some v0 => lex.verbs.contains (lowerStr v0)
        | none => false) &&
       !(match rest.head? with
         | some r0 => lex.verbs.contains (lowerStr r0)
         | none => false) &&
       3 ≤ verbs.length then
      let allExpansions := verbs.flatMap (fun vb =>
        let verbText := capitalizeW vb :: rest
        if hasSuchAs rest || hasConjB rest || hasComma rest then
          let subs := expandRawText lex verbText
          if 1 < subs.length then subs.map (parseSingle lex) else [parseSingle lex verbText]
        else [parseSingle lex verbText])
      .mk t none (some (capitalizeW (verbs.headD "")))
        (some (joinAndWords verbs.tail ++ rest)) none none [] 10 []
        (some allExpansions) true
    else parseStage3 lex t
  | none => parseStage3 lex t

/-- `StatementParser.parse`: slash-verb pair, Oxford-comma verb list,
two-verb conjunction, whole-text expansion, plain single statement. -/
def parse (lex : Lexicon) (t : Phrase) : ParsedStatement :=
  match t with
  | t0 :: rest =>
    match tokSlashSplit t0 with
    | some (v1, v2) =>
      if !rest.isEmpty && lex.verbs.contains (lowerStr v1) &&
          lex.verbs.contains (lowerStr v2) then
        .mk t none (some (capitalizeW v1)) (some ("and" :: v2 :: rest)) none none [] 10 []
          (some [parseSingle lex (capitalizeW v1 :: rest),
                 parseSingle lex (capitalizeW v2 :: rest)]) true
      else parseStage2 lex t
    | none => parseStage2 lex t
  | [] => parseStage2 lex []

/-! ## The facade (`GraphDLParser.parse`) -/

/-- The facade state: the lexicon is present exactly after `initialize()`
completed. -/
def gdlParse (st : Option Lexicon) (t : Phrase) : Except String ParsedStatement :=
  match st with
  | none => Except.error "Parser not initialized. Call initialize() first."
  | some lex => Except.ok (parse lex t)

/-! ## The serializer (`GraphDLParser.toGraphDL`) -/

/-- Strip the punctuation class `[,;:()\x27]` from a word
(`w.replace(/[,;:()\x27]/g, )` in `toPascalCase`). -/
def stripPunctW (w : String) : String :=
  ⟨w.data.filter (fun c => !([',', ';', ':', '(', ')', '\''].contains c))⟩

/-- The stop words dropped by `toPascalCase`. -/
def pascalStopWords : List String := ["and", "or", "but", "the", "a", "an"]

/-- PascalCase one word, splitting hyphenated compounds
(`word.split(-).map(part => ...).join()`). -/
def pascalWord (w : String) : String :=
  ⟨((charSplit '-' w.data).map pascalPart).flatten⟩

/-- Empty-separator join (JavaScript `join()`). -/
def concatStrs : List String → String
  | [] => ""
  | s :: ss => s ++ concatStrs ss

/-- Dot join (JavaScript `join('.')`). -/
def dotJoin : List String → String
  | [] => ""
  | [s] => s
  | s :: t :: ts => s ++ "." ++ dotJoin (t :: ts)

/-- `GraphDLParser.toPascalCase` on a word list: strip punctuation, drop
empty words and stop words, PascalCase each word, concatenate. -/
def toPascalCase (p : Phrase) : String :=
  let words := (p.map stripPunctW).filter
    (fun w => w ≠ "" && !pascalStopWords.contains (lowerStr w))
  concatStrs (words.map pascalWord)

/-- The preposition list of the serializer's object/complement dot-split
(`[of, in, on, at, to, for, with, from, by]`). -/
def serPrepList : List String :=
  ["of", "in", "on", "at", "to", "for", "with", "from", "by"]

/-- A word whose lowercase form is a serializer preposition. -/
def serPrepTok (w : String) : Bool := serPrepList.contains (lowerStr w)

/-- `and`/`or`/`but` filter of the object dot-split branches. -/
def andOrBut (w : String) : Bool := ["and", "or", "but"].contains (lowerStr w)

/-- The object segment of a leaf serialization: dot-split at an internal
preposition, otherwise plain PascalCase. -/
def serObject (ob : Phrase) : String :=
  let words := ob.filter (fun w => w ≠ "")
  let prepIndex : Int := match words.findIdx? serPrepTok with
    | some i => (i : Int)
    | none => -1
  if 0 < prepIndex ∧ prepIndex < (words.length : Int) - 1 then
    let i := prepIndex.toNat
    let beforePrep := (words.take i).filter (fun w => !andOrBut w)
    let afterPrep := (words.drop (i + 1)).filter (fun w => !andOrBut w)
    toPascalCase beforePrep ++ "." ++ lowerStr (words.getD i "") ++ "." ++
      toPascalCase afterPrep
  else toPascalCase ob

/-- The `isLikelyVerb` test of the `to`-preposition complement branch
(suffixes `ize|ate|ify|ect|uce|ase`, gerunds excluded). -/
def isLikelyVerb (lex : Lexicon) (firstWord : String) : Bool :=
  !endsWithStr "ing" firstWord &&
    (lex.verbs.contains firstWord || endsWithStr "ize" firstWord ||
     endsWithStr "ate" firstWord || endsWithStr "ify" firstWord ||
     endsWithStr "ect" firstWord || endsWithStr "uce" firstWord ||
     endsWithStr "ase" firstWord)

/-- The `isInfinitiveVerb` helper of the non-`to` complement branch
(suffixes `ize|ate|ify|ure`, gerunds excluded). -/
def isInfinitiveVerb (lex : Lexicon) (word : String) : Bool :=
  let lower := lowerStr word
  !endsWithStr "ing" lower &&
    (lex.verbs.contains lower || endsWithStr "ize" lower ||
     endsWithStr "ate" lower || endsWithStr "ify" lower ||
     endsWithStr "ure" lower)

/-- Leftmost split position of the non-greedy
`(.+?)\s+to\s+(\w+)\s+(.+)$` pattern: smallest `i ≥ 1` whose word is `to`
(case-insensitively) followed by a `\w+` word and a nonempty rest
(`i + 2 < co.length`). -/
def toInfinitiveIdx (co : Phrase) : Option Nat :=
  (List.range co.length).find? (fun i =>
    1 ≤ i && i + 2 < co.length &&
    lowerStr (co.getD i "") = "to" && wordish (co.getD (i + 1) ""))

/-- The linking verbs of the internal-preposition complement pattern. -/
def internalLinkVerbs : List String :=
  ["concerned", "related", "involved", "responsible", "engaged",
   "associated", "dealing", "focused", "pertaining"]

/-- The prepositions of the internal-preposition complement pattern. -/
def internalLinkPreps : List String := ["with", "to", "in", "for", "on"]

/-- Leftmost split position of the non-greedy
internal-preposition pattern: smallest `i ≥ 1` whose word is a linking
verb followed by one of its prepositions and a nonempty rest
(`i + 2 < co.length`). -/
def internalPrepIdx (co : Phrase) : Option Nat :=
  (List.range co.length).find? (fun i =>
    1 ≤ i && i + 2 < co.length &&
    internalLinkVerbs.contains (lowerStr (co.getD i "")) &&
    internalLinkPreps.contains (lowerStr (co.getD (i + 1) "")))

/-- The complement segment of a leaf serialization when the preposition
slot is exactly `to` (infinitive detection, gerunds read as nouns). -/
def serComplementTo (lex : Lexicon) (co : Phrase) : List String :=
  let complementWords := co.filter (fun w => w ≠ "")
  match complementWords with
  | w :: x :: rest =>
    let firstWord := lowerStr w
    if isLikelyVerb lex firstWord then
      [firstWord ++ "." ++ toPascalCase (x :: rest)]
    else [toPascalCase co]
  | [w] =>
    let word := lowerStr w
    if !endsWithStr "ing" word && lex.verbs.contains word then [word]
    else [toPascalCase co]
  | [] => []

/-- The non-leading branches of the complement serialization. -/
def serComplementInner (lex : Lexicon) (co : Phrase) : List String :=
  match toInfinitiveIdx co with
  | some i =>
    if isInfinitiveVerb lex (co.getD (i + 1) "") then
      [toPascalCase (co.take i) ++ ".to." ++ lowerStr (co.getD (i + 1) "") ++ "." ++
        toPascalCase (co.drop (i + 2))]
    else [toPascalCase co]
  | none =>
    match internalPrepIdx co with
    | some i =>
      [toPascalCase (co.take i) ++ "." ++ lowerStr (co.getD i "") ++ "." ++
        lowerStr (co.getD (i + 1) "") ++ "." ++ toPascalCase (co.drop (i + 2))]
    | none =>
      let words := co.filter (fun w => w ≠ "" && !andOrBut w)
      let prepIndex : Int := match words.findIdx? serPrepTok with
        | some i => (i : Int)
        | none => -1
      if 0 < prepIndex ∧ prepIndex < (words.length : Int) - 1 then
        let i := prepIndex.toNat
        [toPascalCase (words.take i) ++ "." ++ lowerStr (words.getD i "") ++ "." ++
          toPascalCase (words.drop (i + 1))]
      else [toPascalCase co]

/-- The complement segment of a leaf serialization for any other
preposition: leading infinitive, embedded infinitive, internal linking
preposition, plain prepositional split, else PascalCase. -/
def serComplementOther (lex : Lexicon) (co : Phrase) : List String :=
  match co with
  | t0 :: v :: r :: rs =>
    if lowerStr t0 = "to" && wordish v then
      if isInfinitiveVerb lex v then
        [lowerStr v ++ "." ++ toPascalCase (r :: rs)]
      else [toPascalCase co]
    else serComplementInner lex co
  | _ => serComplementInner lex co

/-- The leaf serialization: the dot-joined nonempty segments. -/
def serLeaf (lex : Lexicon) (su : Option Phrase) (pr : Option String)
    (ob : Option Phrase) (pp : Option String) (co : Option Phrase) : String :=
  let parts : List String :=
    (match su with | some s => [toPascalCase s] | none => []) ++
    (match pr with | some p => [lowerStr p] | none => []) ++
    (match ob with | some o => [serObject o] | none => []) ++
    (match pp with | some p => [p] | none => []) ++
    (match co with
     | some c => if pp = some "to" then serComplementTo lex c else serComplementOther lex c
     | none => [])
  dotJoin parts

mutual
/-- `GraphDLParser.toGraphDL`: bracket notation over the expansions when
present, the dot-joined leaf otherwise. -/
def toGraphDL (lex : Lexicon) : ParsedStatement → String
  | .mk _ su pr ob pp co _ _ _ ex _ =>
    match ex with
    | some (e :: es) => "[" ++ toGraphDLList lex (e :: es) ++ "]"
    | _ => serLeaf lex su pr ob pp co

/-- Comma-join of child serializations (`expansions.map(toGraphDL).join`). -/
def toGraphDLList (lex : Lexicon) : List ParsedStatement → String
  | [] => ""
  | [s] => toGraphDL lex s
  | s :: t :: ts => toGraphDL lex s ++ ", " ++ toGraphDLList lex (t :: ts)
end

/-! ## Example lexica for the concrete evaluations -/

/-- The empty lexicon: no verbs, no prepositions. -/
def lex0 : Lexicon := ⟨[], []⟩

/-- A lexicon holding the verbs `prepare` and `file` and the preposition
`on` — the words exercised by the running example. -/
def lexPF : Lexicon := ⟨["prepare", "file"], ["on"]⟩

/-! ## Marker-free phrases expand to themselves (claim C2 support) -/

/-- Without a comma character, no token splits at a comma. -/
theorem firstCommaFrom_none (b : Bool) (cs : List Char)
    (h : cs.contains ',' = false) : firstCommaFrom b cs = none := by
  induction cs generalizing b with
  | nil => rfl
  | cons c rest ih =>
    simp only [List.contains_cons, Bool.or_eq_false_iff, beq_eq_false_iff_ne] at h
    rw [firstCommaFrom, if_neg (by simp [Ne.symm h.1]), ih true h.2]
    rfl

/-- Without a comma, the Oxford first split fails. -/
theorem commaSplitOnce_none (p : Phrase) (h : hasComma p = false) :
    commaSplitOnce p = none := by
  rw [commaSplitOnce]
  suffices H : ∀ acc, commaSplitOnce.go acc p = none from H []
  induction p with
  | nil => intro acc; rw [commaSplitOnce.go]
  | cons w ws ih =>
    intro acc
    simp only [hasComma, List.any_cons, Bool.or_eq_false_iff] at h
    rw [commaSplitOnce.go, firstCommaFrom_none _ _ h.1]
    exact ih (by simp [hasComma, h.2]) (w :: acc)


/-- ASCII case-folding cannot leave the `\w` class: a character whose
lowercase form is a lowercase letter is a word character. -/
theorem wordChar_of_toLower (c : Char) (h : lowerAlpha (Char.toLower c) = true) :
    wordChar c = true := by
  unfold Char.toLower at h
  dsimp only at h
  by_cases hc : c.toNat ≥ 65 ∧ c.toNat ≤ 90
  · have he : c.val.toBitVec.toNat = c.toNat := rfl
    have h1 : ('A' : Char) ≤ c := by
      rw [Char.le_def, UInt32.le_def, BitVec.le_def]
      have h65 : ('A' : Char).val.toBitVec.toNat = 65 := by decide
      omega
    have h2 : c ≤ ('Z' : Char) := by
      rw [Char.le_def, UInt32.le_def, BitVec.le_def]
      have h90 : ('Z' : Char).val.toBitVec.toNat = 90 := by decide
      omega
    simp [wordChar, h1, h2]
  · rw [if_neg hc] at h
    simp only [lowerAlpha, Bool.and_eq_true] at h
    simp [wordChar, h.1, h.2]

/-- Rejoin split pieces with the separator (left inverse of `charSplit`). -/
def sepJoin (sep : Char) : List (List Char) → List Char
  | [] => []
  | x :: xs => x ++ xs.flatMap (fun y => sep :: y)

theorem charSplit_join (sep : Char) (l : List Char) :
    sepJoin sep (charSplit sep l) = l := by
  induction l with
  | nil => rfl
  | cons c cs ih =>
    rw [charSplit]
    by_cases h : c = sep
    · rw [if_pos h]
      rcases hr : charSplit sep cs with - | ⟨p, ps⟩
      · exact absurd hr (charSplit_ne_nil sep cs)
      · rw [hr] at ih
        rw [sepJoin, List.flatMap_cons, List.nil_append]
        rw [sepJoin] at ih
        rw [List.cons_append, ih, h]
    · rw [if_neg h]
      rcases hr : charSplit sep cs with - | ⟨p, ps⟩
      · exact absurd hr (charSplit_ne_nil sep cs)
      · rw [hr] at ih
        rw [sepJoin] at ih ⊢
        rw [List.cons_append, ih]

/-- A filter result decomposes the original list around any of its
elements, filtering each side. -/
theorem filter_eq_append_split {α : Type} (q : α → Bool) :
    ∀ (l A : List α) (t : α) (B : List α), l.filter q = A ++ t :: B →
      ∃ L R, l = L ++ t :: R ∧ L.filter q = A ∧ R.filter q = B := by
  intro l
  induction l with
  | nil =>
    intro A t B h
    rw [List.filter_nil] at h
    cases A <;> simp at h
  | cons x xs ih =>
    intro A t B h
    rw [List.filter_cons] at h
    by_cases hq : q x = true
    · rw [if_pos hq] at h
      cases A with
      | nil =>
        rw [List.nil_append] at h
        injection h with h1 h2
        exact ⟨[], xs, by rw [h1, List.nil_append], by simp, by rw [h2]⟩
      | cons a A' =>
        rw [List.cons_append] at h
        injection h with h1 h2
        obtain ⟨L, R, hl, hA, hB⟩ := ih A' t B h2
        exact ⟨x :: L, R, by rw [hl, List.cons_append],
          by rw [List.filter_cons, if_pos hq, hA, h1], hB⟩
    · rw [if_neg hq] at h
      obtain ⟨L, R, hl, hA, hB⟩ := ih A t B h
      exact ⟨x :: L, R, by rw [hl, List.cons_append],
        by rw [List.filter_cons, if_neg hq, hA], hB⟩

/-- A middle element of the filtered list is a middle element of the
original list. -/
theorem exists_mid_of_filter {α : Type} (q : α → Bool) (l A : List α) (t : α)
    (B : List α) (h : l.filter q = A ++ t :: B) (hA : A ≠ []) (hB : B ≠ []) :
    ∃ L R, l = L ++ t :: R ∧ L ≠ [] ∧ R ≠ [] := by
  obtain ⟨L, R, hl, hLA, hRB⟩ := filter_eq_append_split q l A t B h
  refine ⟨L, R, hl, ?_, ?_⟩
  · intro he; rw [he, List.filter_nil] at hLA; exact hA hLA.symm
  · intro he; rw [he, List.filter_nil] at hRB; exact hB hRB.symm

/-- Rejoining around a middle piece places a separator on each side of it. -/
theorem sepJoin_mid (sep : Char) (L : List (List Char)) (t : List Char)
    (R : List (List Char)) (hL : L ≠ []) (hR : R ≠ []) :
    ∃ u v, sepJoin sep (L ++ t :: R) = u ++ sep :: (t ++ sep :: v) := by
  cases L with
  | nil => exact absurd rfl hL
  | cons x xs =>
    cases R with
    | nil => exact absurd rfl hR
    | cons r rs =>
      refine ⟨x ++ xs.flatMap (fun y => sep :: y),
        r ++ rs.flatMap (fun y => sep :: y), ?_⟩
      rw [List.cons_append, sepJoin]
      simp [List.flatMap_append, List.flatMap_cons, List.append_assoc]

/-- A run list beginning at a word character is nonempty. -/
theorem wordRuns_ne_nil (c : Char) (cs : List Char) (h : wordChar c = true) :
    wordRuns (c :: cs) ≠ [] := by
  rw [wordRuns.eq_def]
  dsimp only
  rw [if_pos h]
  cases cs with
  | nil => simp
  | cons d ds =>
    dsimp only
    by_cases hd : wordChar d = true
    · rw [if_pos hd]
      cases hw : wordRuns (d :: ds) <;> simp
    · rw [if_neg hd]; simp

/-- Word runs split at any non-word character. -/
theorem wordRuns_sep (s : Char) (hs : wordChar s = false) :
    ∀ a b, wordRuns (a ++ s :: b) = wordRuns a ++ wordRuns b := by
  have hsb : ∀ b, wordRuns (s :: b) = wordRuns b := by
    intro b
    rw [wordRuns.eq_def]
    dsimp only
    rw [if_neg (by rw [hs]; exact Bool.false_ne_true)]
  intro a
  induction a with
  | nil =>
    intro b
    rw [List.nil_append, hsb b]
    rfl
  | cons c a' ih =>
    intro b
    rw [List.cons_append, wordRuns.eq_def]
    dsimp only
    by_cases hc : wordChar c = true
    · rw [if_pos hc]
      cases a' with
      | nil =>
        rw [List.nil_append]
        dsimp only
        rw [if_neg (by rw [hs]; exact Bool.false_ne_true), hsb b]
        have h1 : wordRuns [c] = [[c]] := by
          rw [wordRuns.eq_def]
          dsimp only
          rw [if_pos hc]
        rw [h1]
        rfl
      | cons d a'' =>
        rw [List.cons_append]
        dsimp only
        have ih2 : wordRuns (d :: (a'' ++ s :: b)) = wordRuns (d :: a'') ++ wordRuns b := by
          rw [← List.cons_append]
          exact ih b
        by_cases hd : wordChar d = true
        · rw [if_pos hd, ih2]
          have hne := wordRuns_ne_nil d a'' hd
          rcases hw : wordRuns (d :: a'') with - | ⟨q, qs⟩
          · exact absurd hw hne
          · rw [List.cons_append]
            dsimp only
            conv_rhs => rw [wordRuns.eq_def]
            dsimp only
            rw [if_pos hc, if_pos hd, hw]
            rw [List.cons_append]
        · rw [if_neg hd, ih2]
          conv_rhs => rw [wordRuns.eq_def]
          dsimp only
          rw [if_pos hc, if_neg hd]
          rw [List.cons_append]
    · rw [if_neg hc, ih b]
      conv_rhs => rw [wordRuns.eq_def]
      dsimp only
      rw [if_neg hc]

/-- A nonempty all-word character list is a single run. -/
theorem wordRuns_all_word : ∀ (l : List Char), l ≠ [] → l.all wordChar = true →
    wordRuns l = [l] := by
  intro l
  induction l with
  | nil => intro h; exact absurd rfl h
  | cons c cs ih =>
    intro _ hall
    rw [List.all_cons, Bool.and_eq_true] at hall
    rw [wordRuns.eq_def]
    dsimp only
    rw [if_pos hall.1]
    cases cs with
    | nil => rfl
    | cons d ds =>
      dsimp only
      have hd : wordChar d = true := by
        have := hall.2
        rw [List.all_cons, Bool.and_eq_true] at this
        exact this.1
      rw [if_pos hd, ih (by simp) hall.2]

/-- Runs of a space-join are the token runs concatenated. -/
theorem wordRuns_joinChars (p : Phrase) :
    wordRuns (joinChars p) = p.flatMap (fun w => wordRuns w.data) := by
  induction p with
  | nil => rfl
  | cons w ws ih =>
    cases ws with
    | nil => rw [joinChars]; simp
    | cons x xs =>
      rw [joinChars, wordRuns_sep ' ' (by decide) w.data (joinChars (x :: xs)), ih]
      simp [List.flatMap_cons, List.append_assoc]

theorem any_flatMap {α β : Type} (f : α → List β) (q : β → Bool) :
    ∀ l : List α, (l.flatMap f).any q = l.any (fun x => (f x).any q) := by
  intro l
  induction l with
  | nil => rfl
  | cons x xs ih => rw [List.flatMap_cons, List.any_append, ih, List.any_cons]

/-- Characters of a space-join: the space, or a character of some token. -/
theorem joinChars_mem (p : Phrase) (c : Char) (hc : c ∈ joinChars p) :
    c = ' ' ∨ ∃ w ∈ p, c ∈ w.data := by
  induction p with
  | nil => rw [joinChars] at hc; simp at hc
  | cons w ws ih =>
    cases ws with
    | nil =>
      rw [joinChars] at hc
      exact Or.inr ⟨w, by simp, hc⟩
    | cons x xs =>
      rw [joinChars] at hc
      rcases List.mem_append.mp hc with h | h
      · exact Or.inr ⟨w, by simp, h⟩
      · rcases List.mem_cons.mp h with h | h
        · exact Or.inl h
        · rcases ih h with h | ⟨u, hu, hcu⟩
          · exact Or.inl h
          · exact Or.inr ⟨u, List.mem_cons_of_mem _ hu, hcu⟩

/-- Structure of a conjunction token: nonempty, all word characters, and
lowercasing to `and` or `or`. -/
theorem conjTok_data (t : String) (h : conjTok t = true) :
    t.data ≠ [] ∧ t.data.all wordChar = true ∧
      ((⟨t.data.map Char.toLower⟩ : String) = "and" ∨
        (⟨t.data.map Char.toLower⟩ : String) = "or") := by
  rw [conjTok, Bool.or_eq_true, decide_eq_true_eq, decide_eq_true_eq] at h
  have hmap : t.data.map Char.toLower = "and".data ∨
      t.data.map Char.toLower = "or".data := by
    rcases h with h | h
    · exact Or.inl (congrArg String.data h)
    · exact Or.inr (congrArg String.data h)
  refine ⟨?_, ?_, h⟩
  · intro he
    rw [he, List.map_nil] at hmap
    rcases hmap with hm | hm <;> exact absurd hm.symm (by decide)
  · rw [List.all_eq_true]
    intro c hcmem
    have hmem : Char.toLower c ∈ t.data.map Char.toLower :=
      List.mem_map_of_mem _ hcmem
    apply wordChar_of_toLower
    rcases hmap with hm | hm <;> rw [hm] at hmem
    · have h3 : ("and".data : List Char) = ['a', 'n', 'd'] := rfl
      rw [h3] at hmem
      simp only [List.mem_cons, List.not_mem_nil, or_false] at hmem
      rcases hmem with h4 | h4 | h4 <;> rw [h4] <;> decide
    · have h3 : ("or".data : List Char) = ['o', 'r'] := rfl
      rw [h3] at hmem
      simp only [List.mem_cons, List.not_mem_nil, or_false] at hmem
      rcases hmem with h4 | h4 <;> rw [h4] <;> decide

/-- No conjunction word in the phrase: no token-level conjunction split
succeeds in the word list of any slice of the joined string. -/
theorem conj_splitTok1_none (p : Phrase) (hconj : hasConjB p = false)
    (pre d post : List Char) (hcs : joinChars p = pre ++ (d ++ post)) :
    splitTok1 conjTok (wordsOfChars d) = none := by
  cases hsp : splitTok1 conjTok (wordsOfChars d) with
  | none => rfl
  | some res =>
    exfalso
    obtain ⟨l, t, r⟩ := res
    obtain ⟨heq, hl, hr, ht⟩ := splitTok1_sound conjTok (wordsOfChars d) l t r hsp
    have hdata : (charSplit ' ' d).filter (· ≠ []) =
        l.map String.data ++ t.data :: r.map String.data := by
      have h2 := congrArg (List.map String.data) heq
      rw [wordsOfChars, List.map_map] at h2
      have h3 : (String.data ∘ fun l => (⟨l⟩ : String)) = id := rfl
      rw [h3, List.map_id] at h2
      rw [h2]
      simp
    have hA : l.map String.data ≠ [] := by simpa using hl
    have hB : r.map String.data ≠ [] := by simpa using hr
    obtain ⟨L, R, hdl, hLne, hRne⟩ :=
      exists_mid_of_filter (· ≠ []) (charSplit ' ' d) _ _ _ hdata hA hB
    obtain ⟨u, v, hjoin⟩ := sepJoin_mid ' ' L t.data R hLne hRne
    have hd : d = u ++ ' ' :: (t.data ++ ' ' :: v) := by
      rw [← charSplit_join ' ' d, hdl, hjoin]
    obtain ⟨hne, hall, hlow⟩ := conjTok_data t ht
    have hruns : wordRuns t.data = [t.data] := wordRuns_all_word t.data hne hall
    have hmem : t.data ∈ wordRuns (joinChars p) := by
      rw [hcs, hd]
      have hshape : pre ++ ((u ++ ' ' :: (t.data ++ ' ' :: v)) ++ post)
          = (pre ++ u) ++ ' ' :: (t.data ++ ' ' :: (v ++ post)) := by
        simp [List.append_assoc]
      rw [hshape, wordRuns_sep ' ' (by decide),
        wordRuns_sep ' ' (by decide) t.data, hruns]
      simp
    have hbridge : hasConjB p = (wordRuns (joinChars p)).any
        (fun r => (⟨r.map Char.toLower⟩ : String) = "and" ||
          (⟨r.map Char.toLower⟩ : String) = "or") := by
      rw [hasConjB, wordRuns_joinChars, any_flatMap]
    rw [hbridge] at hconj
    have hcr : ((⟨t.data.map Char.toLower⟩ : String) = "and" ||
        (⟨t.data.map Char.toLower⟩ : String) = "or") = true := by
      rcases hlow with h | h <;> simp [h]
    have hany : ((wordRuns (joinChars p)).any
        (fun r => (⟨r.map Char.toLower⟩ : String) = "and" ||
          (⟨r.map Char.toLower⟩ : String) = "or")) = true :=
      List.any_eq_true.mpr ⟨t.data, hmem, hcr⟩
    rw [hany] at hconj
    exact absurd hconj (by simp)

/-- No comma in the phrase: no comma in the word list of any slice of the
joined string. -/
theorem comma_wordsOfChars_false (p : Phrase) (hcomma : hasComma p = false)
    (pre d post : List Char) (hcs : joinChars p = pre ++ (d ++ post)) :
    hasComma (wordsOfChars d) = false := by
  rw [hasComma, List.any_eq_false]
  intro w hw habs
  have hc : (',' : Char) ∈ w.data := by
    rw [strHasChar] at habs
    simpa using habs
  have hcd : (',' : Char) ∈ d := wordsOfChars_chars d w hw ',' hc
  have hcj : (',' : Char) ∈ joinChars p := by
    rw [hcs]
    exact List.mem_append_right _ (List.mem_append_left _ hcd)
  rcases joinChars_mem p ',' hcj with h | ⟨u, hu, hcu⟩
  · exact absurd h (by decide)
  · rw [hasComma, List.any_eq_false] at hcomma
    exact hcomma u hu (by rw [strHasChar]; simpa using hcu)

/-- Without any conjunction word or comma, nested-conjunction expansion is
the identity. -/
theorem expandNestedConjunction_of_no_conj (p : Phrase)
    (hconj : hasConjB p = false) (hcomma : hasComma p = false) :
    expandNestedConjunction p = [p] := by
  rw [expandNestedConjunction]
  suffices H : ∀ conns, expandNestedConjunction.go p conns = [p] from H connectorPhrases
  intro conns
  induction conns with
  | nil => rw [expandNestedConjunction.go]
  | cons conn more ih =>
    rw [expandNestedConjunction.go]
    cases hio : strIndexOf (joinChars conn) ((joinChars p).map Char.toLower) with
    | none => exact ih
    | some i =>
      dsimp only
      have hsubc : hasComma (wordsOfChars ((joinChars p).take i)) = false :=
        comma_wordsOfChars_false p hcomma [] _ ((joinChars p).drop i)
          (by rw [List.nil_append, List.take_append_drop])
      have hobjc : hasComma (wordsOfChars
          ((joinChars p).drop (i + (joinChars conn).length))) = false :=
        comma_wordsOfChars_false p hcomma
          ((joinChars p).take (i + (joinChars conn).length)) _ []
          (by rw [List.append_nil, List.take_append_drop])
      have hsubs : splitTok1 conjTok (wordsOfChars ((joinChars p).take i)) = none :=
        conj_splitTok1_none p hconj [] _ ((joinChars p).drop i)
          (by rw [List.nil_append, List.take_append_drop])
      have hobjs : splitTok1 conjTok (wordsOfChars
          ((joinChars p).drop (i + (joinChars conn).length))) = none :=
        conj_splitTok1_none p hconj
          ((joinChars p).take (i + (joinChars conn).length)) _ []
          (by rw [List.append_nil, List.take_append_drop])
      by_cases h1 : (!hasConjB (wordsOfChars ((joinChars p).take i))) = true
      · rw [if_pos h1]; exact ih
      rw [if_neg h1]
      rw [if_neg (by rw [hsubc]; exact Bool.false_ne_true)]
      by_cases h3 : (!hasComma (wordsOfChars
          ((joinChars p).drop (i + (joinChars conn).length))) &&
          !hasConjB (wordsOfChars
          ((joinChars p).drop (i + (joinChars conn).length)))) = true
      · rw [if_pos h3]; exact ih
      rw [if_neg h3]
      have hsubj : expandSimpleConjunction (wordsOfChars ((joinChars p).take i)) =
          [wordsOfChars ((joinChars p).take i)] := by
        rw [expandSimpleConjunction, hsubs]
      have hobj : expandObjectList (wordsOfChars
          ((joinChars p).drop (i + (joinChars conn).length))) =
          [wordsOfChars ((joinChars p).drop (i + (joinChars conn).length))] := by
        rw [expandObjectList, oxfordSplit, commaSplitOnce_none _ hobjc]
        dsimp only
        rw [hobjs]
        dsimp only
        rw [hobjc]
        rfl
      rw [hsubj, hobj]
      rw [if_neg (by simp)]
      exact ih

/-- C2 engine lemma: a phrase with no conjunction word, comma, slash or
`such as` expands to exactly itself. -/
theorem expandPhrase_fixed (lex : Lexicon) (p : Phrase)
    (hconj : hasConjB p = false) (hcomma : hasComma p = false)
    (hslash : hasSlash p = false) (hsuch : hasSuchAs p = false) :
    expandPhrase lex p = [p] := by
  rw [expandPhrase_eq, epBody.eq_def]
  by_cases hemp : p.isEmpty
  · rw [if_pos hemp]
  · have hnest := expandNestedConjunction_of_no_conj p hconj hcomma
    have hox : oxfordSplit p = none := by
      rw [oxfordSplit, commaSplitOnce_none p hcomma]
    simp [hemp, hsuch, hslash, hcomma, hconj, hnest, hox]

/-! ## Reaching the shared-suffix stage (claims C3 and C4 support) -/

/-- Under the guards that disable every earlier stage, `expandPhrase`
reaches the shared-suffix decision: the three skip conditions in source
order, the plain split on a skip, and the asymmetric suffix appending
otherwise. -/
theorem expandPhrase_sharedSuffix (lex : Lexicon) (p left : Phrase)
    (c middle : String) (suffix : Phrase)
    (hemp : p.isEmpty = false)
    (hsuch : hasSuchAs p = false)
    (hslash : hasSlash p = false)
    (hnest : (expandNestedConjunction p).length ≤ 1)
    (hcomma : hasComma p = false)
    (hconj : hasConjB p = true)
    (hboth : ¬ lowerStr (p.headD "") = "both")
    (hsplit : splitTok2 conjTok (fun _ => true) p = some (left, c, middle, suffix)) :
    expandPhrase lex p =
      if phraseDetSkipList.contains (lowerStr middle) then
        epSimpleSplit (expandPhrase lex) p
      else if isCompoundPhrase middle (joinWords suffix) then
        epSimpleSplit (expandPhrase lex) p
      else if lex.verbs.contains (lowerStr middle) &&
          !(left.length = 1 && lex.verbs.contains (lastWordLower left)) then
        epSimpleSplit (expandPhrase lex) p
      else
        (expandPhrase lex left).map (fun l =>
          if lastWordLower l = lowerStr (joinWords suffix) then l else l ++ suffix) ++
        (expandPhrase lex [middle]).map (· ++ suffix) := by
  have hox : oxfordSplit p = none := by
    rw [oxfordSplit, commaSplitOnce_none p hcomma]
  rw [expandPhrase_eq, epBody.eq_def]
  rw [if_neg (by simp [hemp])]
  rw [if_neg (by simp [hsuch])]
  rw [if_neg (by simp [hslash])]
  rw [if_neg (Nat.not_lt.mpr hnest)]
  rw [hox]
  dsimp only
  rw [if_neg (by simp [hcomma])]
  rw [if_neg (by simp [hconj])]
  cases p with
  | nil => simp at hemp
  | cons b rest =>
    dsimp only
    have hb : ¬ lowerStr b = "both" := by simpa using hboth
    rw [if_neg (by simp [hb])]
    rw [hsplit]

/-! ## Claims C2, C3, C4 -/

/-- C2: for every phrase with no `and` or `or` word (no `\b(and|or)\b`
match), no comma, no slash and no `such as` pair, the phrase expander
returns exactly the one-element list holding the phrase unchanged. -/
theorem claim_C2 (lex : Lexicon) (p : Phrase)
    (hconj : hasConjB p = false) (hcomma : hasComma p = false)
    (hslash : hasSlash p = false) (hsuch : hasSuchAs p = false) :
    expandPhrase lex p = [p] :=
  expandPhrase_fixed lex p hconj hcomma hslash hsuch

theorem claim_C2_witness :
    hasConjB ["process", "customer", "payments"] = false ∧
    hasComma ["process", "customer", "payments"] = false ∧
    hasSlash ["process", "customer", "payments"] = false ∧
    hasSuchAs ["process", "customer", "payments"] = false ∧
    expandPhrase lex0 ["process", "customer", "payments"] =
      [["process", "customer", "payments"]] :=
  ⟨by decide, by decide, by decide, by decide,
   claim_C2 lex0 ["process", "customer", "payments"]
     (by decide) (by decide) (by decide) (by decide)⟩

/-- C3 counterexample: the claim's unless-rule, applied to the middle
alternative of `x and y y`, predicts the result `[[x, y], [y]]` (the
middle alternative `y` already ends in the suffix word `y`, so no suffix
would be appended); the code appends the suffix to every middle
alternative unconditionally and returns `[[x, y], [y, y]]`. -/
theorem claim_C3_counterexample :
    expandPhrase lex0 ["x", "and", "y", "y"] = [["x", "y"], ["y", "y"]] ∧
    ([["x", "y"], ["y", "y"]] : List Phrase) ≠ [["x", "y"], ["y"]] :=
  ⟨by decide, by decide⟩

/-- C3 (amended): when the shared-suffix stage fires with none of its
three skip conditions, the result is the expanded left alternatives —
each given the suffix unless its last word already equals the suffix —
followed by the expanded middle alternatives, each with the suffix
appended unconditionally; and
`expand("Excavating and Loading Machine")` is exactly
`["Excavating Machine", "Loading Machine"]`, left before middle. -/
theorem claim_C3 (lex : Lexicon) (p left : Phrase)
    (c middle : String) (suffix : Phrase)
    (hemp : p.isEmpty = false)
    (hsuch : hasSuchAs p = false)
    (hslash : hasSlash p = false)
    (hnest : (expandNestedConjunction p).length ≤ 1)
    (hcomma : hasComma p = false)
    (hconj : hasConjB p = true)
    (hboth : ¬ lowerStr (p.headD "") = "both")
    (hsplit : splitTok2 conjTok (fun _ => true) p = some (left, c, middle, suffix))
    (hdet : phraseDetSkipList.contains (lowerStr middle) = false)
    (hcomp : isCompoundPhrase middle (joinWords suffix) = false)
    (hverb : (lex.verbs.contains (lowerStr middle) &&
      !(left.length = 1 && lex.verbs.contains (lastWordLower left))) = false) :
    expandPhrase lex p =
      (expandPhrase lex left).map (fun l =>
        if lastWordLower l = lowerStr (joinWords suffix) then l else l ++ suffix) ++
      (expandPhrase lex [middle]).map (· ++ suffix) ∧
    expandPhrase lex0 ["Excavating", "and", "Loading", "Machine"] =
      [["Excavating", "Machine"], ["Loading", "Machine"]] := by
  refine ⟨?_, by decide⟩
  rw [expandPhrase_sharedSuffix lex p left c middle suffix hemp hsuch hslash hnest
    hcomma hconj hboth hsplit]
  rw [if_neg (by simpa using hdet), if_neg (by simp [hcomp])]
  rw [if_neg ?hv]
  case hv =>
    intro hx
    rw [Bool.and_eq_true] at hx
    obtain ⟨hm, h2⟩ := hx
    rw [hm, Bool.true_and, h2] at hverb
    exact absurd hverb (by simp)

theorem claim_C3_witness :
    (["Excavating", "and", "Loading", "Machine"] : Phrase).isEmpty = false ∧
    splitTok2 conjTok (fun _ => true) ["Excavating", "and", "Loading", "Machine"] =
      some (["Excavating"], "and", "Loading", ["Machine"]) ∧
    expandPhrase lex0 ["Excavating", "and", "Loading", "Machine"] =
      (expandPhrase lex0 ["Excavating"]).map (fun l =>
        if lastWordLower l = lowerStr (joinWords ["Machine"]) then l
        else l ++ ["Machine"]) ++
      (expandPhrase lex0 ["Loading"]).map (· ++ ["Machine"]) :=
  ⟨by decide, by decide,
   (claim_C3 lex0 ["Excavating", "and", "Loading", "Machine"] ["Excavating"]
     "and" "Loading" ["Machine"] (by decide) (by decide) (by decide) (by decide)
     (by decide) (by decide) (by decide) (by decide) (by decide) (by decide)
     (by decide)).1⟩

/-- C4 counterexample: `some` is a lexicon determiner, yet as the middle
word of `enterprise and some customer` it does not suppress the
shared-suffix resolution — the code checks a hardcoded seven-word list,
not the lexicon determiner set, so the suffix is distributed instead of
falling through to the plain split `[[enterprise], [some, customer]]`. -/
theorem claim_C4_counterexample :
    determinerList.contains "some" = true ∧
    expandPhrase lex0 ["enterprise", "and", "some", "customer"] =
      [["enterprise", "customer"], ["some", "customer"]] ∧
    ([["enterprise", "customer"], ["some", "customer"]] : List Phrase) ≠
      [["enterprise"], ["some", "customer"]] :=
  ⟨by decide, by decide, by decide⟩

/-- C4 (amended): the shared-suffix resolution is suppressed in favour of
the plain split at the first conjunction exactly when the lowercased
middle word is in the hardcoded list
`the, a, an, this, that, these, those` — not the lexicon determiner
set. -/
theorem claim_C4 (lex : Lexicon) (p left : Phrase)
    (c middle : String) (suffix : Phrase)
    (hemp : p.isEmpty = false)
    (hsuch : hasSuchAs p = false)
    (hslash : hasSlash p = false)
    (hnest : (expandNestedConjunction p).length ≤ 1)
    (hcomma : hasComma p = false)
    (hconj : hasConjB p = true)
    (hboth : ¬ lowerStr (p.headD "") = "both")
    (hsplit : splitTok2 conjTok (fun _ => true) p = some (left, c, middle, suffix))
    (hdet : phraseDetSkipList.contains (lowerStr middle) = true) :
    expandPhrase lex p = epSimpleSplit (expandPhrase lex) p := by
  rw [expandPhrase_sharedSuffix lex p left c middle suffix hemp hsuch hslash hnest
    hcomma hconj hboth hsplit]
  rw [if_pos (by simpa using hdet)]

theorem claim_C4_witness :
    phraseDetSkipList.contains (lowerStr "the") = true ∧
    expandPhrase lex0 ["enterprise", "and", "the", "customer"] =
      epSimpleSplit (expandPhrase lex0) ["enterprise", "and", "the", "customer"] :=
  ⟨by decide,
   claim_C4 lex0 ["enterprise", "and", "the", "customer"] ["enterprise"]
     "and" "the" ["customer"] (by decide) (by decide) (by decide) (by decide)
     (by decide) (by decide) (by decide) (by decide) (by decide)⟩

/-! ## Claim C5 -/

/-- C5: parsing before initialization fails fast with the explicit error
message; with an initialized lexicon the facade returns an `ok` statement
on every input. -/
theorem claim_C5 :
    (∀ t : Phrase, gdlParse none t =
      Except.error "Parser not initialized. Call initialize() first.") ∧
    (∀ (lex : Lexicon) (t : Phrase), gdlParse (some lex) t = Except.ok (parse lex t)) :=
  ⟨fun _ => rfl, fun _ _ => rfl⟩

/-! ## Claim C10: trees are at most one level deep -/

/-- The C10 invariant: expansions, when present, hold at least two leaf
statements, and the conjunction flag mirrors the presence of
expansions. -/
def depthOne (s : ParsedStatement) : Prop :=
  (∀ l, s.expansions = some l →
    2 ≤ l.length ∧ ∀ e ∈ l, e.expansions = none ∧ e.hasConjunction = false) ∧
  (s.hasConjunction = true ↔ s.expansions ≠ none)

/-- A single-statement parse is a leaf. -/
theorem parseSingle_leaf (lex : Lexicon) (t : Phrase) :
    (parseSingle lex t).expansions = none ∧ (parseSingle lex t).hasConjunction = false :=
  ⟨rfl, rfl⟩

theorem depthOne_parseSingle (lex : Lexicon) (t : Phrase) :
    depthOne (parseSingle lex t) := by
  refine ⟨fun l hl => ?_, ?_⟩
  · rw [(parseSingle_leaf lex t).1] at hl; cases hl
  · rw [(parseSingle_leaf lex t).1, (parseSingle_leaf lex t).2]
    simp

/-- A map image of single-statement parses holds only leaves. -/
theorem leaves_of_map (lex : Lexicon) (ps : List Phrase) (e : ParsedStatement)
    (he : e ∈ ps.map (parseSingle lex)) :
    e.expansions = none ∧ e.hasConjunction = false := by
  rw [List.mem_map] at he
  obtain ⟨q, _, hq⟩ := he
  subst hq
  exact parseSingle_leaf lex q

/-- Flat-mapping nonempty lists is at least as long as the index list. -/
theorem length_le_flatMap (l : List α) (f : α → List β)
    (h : ∀ x, 1 ≤ (f x).length) : l.length ≤ (l.flatMap f).length := by
  induction l with
  | nil => simp
  | cons x xs ih =>
    rw [List.flatMap_cons, List.length_append, List.length_cons]
    have := h x
    omega

theorem depthOne_parseStage4 (lex : Lexicon) (t : Phrase) :
    depthOne (parseStage4 lex t) := by
  rw [parseStage4]
  split
  · dsimp only
    by_cases hlen : 1 < (expandRawText lex t).length
    · rw [if_pos hlen]
      cases hps : parseSingle lex t with
      | mk o su pr ob pp co mo cf uw ex hc =>
        rw [ParsedStatement.withExpansions]
        refine ⟨fun l hl => ?_, ?_⟩
        · dsimp only [ParsedStatement.expansions] at hl
          obtain rfl : (expandRawText lex t).map (parseSingle lex) = l :=
            Option.some.inj hl
          constructor
          · rw [List.length_map]; omega
          · exact fun x hx => leaves_of_map lex (expandRawText lex t) x hx
        · dsimp only [ParsedStatement.expansions, ParsedStatement.hasConjunction]
          simp
    · rw [if_neg hlen]
      exact depthOne_parseSingle lex t
  · exact depthOne_parseSingle lex t

theorem depthOne_parseStage3 (lex : Lexicon) (t : Phrase) :
    depthOne (parseStage3 lex t) := by
  rcases t with _ | ⟨v1, _ | ⟨c, _ | ⟨v2, _ | ⟨o, os⟩⟩⟩⟩
  · exact depthOne_parseStage4 lex _
  · exact depthOne_parseStage4 lex _
  · exact depthOne_parseStage4 lex _
  · exact depthOne_parseStage4 lex _
  · rw [parseStage3]
    split
    · dsimp only
      refine ⟨fun l hl => ?_, ?_⟩
      · dsimp only [ParsedStatement.expansions] at hl
        obtain rfl := Option.some.inj hl
        have hne : (if hasConjB (o :: os) || hasComma (o :: os) || hasSlash (o :: os)
            then expandRawText lex (v1 :: o :: os) else [v1 :: o :: os]) ≠ [] := by
          split
          · exact expandRawText_ne_nil lex (sumLen (v1 :: o :: os)) _ le_rfl
          · simp
        constructor
        · rw [List.length_append, List.length_map, List.length_map, List.length_map]
          cases hc : (if hasConjB (o :: os) || hasComma (o :: os) || hasSlash (o :: os)
              then expandRawText lex (v1 :: o :: os) else [v1 :: o :: os]) with
          | nil => exact absurd hc hne
          | cons a rest => simp only [List.length_cons]; omega
        · intro e he
          rw [List.mem_append] at he
          rcases he with he | he
          · exact leaves_of_map lex _ e he
          · rw [List.map_map] at he
            rw [List.mem_map] at he
            obtain ⟨q, _, hq⟩ := he
            subst hq
            exact parseSingle_leaf lex _
      · dsimp only [ParsedStatement.expansions, ParsedStatement.hasConjunction]
        simp
    · exact depthOne_parseStage4 lex _

theorem depthOne_parseStage2 (lex : Lexicon) (t : Phrase) :
    depthOne (parseStage2 lex t) := by
  rw [parseStage2]
  cases hov : oxfordVerbMatch t with
  | none => exact depthOne_parseStage3 lex t
  | some r =>
    obtain ⟨verbs, c, lv, rest⟩ := r
    dsimp only
    split
    · rename_i hguard
      refine ⟨fun l hl => ?_, ?_⟩
      · dsimp only [ParsedStatement.expansions] at hl
        obtain rfl := Option.some.inj hl
        constructor
        · have h3 : 3 ≤ verbs.length := by
            rw [Bool.and_eq_true, Bool.and_eq_true] at hguard
            exact of_decide_eq_true hguard.2
          refine le_trans (by omega) (length_le_flatMap verbs _ (fun vb => ?_))
          split
          · split
            · rename_i hs
              rw [List.length_map]; omega
            · simp
          · simp
        · intro e he
          rw [List.mem_flatMap] at he
          obtain ⟨vb, _, he⟩ := he
          rcases he' : (hasSuchAs rest || hasConjB rest || hasComma rest) with _ | _
          · rw [he'] at he
            simp only [Bool.false_eq_true, if_false, List.mem_singleton] at he
            subst he
            exact parseSingle_leaf lex _
          · rw [he'] at he
            simp only [if_true] at he
            split at he
            · exact leaves_of_map lex _ e he
            · rw [List.mem_singleton] at he
              subst he
              exact parseSingle_leaf lex _
      · dsimp only [ParsedStatement.expansions, ParsedStatement.hasConjunction]
        simp
    · exact depthOne_parseStage3 lex t

/-- C10: every tree the statement parser returns is at most one level
deep — expansions, when present, hold at least two leaves, and the
conjunction flag is set exactly when expansions are present. -/
theorem claim_C10 (lex : Lexicon) (t : Phrase) : depthOne (parse lex t) := by
  cases t with
  | nil => exact depthOne_parseStage2 lex []
  | cons t0 rest =>
    rw [parse]
    cases hs : tokSlashSplit t0 with
    | none => exact depthOne_parseStage2 lex (t0 :: rest)
    | some pr =>
      obtain ⟨v1, v2⟩ := pr
      dsimp only
      split
      · refine ⟨fun l hl => ?_, ?_⟩
        · dsimp only [ParsedStatement.expansions] at hl
          obtain rfl := Option.some.inj hl
          refine ⟨by simp, ?_⟩
          intro e he
          rcases List.mem_cons.mp he with he | he
          · subst he; exact parseSingle_leaf lex _
          · rw [List.mem_singleton] at he
            subst he; exact parseSingle_leaf lex _
        · dsimp only [ParsedStatement.expansions, ParsedStatement.hasConjunction]
          simp
      · exact depthOne_parseStage2 lex (t0 :: rest)

theorem claim_C10_witness :
    ¬ (parse lexPF ["prepare/file", "reports"]).expansions = none :=
  (claim_C10 lexPF ["prepare/file", "reports"]).2.mp (by decide)

/-! ## Claim C6: termination of the expanders -/

/-- C6: the expansion recursion is stable at any counter above the phrase
measure — computing with more fuel never changes the result, so the
recursion depth is bounded by the measure and every expansion
terminates. -/
theorem claim_C6 (lex : Lexicon) (p : Phrase) (f : Nat) (hf : sumLen p < f) :
    expandPhraseF lex f p = expandPhrase lex p ∧
    expandRawTextF lex f p = expandRawText lex p :=
  ⟨expandPhraseF_irrel lex (sumLen p) f (sumLen p + 1) p le_rfl hf (Nat.lt_succ_self _),
   expandRawTextF_irrel lex (sumLen p) f (sumLen p + 1) p le_rfl hf (Nat.lt_succ_self _)⟩

theorem claim_C6_witness :
    sumLen ["a", "and", "b"] < 12 ∧
    (expandPhraseF lex0 12 ["a", "and", "b"] = expandPhrase lex0 ["a", "and", "b"] ∧
     expandRawTextF lex0 12 ["a", "and", "b"] = expandRawText lex0 ["a", "and", "b"]) :=
  ⟨by decide, claim_C6 lex0 ["a", "and", "b"] 12 (by decide)⟩

/-! ## Claim C9: the contextual tagging passes -/

theorem tagPass2_get? (l : List Tok) (i : Nat) (cur next : Tok)
    (hc : l.get? i = some cur) (hn : l.get? (i + 1) = some next) :
    (tagPass2 l).get? i = some (retagByNext cur next) := by
  induction l generalizing i with
  | nil => simp at hc
  | cons t1 rest ih =>
    cases rest with
    | nil =>
      cases i with
      | zero => simp at hn
      | succ j => simp at hn
    | cons t2 rest2 =>
      rw [tagPass2]
      cases i with
      | zero =>
        simp only [List.get?_cons_zero] at hc
        simp only [List.get?_cons_succ, List.get?_cons_zero] at hn
        obtain rfl := Option.some.inj hc
        obtain rfl := Option.some.inj hn
        rfl
      | succ j =>
        simp only [List.get?_cons_succ] at hc hn
        simpa using ih j hc hn

theorem tagPass2_getLast? (l : List Tok) (last : Tok)
    (h : l.getLast? = some last) : (tagPass2 l).getLast? = some last := by
  induction l with
  | nil => simp at h
  | cons t1 rest ih =>
    cases rest with
    | nil => rw [tagPass2]; exact h
    | cons t2 rest2 =>
      rw [tagPass2]
      rw [List.getLast?_cons_cons] at h
      have hr := ih h
      rw [List.getLast?_cons]
      cases hne : tagPass2 (t2 :: rest2) with
      | nil => rw [hne] at hr; simp at hr
      | cons a b =>
        rw [hne] at hr
        simp [hr]

theorem tagPass3_get? (l : List Tok) (i : Nat) (hi : i + 1 < l.length) :
    (tagPass3 l).get? i = l.get? i := by
  induction l generalizing i with
  | nil => simp at hi
  | cons t1 rest ih =>
    cases rest with
    | nil => simp at hi
    | cons t2 rest2 =>
      rw [tagPass3]
      cases i with
      | zero => rfl
      | succ j =>
        simp only [List.get?_cons_succ]
        exact ih j (by simpa using hi)

theorem tagPass3_getLast? (l : List Tok) (last : Tok)
    (h : l.getLast? = some last) :
    (tagPass3 l).getLast? = some (retagLast last) := by
  induction l with
  | nil => simp at h
  | cons t1 rest ih =>
    cases rest with
    | nil =>
      simp only [List.getLast?_singleton] at h
      obtain rfl := Option.some.inj h
      rfl
    | cons t2 rest2 =>
      rw [tagPass3]
      rw [List.getLast?_cons_cons] at h
      have hr := ih h
      rw [List.getLast?_cons]
      cases hne : tagPass3 (t2 :: rest2) with
      | nil => rw [hne] at hr; simp at hr
      | cons a b =>
        rw [hne] at hr
        simp [hr]

/-- C9: in the tagger, every token that has a successor is, in the output,
the neighbour-rule image of its own first-pass tag against the successor's
first-pass tag (a Verb in `ing` becomes a Noun before a Noun, an
Unknown, a non-`ing` Verb or a capitalized token), and the final token is
the trailing-rule image (a final Verb in `ing` becomes a Noun
unconditionally) of the neighbour pass's output — the neighbour pass runs
over the whole sequence before the trailing rule. -/
theorem claim_C9 (lex : Lexicon) (toks : List Tok) :
    (∀ i cur next,
      (toks.map (firstPassTag lex)).get? i = some cur →
      (toks.map (firstPassTag lex)).get? (i + 1) = some next →
      (tag lex toks).get? i = some (retagByNext cur next)) ∧
    (∀ last, (toks.map (firstPassTag lex)).getLast? = some last →
      (tag lex toks).getLast? = some (retagLast last)) := by
  constructor
  · intro i cur next hc hn
    rw [tag]
    have h2 := tagPass2_get? (toks.map (firstPassTag lex)) i cur next hc hn
    have hlen : i + 1 < (tagPass2 (toks.map (firstPassTag lex))).length := by
      have : i + 1 < (toks.map (firstPassTag lex)).length := List.get?_eq_some.mp hn |>.1
      have hl : (tagPass2 (toks.map (firstPassTag lex))).length =
          (toks.map (firstPassTag lex)).length := by
        generalize toks.map (firstPassTag lex) = l
        induction l with
        | nil => rfl
        | cons a b ihb =>
          cases b with
          | nil => rfl
          | cons c d => rw [tagPass2]; simpa using ihb
      omega
    rw [tagPass3_get? _ i hlen]
    exact h2
  · intro last hl
    rw [tag]
    exact tagPass3_getLast? _ last (tagPass2_getLast? _ last hl)

theorem claim_C9_witness :
    (tag ⟨["building"], []⟩
        [⟨"building", "building", .untagged, 0⟩, ⟨"Design", "design", .untagged, 1⟩]).get? 0 =
      some (retagByNext ⟨"building", "building", .VERB, 0⟩ ⟨"Design", "design", .NOUN, 1⟩) ∧
    (tag ⟨["building"], []⟩
        [⟨"building", "building", .untagged, 0⟩, ⟨"Design", "design", .untagged, 1⟩]).getLast? =
      some (retagLast ⟨"Design", "design", .NOUN, 1⟩) :=
  ⟨(claim_C9 ⟨["building"], []⟩
      [⟨"building", "building", .untagged, 0⟩, ⟨"Design", "design", .untagged, 1⟩]).1
      0 ⟨"building", "building", .VERB, 0⟩ ⟨"Design", "design", .NOUN, 1⟩
      (by decide) (by decide),
   (claim_C9 ⟨["building"], []⟩
      [⟨"building", "building", .untagged, 0⟩, ⟨"Design", "design", .untagged, 1⟩]).2
      ⟨"Design", "design", .NOUN, 1⟩ (by decide)⟩

/-! ## Claim C1: the verb–object–complement cartesian product -/

/-- A token of `\w` characters contains no slash, so the slash-verb matcher
rejects it. -/
theorem charSplit_eq_self (sep : Char) (l : List Char)
    (h : ∀ c ∈ l, c ≠ sep) : charSplit sep l = [l] := by
  induction l with
  | nil => rfl
  | cons c cs ih =>
    rw [charSplit]
    rw [if_neg (h c (List.mem_cons_self c cs))]
    rw [ih (fun x hx => h x (List.mem_cons_of_mem c hx))]

theorem tokSlashSplit_none_of_wordish (w : String) (h : wordish w = true) :
    tokSlashSplit w = none := by
  rw [wordish, Bool.and_eq_true] at h
  rw [tokSlashSplit, charSplit_eq_self]
  intro c hc he
  have := List.all_eq_true.mp h.2 c hc
  subst he
  simp [wordChar] at this

/-- A word-character token can never open a comma verb list. -/
theorem commaVerbPieces_head (w : String) (hw : wordish w = true) (b : Bool) :
    commaVerbPieces w b = if b then none else some [w] := by
  obtain ⟨d⟩ := w
  rw [wordish, Bool.and_eq_true] at hw
  have hne : d ≠ [] := by
    intro he
    subst he
    exact of_decide_eq_true hw.1 rfl
  cases d with
  | nil => exact absurd rfl hne
  | cons a as =>
    have hcs : charSplit ',' (String.mk (a :: as)).data = [a :: as] := by
      refine charSplit_eq_self ',' _ (fun c hc he => ?_)
      have := List.all_eq_true.mp hw.2 c hc
      subst he
      simp [wordChar] at this
    rw [commaVerbPieces, hcs]
    cases b with
    | true => rfl
    | false =>
      simp only [if_false, List.getLast?_singleton]
      simp [hw.2]

theorem checkCommaVerbList_none (w : String) (rest : Phrase)
    (hw : wordish w = true) : checkCommaVerbList (w :: rest) = none := by
  cases rest with
  | nil =>
    rw [checkCommaVerbList, commaVerbPieces_head w hw false]
    rfl
  | cons x xs =>
    rw [checkCommaVerbList, commaVerbPieces_head w hw true]
    rfl

/-- No Oxford-comma verb list starts at a plain `\w+` token. -/
theorem oxfordVerbMatch_none (v : String) (rest : Phrase) (hv : wordish v = true) :
    oxfordVerbMatch (v :: rest) = none := by
  rw [oxfordVerbMatch]
  refine List.findSome?_eq_none_iff.mpr (fun k _ => ?_)
  cases hd : (v :: rest).drop k with
  | nil => rfl
  | cons c tl =>
    cases tl with
    | nil => rfl
    | cons lv r2 =>
      dsimp only
      split
      · cases hk : k with
        | zero => rw [List.take_zero, checkCommaVerbList]
        | succ j =>
          rw [List.take_succ_cons, checkCommaVerbList_none v _ hv]
      · rfl

/-- Length of a two-level cartesian product built by `flatMap`/`map`. -/
theorem length_flatMap_map (l : List α) (m : List β) (g : α → β → γ) :
    (l.flatMap (fun o => m.map (g o))).length = l.length * m.length := by
  induction l with
  | nil => simp
  | cons x xs ih => simp [List.flatMap_cons, ih, Nat.succ_mul, Nat.add_comm]

/-- Replacing the head verb in a phrase that starts with it. -/
theorem replaceHeadVerb_cons (v1 v2 : String) (tail : Phrase) :
    replaceHeadVerb v1 v2 (v1 :: tail) = capitalizeW v2 :: tail := by
  rw [replaceHeadVerb, if_pos rfl]

/-- C1: on `Verb1 (and|or) Verb2 <rest>` with both verbs in the lexicon and
an expandable rest that splits as object–preposition–complement, the parse
tree's children are exactly the cartesian product of the two verb choices,
the object variations and the complement variations, one statement per
combination, as one flat ordered list; the leaf count is the product of
the three choice counts, and the running example yields exactly four
leaves. -/
theorem claim_C1 (lex : Lexicon) (v1 c v2 prepT : String) (object obj comp : Phrase)
    (hword1 : wordish v1 = true) (hc : conjTok c = true) (hword2 : wordish v2 = true)
    (hv1 : lex.verbs.contains (lowerStr v1) = true)
    (hv2 : lex.verbs.contains (lowerStr v2) = true)
    (hneed : (hasConjB object || hasComma object || hasSlash object) = true)
    (hsplit : splitTok1 rawPrepTok object = some (obj, prepT, comp)) :
    (parse lex (v1 :: c :: v2 :: object)).expansions =
      some (([v1, capitalizeW v2].flatMap (fun vh =>
        (if needsExpansion obj then expandPhrase lex obj else [obj]).flatMap (fun ob =>
          (if needsExpansion comp then expandPhrase lex comp else [comp]).map
            (fun cc => vh :: ob ++ prepT :: cc)))).map (parseSingle lex)) ∧
    ((parse lex (v1 :: c :: v2 :: object)).expansions.getD []).length =
      2 * (if needsExpansion obj then expandPhrase lex obj else [obj]).length *
        (if needsExpansion comp then expandPhrase lex comp else [comp]).length ∧
    ((parse lexPF ["Prepare", "or", "file", "reports", "on",
        "findings", "or", "recommendations"]).expansions.getD []).length = 4 := by
  obtain ⟨hobj_eq, hobj_ne, hcomp_ne, hprep⟩ :=
    splitTok1_sound rawPrepTok object obj prepT comp hsplit
  obtain ⟨o, os, rfl⟩ : ∃ o os, object = o :: os := by
    cases object with
    | nil =>
      exfalso
      cases obj with
      | nil => exact hobj_ne rfl
      | cons a b => simp at hobj_eq
    | cons o os => exact ⟨o, os, rfl⟩
  have her : expandRawText lex (v1 :: o :: os) =
      (if needsExpansion obj then expandPhrase lex obj else [obj]).flatMap (fun ob =>
        (if needsExpansion comp then expandPhrase lex comp else [comp]).map
          (fun cc => v1 :: ob ++ prepT :: cc)) := by
    rw [expandRawText_eq, erBody]
    rw [if_neg (by simp [hword1])]
    rw [hsplit]
    dsimp only
    rw [if_pos hv1]
  have hparse : parse lex (v1 :: c :: v2 :: o :: os) =
      parseStage3 lex (v1 :: c :: v2 :: o :: os) := by
    rw [parse, tokSlashSplit_none_of_wordish v1 hword1]
    rw [parseStage2, oxfordVerbMatch_none v1 _ hword1]
  have hmain : (parse lex (v1 :: c :: v2 :: o :: os)).expansions =
      some (([v1, capitalizeW v2].flatMap (fun vh =>
        (if needsExpansion obj then expandPhrase lex obj else [obj]).flatMap (fun ob =>
          (if needsExpansion comp then expandPhrase lex comp else [comp]).map
            (fun cc => vh :: ob ++ prepT :: cc)))).map (parseSingle lex)) := by
    rw [hparse, parseStage3]
    rw [if_pos (by
      simp [hword1, hc, hword2]
      exact ⟨by simpa using hv1, by simpa using hv2⟩)]
    dsimp only [ParsedStatement.expansions]
    rw [if_pos hneed, her]
    have hmap : ((if needsExpansion obj then expandPhrase lex obj else [obj]).flatMap
          (fun ob => (if needsExpansion comp then expandPhrase lex comp else [comp]).map
            (fun cc => v1 :: ob ++ prepT :: cc))).map (replaceHeadVerb v1 v2) =
        (if needsExpansion obj then expandPhrase lex obj else [obj]).flatMap
          (fun ob => (if needsExpansion comp then expandPhrase lex comp else [comp]).map
            (fun cc => capitalizeW v2 :: ob ++ prepT :: cc)) := by
      rw [List.map_flatMap]
      refine congrArg _ (funext fun ob => ?_)
      rw [List.map_map]
      refine List.map_congr_left (fun cc _ => ?_)
      simp only [Function.comp]
      exact replaceHeadVerb_cons v1 v2 _
    rw [hmap]
    simp only [List.flatMap_cons, List.flatMap_nil, List.append_nil, List.map_append]
  refine ⟨hmain, ?_, by decide⟩
  rw [hmain]
  simp only [Option.getD_some, List.length_map, List.flatMap_cons, List.flatMap_nil,
    List.append_nil, List.length_append]
  rw [length_flatMap_map, length_flatMap_map]
  ring

theorem claim_C1_witness :
    ((parse lexPF ["Prepare", "or", "file", "reports", "on",
        "findings", "or", "recommendations"]).expansions.getD []).length =
      2 * (if needsExpansion ["reports"] then expandPhrase lexPF ["reports"]
          else [["reports"]]).length *
        (if needsExpansion ["findings", "or", "recommendations"]
          then expandPhrase lexPF ["findings", "or", "recommendations"]
          else [["findings", "or", "recommendations"]]).length :=
  (claim_C1 lexPF "Prepare" "or" "file" "on"
    ["reports", "on", "findings", "or", "recommendations"]
    ["reports"] ["findings", "or", "recommendations"]
    (by decide) (by decide) (by decide) (by decide) (by decide) (by decide)
    (by decide)).2.1

/-! ## Claim C8: no raw comma outside brackets -/

/-- A character that is neither a bracket nor a comma. -/
def flatChar (c : Char) : Bool := !(c = '[' || c = ']' || c = ',')

/-- A bracket- and comma-free character list. -/
def flatL (l : List Char) : Bool := l.all flatChar

/-- A bracket- and comma-free string. -/
def flatStr (s : String) : Bool := flatL s.data

/-- A serializer-safe slot word: bracket- and comma-free, or the bare comma
token the tokenizer emits (which `toPascalCase` strips). -/
def safeTokW (w : String) : Bool := flatStr w || w = ","

/-- Serializer-safety of a statement: every word feeding a phrase slot of
the serializer is bracket- and comma-free or the bare comma token (the
tokenizer emits letter runs and single punctuation characters, never
brackets, and keeps commas as standalone tokens, which the serializer
strips), the predicate and preposition slots are bracket- and comma-free,
recursively through the expansions. -/
inductive SafePS : ParsedStatement → Prop where
  | mk : ∀ (o : Phrase) (su : Option Phrase) (pr : Option String)
      (ob : Option Phrase) (pp : Option String) (co : Option Phrase)
      (mo : List String) (cf : Int) (uw : List String)
      (ex : Option (List ParsedStatement)) (hc : Bool),
      (∀ s, su = some s → ∀ w ∈ s, safeTokW w = true) →
      (∀ p, pr = some p → flatStr p = true) →
      (∀ o2, ob = some o2 → ∀ w ∈ o2, safeTokW w = true) →
      (∀ p, pp = some p → flatStr p = true) →
      (∀ c, co = some c → ∀ w ∈ c, safeTokW w = true) →
      (∀ l, ex = some l → ∀ e ∈ l, SafePS e) →
      SafePS (.mk o su pr ob pp co mo cf uw ex hc)

/-- Bracket-depth scanner flagging a comma at depth zero. -/
def commaScan : Nat → List Char → Bool
  | _, [] => false
  | d, c :: cs =>
    if c = '[' then commaScan (d + 1) cs
    else if c = ']' then commaScan (d - 1) cs
    else if c = ',' && d = 0 then true
    else commaScan d cs

/-- Bracket depth after scanning a character list. -/
def depthAfter : Nat → List Char → Nat
  | d, [] => d
  | d, c :: cs => depthAfter (if c = '[' then d + 1 else if c = ']' then d - 1 else d) cs

theorem commaScan_append (d : Nat) (xs ys : List Char) :
    commaScan d (xs ++ ys) = (commaScan d xs || commaScan (depthAfter d xs) ys) := by
  induction xs generalizing d with
  | nil => rw [List.nil_append, commaScan, depthAfter]; rfl
  | cons c cs ih =>
    rw [List.cons_append, commaScan, commaScan, depthAfter]
    by_cases h1 : c = '['
    · rw [if_pos h1, if_pos h1, ih, if_pos h1]
    · rw [if_neg h1, if_neg h1, if_neg h1]
      by_cases h2 : c = ']'
      · rw [if_pos h2, if_pos h2, ih, if_pos h2]
      · rw [if_neg h2, if_neg h2, if_neg h2]
        by_cases h3 : (c = ',' && d = 0) = true
        · rw [if_pos h3, if_pos h3]; rfl
        · rw [if_neg h3, if_neg h3, ih]

theorem flatL_commaScan (xs : List Char) (h : flatL xs = true) (d : Nat) :
    commaScan d xs = false := by
  induction xs generalizing d with
  | nil => rfl
  | cons c cs ih =>
    rw [flatL, List.all_cons, Bool.and_eq_true] at h
    rw [flatChar] at h
    have h1 : ¬ c = '[' := by intro he; simp [he] at h
    have h2 : ¬ c = ']' := by intro he; simp [he] at h
    have h3 : ¬ c = ',' := by intro he; simp [he] at h
    rw [commaScan, if_neg h1, if_neg h2, if_neg (by simp [h3])]
    exact ih h.2 d

theorem flatL_depthAfter (xs : List Char) (h : flatL xs = true) (d : Nat) :
    depthAfter d xs = d := by
  induction xs generalizing d with
  | nil => rfl
  | cons c cs ih =>
    rw [flatL, List.all_cons, Bool.and_eq_true] at h
    rw [flatChar] at h
    have h1 : ¬ c = '[' := by intro he; simp [he] at h
    have h2 : ¬ c = ']' := by intro he; simp [he] at h
    rw [depthAfter, if_neg h1, if_neg h2]
    exact ih h.2 d

theorem toNat_ofNat_valid (n : Nat) (h : n.isValidChar) : (Char.ofNat n).toNat = n := by
  rw [Char.ofNat, dif_pos h]
  rfl

theorem flatChar_toLower (c : Char) (h : flatChar c = true) :
    flatChar (Char.toLower c) = true := by
  rw [flatChar, Bool.not_eq_true', Bool.or_eq_false_iff, Bool.or_eq_false_iff] at h ⊢
  obtain ⟨⟨h1, h2⟩, h3⟩ := h
  rw [decide_eq_false_iff_not] at h1 h2 h3
  unfold Char.toLower
  dsimp only
  by_cases hc : c.toNat ≥ 65 ∧ c.toNat ≤ 90
  · rw [if_pos hc]
    have hv : (c.toNat + 32).isValidChar := by
      constructor
      omega
    have htn : (Char.ofNat (c.toNat + 32)).toNat = c.toNat + 32 := toNat_ofNat_valid _ hv
    refine ⟨⟨?_, ?_⟩, ?_⟩ <;> rw [decide_eq_false_iff_not] <;> intro he <;>
    · have h5 := congrArg Char.toNat he
      rw [htn] at h5
      have h6 : c.toNat + 32 = 91 ∨ c.toNat + 32 = 93 ∨ c.toNat + 32 = 44 := by
        rw [h5]
        first
          | exact Or.inl rfl
          | exact Or.inr (Or.inl rfl)
          | exact Or.inr (Or.inr rfl)
      omega
  · rw [if_neg hc]
    refine ⟨⟨?_, ?_⟩, ?_⟩ <;> rw [decide_eq_false_iff_not] <;> assumption

theorem flatChar_toUpper (c : Char) (h : flatChar c = true) :
    flatChar (Char.toUpper c) = true := by
  rw [flatChar, Bool.not_eq_true', Bool.or_eq_false_iff, Bool.or_eq_false_iff] at h ⊢
  obtain ⟨⟨h1, h2⟩, h3⟩ := h
  rw [decide_eq_false_iff_not] at h1 h2 h3
  unfold Char.toUpper
  dsimp only
  by_cases hc : c.toNat ≥ 97 ∧ c.toNat ≤ 122
  · rw [if_pos hc]
    have hv : (c.toNat - 32).isValidChar := by
      constructor
      omega
    have htn : (Char.ofNat (c.toNat - 32)).toNat = c.toNat - 32 := toNat_ofNat_valid _ hv
    refine ⟨⟨?_, ?_⟩, ?_⟩ <;> rw [decide_eq_false_iff_not] <;> intro he <;>
    · have h5 := congrArg Char.toNat he
      rw [htn] at h5
      have h6 : c.toNat - 32 = 91 ∨ c.toNat - 32 = 93 ∨ c.toNat - 32 = 44 := by
        rw [h5]
        first
          | exact Or.inl rfl
          | exact Or.inr (Or.inl rfl)
          | exact Or.inr (Or.inr rfl)
      omega
  · rw [if_neg hc]
    refine ⟨⟨?_, ?_⟩, ?_⟩ <;> rw [decide_eq_false_iff_not] <;> assumption

theorem flatL_of_subset (xs ys : List Char) (hsub : ∀ c ∈ xs, c ∈ ys)
    (h : flatL ys = true) : flatL xs = true := by
  rw [flatL, List.all_eq_true] at h ⊢
  exact fun c hc => h c (hsub c hc)

theorem flat_lowerStr (w : String) (h : flatStr w = true) :
    flatStr (lowerStr w) = true := by
  rw [flatStr, lowerStr]
  rw [flatStr] at h
  rw [flatL, List.all_eq_true] at h ⊢
  intro c hc
  rw [List.mem_map] at hc
  obtain ⟨a, ha, rfl⟩ := hc
  exact flatChar_toLower a (h a ha)

theorem flat_append (a b : String) (ha : flatStr a = true) (hb : flatStr b = true) :
    flatStr (a ++ b) = true := by
  rw [flatStr, String.data_append, flatL, List.all_append]
  rw [flatStr, flatL] at ha hb
  rw [ha, hb]
  rfl

theorem flat_pascalPart (p : List Char) (h : flatL p = true) :
    flatL (pascalPart p) = true := by
  cases p with
  | nil => rfl
  | cons c cs =>
    rw [pascalPart, flatL, List.all_cons, Bool.and_eq_true]
    rw [flatL, List.all_cons, Bool.and_eq_true] at h
    refine ⟨flatChar_toUpper c h.1, ?_⟩
    rw [List.all_eq_true]
    intro x hx
    rw [List.mem_map] at hx
    obtain ⟨a, ha, rfl⟩ := hx
    exact flatChar_toLower a (List.all_eq_true.mp h.2 a ha)

theorem flat_pascalWord (w : String) (h : flatStr w = true) :
    flatStr (pascalWord w) = true := by
  rw [pascalWord, flatStr, flatL, List.all_eq_true]
  intro c hc
  simp only [List.mem_flatten, List.mem_map] at hc
  obtain ⟨piece, ⟨q, hq, rfl⟩, hcp⟩ := hc
  have hq' : flatL q = true :=
    flatL_of_subset q w.data (fun x hx => charSplit_chars '-' w.data q hq x hx) h
  exact List.all_eq_true.mp (flat_pascalPart q hq') c hcp

theorem flat_stripPunctW (w : String) (h : flatStr w = true) :
    flatStr (stripPunctW w) = true := by
  rw [stripPunctW, flatStr]
  exact flatL_of_subset _ w.data (fun c hc => List.mem_of_mem_filter hc) h

theorem flat_concatStrs (l : List String) (h : ∀ s ∈ l, flatStr s = true) :
    flatStr (concatStrs l) = true := by
  induction l with
  | nil => rfl
  | cons s ss ih =>
    rw [concatStrs]
    exact flat_append s _ (h s (List.mem_cons_self s ss))
      (ih (fun x hx => h x (List.mem_cons_of_mem s hx)))

/-- Word characters are neither brackets nor the comma. -/
theorem wordChar_flatChar (c : Char) (h : wordChar c = true) : flatChar c = true := by
  rw [flatChar, Bool.not_eq_true', Bool.or_eq_false_iff, Bool.or_eq_false_iff]
  refine ⟨⟨?_, ?_⟩, ?_⟩ <;>
    · rw [decide_eq_false_iff_not]
      intro he
      subst he
      exact absurd h (by decide)

/-- A `(\w+)`-shaped word is bracket- and comma-free. -/
theorem wordish_flat (w : String) (h : wordish w = true) : flatStr w = true := by
  rw [wordish, Bool.and_eq_true] at h
  rw [flatStr, flatL, List.all_eq_true]
  intro c hc
  exact wordChar_flatChar c (List.all_eq_true.mp h.2 c hc)

/-- Membership in a list of flat strings gives flatness. -/
theorem flat_of_contains (s : String) (l : List String)
    (hall : ∀ x ∈ l, flatStr x = true) (h : l.contains s = true) :
    flatStr s = true :=
  hall s (by simpa using h)

/-- The serializer prepositions are flat. -/
theorem serPrep_flat (w : String) (h : serPrepTok w = true) :
    flatStr (lowerStr w) = true := by
  rw [serPrepTok] at h
  exact flat_of_contains _ _ (by decide) h

/-- The internal linking verbs are flat. -/
theorem internalLinkVerbs_flat (w : String)
    (h : internalLinkVerbs.contains (lowerStr w) = true) :
    flatStr (lowerStr w) = true :=
  flat_of_contains _ _ (by decide) h

/-- The internal linking prepositions are flat. -/
theorem internalLinkPreps_flat (w : String)
    (h : internalLinkPreps.contains (lowerStr w) = true) :
    flatStr (lowerStr w) = true :=
  flat_of_contains _ _ (by decide) h

theorem findIdx_option_go_getD {α : Type} (p : α → Bool) (d : α) :
    ∀ (l : List α) (s i : Nat), List.findIdx? p l s = some i →
      s ≤ i ∧ p (l.getD (i - s) d) = true := by
  intro l
  induction l with
  | nil => intro s i h; rw [List.findIdx?] at h; cases h
  | cons x xs ih =>
    intro s i h
    rw [List.findIdx?] at h
    by_cases hp : p x = true
    · rw [if_pos hp] at h
      injection h with h1
      subst h1
      simpa using hp
    · rw [if_neg hp] at h
      obtain ⟨hs, hpp⟩ := ih (s + 1) i h
      refine ⟨by omega, ?_⟩
      have hd : i - s = (i - (s + 1)) + 1 := by omega
      rw [hd]
      simpa using hpp

/-- `findIdx?` finds a position where the predicate holds. -/
theorem findIdx_option_getD {α : Type} (p : α → Bool) (d : α) (l : List α)
    (i : Nat) (h : l.findIdx? p = some i) : p (l.getD i d) = true := by
  have := (findIdx_option_go_getD p d l 0 i h).2
  simpa using this

/-- The found `to`-infinitive position satisfies the pattern guards. -/
theorem toInfinitiveIdx_sound (co : Phrase) (i : Nat)
    (h : toInfinitiveIdx co = some i) :
    (1 ≤ i && i + 2 < co.length && lowerStr (co.getD i "") = "to" &&
      wordish (co.getD (i + 1) "")) = true := by
  rw [toInfinitiveIdx] at h
  have h2 := List.find?_some h
  exact h2

/-- The found internal-preposition position satisfies the pattern guards. -/
theorem internalPrepIdx_sound (co : Phrase) (i : Nat)
    (h : internalPrepIdx co = some i) :
    (1 ≤ i && i + 2 < co.length &&
      internalLinkVerbs.contains (lowerStr (co.getD i "")) &&
      internalLinkPreps.contains (lowerStr (co.getD (i + 1) ""))) = true := by
  rw [internalPrepIdx] at h
  have h2 := List.find?_some h
  exact h2

theorem flat_toPascalCase (p : Phrase) (h : ∀ w ∈ p, safeTokW w = true) :
    flatStr (toPascalCase p) = true := by
  rw [toPascalCase]
  refine flat_concatStrs _ (fun s hs => ?_)
  rw [List.mem_map] at hs
  obtain ⟨w, hw, rfl⟩ := hs
  have hfil := List.mem_filter.mp hw
  have hne : w ≠ "" := by
    have h2 := hfil.2
    rw [Bool.and_eq_true] at h2
    simpa using h2.1
  have hw2 := hfil.1
  rw [List.mem_map] at hw2
  obtain ⟨w0, hw0, rfl⟩ := hw2
  have hsafe := h w0 hw0
  rw [safeTokW, Bool.or_eq_true] at hsafe
  rcases hsafe with hf | hcm
  · exact flat_pascalWord _ (flat_stripPunctW w0 hf)
  · rw [decide_eq_true_eq] at hcm
    subst hcm
    exact absurd (by decide : stripPunctW "," = "") hne

theorem flat_dotJoin (l : List String) (h : ∀ s ∈ l, flatStr s = true) :
    flatStr (dotJoin l) = true := by
  induction l with
  | nil => rfl
  | cons s ss ih =>
    cases ss with
    | nil => exact h s (List.mem_cons_self s [])
    | cons t ts =>
      rw [dotJoin]
      refine flat_append _ _ (flat_append _ _ (h s (List.mem_cons_self s _)) rfl) ?_
      exact ih (fun x hx => h x (List.mem_cons_of_mem s hx))

/-- Look-up with default stays in the list or is the default. -/
theorem getD_mem_or (l : List α) (i : Nat) (d : α) :
    l.getD i d ∈ l ∨ l.getD i d = d := by
  induction l generalizing i with
  | nil => right; rfl
  | cons x xs ih =>
    cases i with
    | zero => left; exact List.mem_cons_self x xs
    | succ j =>
      rcases ih j with hm | he
      · left; exact List.mem_cons_of_mem x hm
      · right; exact he

theorem flat_empty : flatStr "" = true := rfl

theorem flat_of_mem_filter {p : String → Bool} (l : List String) (w : String)
    (hw : w ∈ l.filter p) (h : ∀ x ∈ l, flatStr x = true) : flatStr w = true :=
  h w (List.mem_of_mem_filter hw)

theorem flat_getD (l : List String) (i : Nat) (h : ∀ x ∈ l, flatStr x = true) :
    flatStr (l.getD i "") = true := by
  rcases getD_mem_or l i "" with hm | he
  · exact h _ hm
  · rw [he]; rfl

theorem flat_serObject (ob : Phrase) (h : ∀ w ∈ ob, safeTokW w = true) :
    flatStr (serObject ob) = true := by
  rw [serObject]
  dsimp only
  have hw : ∀ x ∈ ob.filter (fun w => w ≠ ""), safeTokW x = true :=
    fun x hx => h x (List.mem_of_mem_filter hx)
  rcases hidx : (ob.filter (fun w => w ≠ "")).findIdx? serPrepTok with - | j
  · dsimp only
    rw [if_neg (fun hcon => absurd hcon.1 (by decide))]
    exact flat_toPascalCase ob h
  · dsimp only
    split
    · refine flat_append _ _ (flat_append _ _ (flat_append _ _ (flat_append _ _ ?_ rfl)
        ?_) rfl) ?_
      · exact flat_toPascalCase _ (fun w hwm =>
          hw w (List.mem_of_mem_take (List.mem_of_mem_filter hwm)))
      · have hp := findIdx_option_getD serPrepTok "" _ j hidx
        have hj : ((j : Int)).toNat = j := by simp
        rw [hj]
        exact serPrep_flat _ hp
      · exact flat_toPascalCase _ (fun w hwm =>
          hw w (List.mem_of_mem_drop (List.mem_of_mem_filter hwm)))
    · exact flat_toPascalCase ob h

theorem flat_serComplementTo (lex : Lexicon) (hv : lex.verbs.contains "," = false)
    (co : Phrase) (h : ∀ w ∈ co, safeTokW w = true) (s : String)
    (hs : s ∈ serComplementTo lex co) : flatStr s = true := by
  rw [serComplementTo] at hs
  have hw : ∀ x ∈ co.filter (fun w => w ≠ ""), safeTokW x = true :=
    fun x hx => h x (List.mem_of_mem_filter hx)
  split at hs
  · rename_i w x rest hcw
    dsimp only at hs
    split at hs
    · rename_i hlv
      rw [List.mem_singleton] at hs
      subst hs
      have hsw : safeTokW w = true := hw w (by rw [hcw]; exact List.mem_cons_self _ _)
      rw [safeTokW, Bool.or_eq_true] at hsw
      rcases hsw with hf | hcm
      · refine flat_append _ _ (flat_append _ _ ?_ rfl) ?_
        · exact flat_lowerStr w hf
        · refine flat_toPascalCase _ (fun y hy => ?_)
          exact hw y (by rw [hcw]; exact List.mem_cons_of_mem _ hy)
      · rw [decide_eq_true_eq] at hcm
        subst hcm
        rw [(by decide : lowerStr "," = ","), isLikelyVerb, hv] at hlv
        exact absurd hlv (by decide)
    · rw [List.mem_singleton] at hs
      subst hs
      exact flat_toPascalCase co h
  · rename_i w hcw
    dsimp only at hs
    split at hs
    · rename_i hguard
      rw [List.mem_singleton] at hs
      subst hs
      have hsw : safeTokW w = true := hw w (by rw [hcw]; exact List.mem_cons_self _ _)
      rw [safeTokW, Bool.or_eq_true] at hsw
      rcases hsw with hf | hcm
      · exact flat_lowerStr w hf
      · rw [decide_eq_true_eq] at hcm
        subst hcm
        rw [(by decide : lowerStr "," = ","), hv] at hguard
        exact absurd hguard (by decide)
    · rw [List.mem_singleton] at hs
      subst hs
      exact flat_toPascalCase co h
  · simp at hs

theorem flat_serComplementInner (lex : Lexicon) (co : Phrase)
    (h : ∀ w ∈ co, safeTokW w = true) (s : String)
    (hs : s ∈ serComplementInner lex co) : flatStr s = true := by
  rw [serComplementInner] at hs
  rcases hti : toInfinitiveIdx co with - | i
  · rw [hti] at hs
    dsimp only at hs
    rcases hip : internalPrepIdx co with - | i
    · rw [hip] at hs
      dsimp only at hs
      rcases hidx : (co.filter (fun w => w ≠ "" && !andOrBut w)).findIdx? serPrepTok
        with - | j
      · rw [hidx] at hs
        dsimp only at hs
        rw [if_neg (fun hcon => absurd hcon.1 (by decide))] at hs
        rw [List.mem_singleton] at hs
        subst hs
        exact flat_toPascalCase co h
      · rw [hidx] at hs
        dsimp only at hs
        have hfw : ∀ x ∈ co.filter (fun w => w ≠ "" && !andOrBut w), safeTokW x = true :=
          fun x hx => h x (List.mem_of_mem_filter hx)
        split at hs <;> rw [List.mem_singleton] at hs <;> subst hs
        · refine flat_append _ _ (flat_append _ _ (flat_append _ _ (flat_append _ _ ?_ rfl)
            ?_) rfl) ?_
          · exact flat_toPascalCase _ (fun w hwm => hfw w (List.mem_of_mem_take hwm))
          · have hp := findIdx_option_getD serPrepTok "" _ j hidx
            have hj : ((j : Int)).toNat = j := by simp
            rw [hj]
            exact serPrep_flat _ hp
          · exact flat_toPascalCase _ (fun w hwm => hfw w (List.mem_of_mem_drop hwm))
        · exact flat_toPascalCase co h
    · rw [hip] at hs
      dsimp only at hs
      rw [List.mem_singleton] at hs
      subst hs
      have hsound := internalPrepIdx_sound co i hip
      simp only [Bool.and_eq_true] at hsound
      refine flat_append _ _ (flat_append _ _ (flat_append _ _ (flat_append _ _
        (flat_append _ _ (flat_append _ _ ?_ rfl) ?_) rfl) ?_) rfl) ?_
      · exact flat_toPascalCase _ (fun w hwm => h w (List.mem_of_mem_take hwm))
      · exact internalLinkVerbs_flat _ hsound.1.2
      · exact internalLinkPreps_flat _ hsound.2
      · exact flat_toPascalCase _ (fun w hwm => h w (List.mem_of_mem_drop hwm))
  · rw [hti] at hs
    dsimp only at hs
    split at hs <;> rw [List.mem_singleton] at hs <;> subst hs
    · have hsound := toInfinitiveIdx_sound co i hti
      simp only [Bool.and_eq_true] at hsound
      refine flat_append _ _ (flat_append _ _ (flat_append _ _ (flat_append _ _ ?_ rfl)
        ?_) rfl) ?_
      · exact flat_toPascalCase _ (fun w hwm => h w (List.mem_of_mem_take hwm))
      · exact flat_lowerStr _ (wordish_flat _ hsound.2)
      · exact flat_toPascalCase _ (fun w hwm => h w (List.mem_of_mem_drop hwm))
    · exact flat_toPascalCase co h

theorem flat_serComplementOther (lex : Lexicon) (co : Phrase)
    (h : ∀ w ∈ co, safeTokW w = true) (s : String)
    (hs : s ∈ serComplementOther lex co) : flatStr s = true := by
  rcases co with _ | ⟨t0, _ | ⟨v, _ | ⟨r, rs⟩⟩⟩
  · exact flat_serComplementInner lex _ h s hs
  · exact flat_serComplementInner lex _ h s hs
  · exact flat_serComplementInner lex _ h s hs
  · rw [serComplementOther] at hs
    split at hs
    · rename_i hguard
      rw [Bool.and_eq_true] at hguard
      split at hs <;> rw [List.mem_singleton] at hs <;> subst hs
      · refine flat_append _ _ (flat_append _ _ ?_ rfl) ?_
        · exact flat_lowerStr v (wordish_flat v hguard.2)
        · exact flat_toPascalCase _ (fun w hwm => h w (by simp [List.mem_cons.mp hwm]))
      · exact flat_toPascalCase _ h
    · exact flat_serComplementInner lex _ h s hs

theorem flat_serLeaf (lex : Lexicon) (hv : lex.verbs.contains "," = false)
    (su : Option Phrase) (pr : Option String)
    (ob : Option Phrase) (pp : Option String) (co : Option Phrase)
    (hsu : ∀ s, su = some s → ∀ w ∈ s, safeTokW w = true)
    (hpr : ∀ p, pr = some p → flatStr p = true)
    (hob : ∀ o, ob = some o → ∀ w ∈ o, safeTokW w = true)
    (hpp : ∀ p, pp = some p → flatStr p = true)
    (hco : ∀ c, co = some c → ∀ w ∈ c, safeTokW w = true) :
    flatStr (serLeaf lex su pr ob pp co) = true := by
  rw [serLeaf.eq_def]
  refine flat_dotJoin _ (fun s hs => ?_)
  simp only [List.mem_append] at hs
  rcases hs with ((((hs | hs) | hs) | hs) | hs)
  · cases hsu' : su with
    | none => rw [hsu'] at hs; simp at hs
    | some x =>
      rw [hsu'] at hs
      rw [List.mem_singleton] at hs
      subst hs
      exact flat_toPascalCase x (hsu x hsu')
  · cases hpr' : pr with
    | none => rw [hpr'] at hs; simp at hs
    | some p =>
      rw [hpr'] at hs
      rw [List.mem_singleton] at hs
      subst hs
      exact flat_lowerStr p (hpr p hpr')
  · cases hob' : ob with
    | none => rw [hob'] at hs; simp at hs
    | some o =>
      rw [hob'] at hs
      rw [List.mem_singleton] at hs
      subst hs
      exact flat_serObject o (hob o hob')
  · cases hpp' : pp with
    | none => rw [hpp'] at hs; simp at hs
    | some p =>
      rw [hpp'] at hs
      rw [List.mem_singleton] at hs
      subst hs
      exact hpp _ hpp'
  · cases hco' : co with
    | none => rw [hco'] at hs; simp at hs
    | some x =>
      rw [hco'] at hs
      dsimp only at hs
      split at hs
      · exact flat_serComplementTo lex hv x (hco x hco') s hs
      · exact flat_serComplementOther lex x (hco x hco') s hs

theorem depthAfter_append (d : Nat) (xs ys : List Char) :
    depthAfter d (xs ++ ys) = depthAfter (depthAfter d xs) ys := by
  induction xs generalizing d with
  | nil => rw [List.nil_append, depthAfter]
  | cons c cs ih =>
    rw [List.cons_append, depthAfter, depthAfter, ih]

/-- A safe leaf serialization contains neither brackets nor commas, so the
scanner accepts it at any depth. -/
theorem serLeaf_scan (lex : Lexicon) (hv : lex.verbs.contains "," = false)
    (su : Option Phrase) (pr : Option String)
    (ob : Option Phrase) (pp : Option String) (co : Option Phrase)
    (hsu : ∀ s, su = some s → ∀ w ∈ s, safeTokW w = true)
    (hpr : ∀ p, pr = some p → flatStr p = true)
    (hob : ∀ o, ob = some o → ∀ w ∈ o, safeTokW w = true)
    (hpp : ∀ p, pp = some p → flatStr p = true)
    (hco : ∀ c, co = some c → ∀ w ∈ c, safeTokW w = true) (d : Nat) :
    commaScan d (serLeaf lex su pr ob pp co).data = false ∧
    depthAfter d (serLeaf lex su pr ob pp co).data = d := by
  have hflat : flatStr (serLeaf lex su pr ob pp co) = true :=
    flat_serLeaf lex hv su pr ob pp co hsu hpr hob hpp hco
  exact ⟨flatL_commaScan _ hflat d, flatL_depthAfter _ hflat d⟩

/-- Comma-joining scanner-clean serializations stays clean at positive
depth. -/
theorem toGraphDLList_scan_of (lex : Lexicon) (l : List ParsedStatement)
    (H : ∀ e ∈ l, ∀ d, commaScan d (toGraphDL lex e).data = false ∧
      depthAfter d (toGraphDL lex e).data = d) :
    ∀ d, 1 ≤ d → commaScan d (toGraphDLList lex l).data = false ∧
      depthAfter d (toGraphDLList lex l).data = d := by
  induction l with
  | nil => exact fun d _ => ⟨rfl, rfl⟩
  | cons e es ih =>
    intro d hd
    cases es with
    | nil =>
      rw [toGraphDLList]
      exact H e (List.mem_cons_self e []) d
    | cons t ts =>
      rw [toGraphDLList]
      have h1 := H e (List.mem_cons_self e (t :: ts)) d
      have h2 := ih (fun x hx => H x (List.mem_cons_of_mem e hx)) d hd
      have hdata : (toGraphDL lex e ++ ", " ++ toGraphDLList lex (t :: ts)).data =
          (toGraphDL lex e).data ++ (',' :: ' ' :: (toGraphDLList lex (t :: ts)).data) := by
        rw [String.data_append, String.data_append, List.append_assoc]
        rfl
      rw [hdata]
      have hcm : commaScan d (',' :: ' ' :: (toGraphDLList lex (t :: ts)).data) =
          commaScan d (toGraphDLList lex (t :: ts)).data := by
        rw [commaScan, if_neg (by decide), if_neg (by decide),
          if_neg (by simp; omega), commaScan, if_neg (by decide), if_neg (by decide),
          if_neg (by simp)]
      have hdp : depthAfter d (',' :: ' ' :: (toGraphDLList lex (t :: ts)).data) =
          depthAfter d (toGraphDLList lex (t :: ts)).data := by
        rw [depthAfter, if_neg (by decide), if_neg (by decide),
          depthAfter, if_neg (by decide), if_neg (by decide)]
      constructor
      · rw [commaScan_append, h1.1, h1.2, hcm, h2.1]
        rfl
      · rw [depthAfter_append, h1.2, hdp, h2.2]

/-- Safe statements serialize with no comma at bracket depth zero, and the
serialization is bracket-balanced at every starting depth. -/
theorem toGraphDL_scan (lex : Lexicon) (hv : lex.verbs.contains "," = false)
    (s : ParsedStatement) (hs : SafePS s) :
    ∀ d, commaScan d (toGraphDL lex s).data = false ∧
      depthAfter d (toGraphDL lex s).data = d := by
  induction hs with
  | mk o su pr ob pp co mo cf uw ex hc h1 h2 h3 h4 h5 h6 ih =>
    intro d
    cases hex : ex with
    | none =>
      subst hex
      rw [toGraphDL]
      · exact serLeaf_scan lex hv su pr ob pp co h1 h2 h3 h4 h5 d
      · intro e es h
        cases h
    | some l =>
      subst hex
      cases l with
      | nil =>
        rw [toGraphDL]
        · exact serLeaf_scan lex hv su pr ob pp co h1 h2 h3 h4 h5 d
        · intro e es h
          rw [Option.some.injEq] at h
          cases h
      | cons e es =>
        rw [toGraphDL]
        have hinner := toGraphDLList_scan_of lex (e :: es)
          (fun x hx => ih (e :: es) rfl x hx) (d + 1) (Nat.le_add_left 1 d)
        have hdata : ("[" ++ toGraphDLList lex (e :: es) ++ "]").data =
            '[' :: ((toGraphDLList lex (e :: es)).data ++ [']']) := by
          rw [String.data_append, String.data_append]
          rfl
        rw [hdata]
        constructor
        · rw [commaScan, if_pos rfl, commaScan_append, hinner.1, hinner.2]
          rfl
        · rw [depthAfter, if_pos rfl, depthAfter_append, hinner.2]
          rfl

/-- C8: for safe statements, the serialization carries no comma at bracket
depth zero — commas appear only between bracketed children — and any
statement with a nonempty expansion list is rendered as the bracketed
comma-join of its children's serializations. -/
theorem claim_C8 (lex : Lexicon) (hv : lex.verbs.contains "," = false)
    (s : ParsedStatement) (hs : SafePS s) :
    commaScan 0 (toGraphDL lex s).data = false ∧
    (∀ l, s.expansions = some l → l ≠ [] →
      toGraphDL lex s = "[" ++ toGraphDLList lex l ++ "]") := by
  refine ⟨(toGraphDL_scan lex hv s hs 0).1, ?_⟩
  intro l hl hne
  cases s with
  | mk o su pr ob pp co mo cf uw ex hc =>
    dsimp only [ParsedStatement.expansions] at hl
    subst hl
    cases l with
    | nil => exact absurd rfl hne
    | cons e es => rw [toGraphDL]

/-- Example leaf: `Deliver value`. -/
def leafA : ParsedStatement :=
  .mk ["Deliver", "value"] none (some "Deliver") (some ["value"]) none none [] 10 [] none false

/-- Example leaf: `Create value on reports , budgets` — the complement
keeps a standalone comma token, which the serializer strips. -/
def leafB : ParsedStatement :=
  .mk ["Create", "value"] none (some "Create") (some ["value"]) (some "on")
    (some ["reports", ",", "budgets"]) [] 10 [] none false

/-- Example internal node holding the two leaves. -/
def nodeAB : ParsedStatement :=
  .mk ["Deliver", "and", "create", "value"] none (some "Deliver")
    (some ["and", "create", "value"]) none none [] 10 [] (some [leafA, leafB]) true

theorem claim_C8_witness :
    commaScan 0 (toGraphDL lex0 nodeAB).data = false ∧
    toGraphDL lex0 nodeAB = "[" ++ toGraphDLList lex0 [leafA, leafB] ++ "]" := by
  have safeLeaf : ∀ x ∈ [leafA, leafB], SafePS x := by
    intro x hx
    rcases List.mem_cons.mp hx with h | h
    · subst h
      exact SafePS.mk _ _ _ _ _ _ _ _ _ _ _
        (fun s hx => nomatch hx)
        (fun p hp => by rw [Option.some.injEq] at hp; subst hp; decide)
        (fun o2 ho => by rw [Option.some.injEq] at ho; subst ho; decide)
        (fun p hp => nomatch hp)
        (fun c hc => nomatch hc)
        (fun l hl => nomatch hl)
    · rw [List.mem_singleton] at h
      subst h
      exact SafePS.mk _ _ _ _ _ _ _ _ _ _ _
        (fun s hx => nomatch hx)
        (fun p hp => by rw [Option.some.injEq] at hp; subst hp; decide)
        (fun o2 ho => by rw [Option.some.injEq] at ho; subst ho; decide)
        (fun p hp => by rw [Option.some.injEq] at hp; subst hp; decide)
        (fun c hc => by rw [Option.some.injEq] at hc; subst hc; decide)
        (fun l hl => nomatch hl)
  have hsafe : SafePS nodeAB :=
    SafePS.mk _ _ _ _ _ _ _ _ _ _ _
      (fun s hx => nomatch hx)
      (fun p hp => by rw [Option.some.injEq] at hp; subst hp; decide)
      (fun o2 ho => by rw [Option.some.injEq] at ho; subst ho; decide)
      (fun p hp => nomatch hp)
      (fun c hc => nomatch hc)
      (fun l hl => by rw [Option.some.injEq] at hl; subst hl; exact safeLeaf)
  exact ⟨(claim_C8 lex0 (by decide) nodeAB hsafe).1,
    (claim_C8 lex0 (by decide) nodeAB hsafe).2 [leafA, leafB] rfl (by simp)⟩

/-! ## Claim C7: idempotence of concept normalization -/

/-- Does the pattern occur (case-insensitively, token-aligned) anywhere in
the phrase? -/
def hasOccur (pat : Phrase) : Phrase → Bool
  | [] => false
  | x :: xs => (pat.map lowerStr).isPrefixOf ((x :: xs).map lowerStr) || hasOccur pat xs

/-- Every token matching the single-word key `k` is already the id `r`. -/
def allB (k r : String) (T : Phrase) : Bool :=
  T.all (fun w => lowerStr w ≠ k || w = r)

/-- Key class A: a nonempty key none of whose words matches any concept id
case-insensitively (so replacements can never create or feed an
occurrence). -/
def condA (vals : List String) (kv : String × String) : Bool :=
  !(keyWords kv.1).isEmpty &&
  (keyWords kv.1).all (fun w => vals.all (fun r => lowerStr w ≠ lowerStr r))

/-- Key class B: a single-word lowercase key that is exactly the lowercase
of its id, and no other id shares that lowercase form (so replacing is the
identity on already-normalized text). -/
def condB (keys : List (String × String)) (kv : String × String) : Bool :=
  (keyWords kv.1 = [kv.1]) && (lowerStr kv.1 = kv.1) && (lowerStr kv.2 = kv.1) &&
  keys.all (fun kv2 => lowerStr kv2.2 ≠ kv.1 || kv2.2 = kv.2)

theorem replaceSeqF_id (pat : Phrase) (r : String) :
    ∀ fuel T, hasOccur pat T = false → replaceSeqF pat r fuel T = T := by
  intro fuel
  induction fuel with
  | zero => intro T _; rfl
  | succ n ih =>
    intro T h
    cases T with
    | nil => rfl
    | cons x xs =>
      rw [hasOccur, Bool.or_eq_false_iff] at h
      rw [replaceSeqF, if_neg (by rw [h.1]; exact Bool.false_ne_true), ih xs h.2]

theorem hasOccur_drop (pat : Phrase) :
    ∀ (T : Phrase) (n : Nat), hasOccur pat T = false → hasOccur pat (T.drop n) = false := by
  intro T
  induction T with
  | nil => intro n _; rw [List.drop_nil]; rfl
  | cons x xs ih =>
    intro n h
    cases n with
    | zero => exact h
    | succ m =>
      rw [hasOccur, Bool.or_eq_false_iff] at h
      rw [List.drop_succ_cons]
      exact ih m h.2

/-- A case-insensitive token prefix of a replacement result, none of whose
words matches the replacement id, was already a prefix of the input. -/
theorem replaceSeqF_prefix_reflect (patR : Phrase) (rR : String) :
    ∀ fuel T (pat : Phrase), (∀ w ∈ pat, ¬ lowerStr w = lowerStr rR) →
      (pat.map lowerStr).isPrefixOf ((replaceSeqF patR rR fuel T).map lowerStr) = true →
      (pat.map lowerStr).isPrefixOf (T.map lowerStr) = true := by
  intro fuel
  induction fuel with
  | zero => exact fun T pat _ h => h
  | succ n ih =>
    intro T pat hr h
    cases T with
    | nil => exact h
    | cons x xs =>
      rw [replaceSeqF] at h
      cases pat with
      | nil => rw [List.map_nil, List.isPrefixOf]
      | cons p0 pr =>
        by_cases hm : ((patR.map lowerStr).isPrefixOf ((x :: xs).map lowerStr)) = true
        · rw [if_pos hm] at h
          rw [List.map_cons, List.map_cons, List.isPrefixOf] at h
          rw [Bool.and_eq_true, beq_iff_eq] at h
          exact absurd h.1 (hr p0 (List.mem_cons_self p0 pr))
        · rw [if_neg hm] at h
          rw [List.map_cons, List.map_cons, List.isPrefixOf] at h ⊢
          rw [Bool.and_eq_true] at h ⊢
          exact ⟨h.1, ih xs pr (fun w hw => hr w (List.mem_cons_of_mem p0 hw)) h.2⟩

/-- Replacement never creates an occurrence of a pattern none of whose
words matches the inserted id. -/
theorem hasOccur_replaceSeqF (patR : Phrase) (rR : String) (pat : Phrase)
    (hr : ∀ w ∈ pat, ¬ lowerStr w = lowerStr rR) :
    ∀ fuel T, hasOccur pat T = false →
      hasOccur pat (replaceSeqF patR rR fuel T) = false := by
  cases pat with
  | nil =>
    intro fuel T h
    cases T with
    | nil =>
      cases fuel with
      | zero => exact h
      | succ n => exact h
    | cons x xs => simp [hasOccur, List.isPrefixOf] at h
  | cons p0 pr =>
    intro fuel
    induction fuel with
    | zero => exact fun T h => h
    | succ n ih =>
      intro T h
      cases T with
      | nil => exact h
      | cons x xs =>
        rw [hasOccur, Bool.or_eq_false_iff] at h
        rw [replaceSeqF]
        by_cases hm : ((patR.map lowerStr).isPrefixOf ((x :: xs).map lowerStr)) = true
        · rw [if_pos hm, hasOccur, Bool.or_eq_false_iff]
          constructor
          · rw [List.map_cons, List.map_cons, List.isPrefixOf]
            rw [show (lowerStr p0 == lowerStr rR) = false from
              beq_eq_false_iff_ne.mpr (hr p0 (List.mem_cons_self p0 pr)), Bool.false_and]
          · exact ih _ (hasOccur_drop (p0 :: pr) (x :: xs) patR.length
              (by rw [hasOccur, Bool.or_eq_false_iff]; exact h))
        · rw [if_neg hm, hasOccur, Bool.or_eq_false_iff]
          refine ⟨?_, ih xs h.2⟩
          rw [List.map_cons, List.map_cons, List.isPrefixOf]
          cases hb : (lowerStr p0 == lowerStr x) with
          | false => rw [Bool.false_and]
          | true =>
            rw [Bool.true_and]
            cases hp : (pr.map lowerStr).isPrefixOf
                ((replaceSeqF patR rR n xs).map lowerStr) with
            | false => rfl
            | true =>
              exfalso
              have h3 := replaceSeqF_prefix_reflect patR rR n xs pr
                (fun w hw => hr w (List.mem_cons_of_mem p0 hw)) hp
              have h1 := h.1
              rw [List.map_cons, List.map_cons, List.isPrefixOf, hb, Bool.true_and] at h1
              rw [h1] at h3
              cases h3

/-- After a full replacement pass of a class-A pattern, the pattern no
longer occurs. -/
theorem replaceSeqF_noOccur (pat : Phrase) (r : String) (hp : pat ≠ [])
    (hr : ∀ w ∈ pat, ¬ lowerStr w = lowerStr r) :
    ∀ fuel T, T.length ≤ fuel → hasOccur pat (replaceSeqF pat r fuel T) = false := by
  obtain ⟨p0, pr, rfl⟩ : ∃ p0 pr, pat = p0 :: pr := by
    cases pat with
    | nil => exact absurd rfl hp
    | cons a b => exact ⟨a, b, rfl⟩
  intro fuel
  induction fuel with
  | zero =>
    intro T hlen
    cases T with
    | nil => rfl
    | cons x xs => simp at hlen
  | succ n ih =>
    intro T hlen
    cases T with
    | nil => rfl
    | cons x xs =>
      rw [replaceSeqF]
      by_cases hm : (((p0 :: pr).map lowerStr).isPrefixOf ((x :: xs).map lowerStr)) = true
      · rw [if_pos hm, hasOccur, Bool.or_eq_false_iff]
        constructor
        · rw [List.map_cons, List.map_cons, List.isPrefixOf]
          rw [show (lowerStr p0 == lowerStr r) = false from
            beq_eq_false_iff_ne.mpr (hr p0 (List.mem_cons_self p0 pr)), Bool.false_and]
        · refine ih _ ?_
          rw [List.length_drop]
          rw [List.length_cons] at hlen ⊢
          simp only [List.length_cons, List.length_map]
          omega
      · rw [if_neg hm, hasOccur, Bool.or_eq_false_iff]
        refine ⟨?_, ih xs (by rw [List.length_cons] at hlen; omega)⟩
        rw [List.map_cons, List.map_cons, List.isPrefixOf]
        cases hb : (lowerStr p0 == lowerStr x) with
        | false => rw [Bool.false_and]
        | true =>
          rw [Bool.true_and]
          cases hp2 : (pr.map lowerStr).isPrefixOf
              ((replaceSeqF (p0 :: pr) r n xs).map lowerStr) with
          | false => rfl
          | true =>
            exfalso
            have h3 := replaceSeqF_prefix_reflect (p0 :: pr) r n xs pr
              (fun w hw => hr w (List.mem_cons_of_mem p0 hw)) hp2
            apply hm
            rw [List.map_cons, List.map_cons, List.isPrefixOf, hb, Bool.true_and]
            exact h3

/-- Replacing an already-normalized single-word key is the identity. -/
theorem replaceSeqF_allB_id (k r : String) (hk : lowerStr k = k) :
    ∀ fuel T, allB k r T = true → replaceSeqF [k] r fuel T = T := by
  intro fuel
  induction fuel with
  | zero => exact fun T _ => rfl
  | succ n ih =>
    intro T hall
    cases T with
    | nil => rfl
    | cons x xs =>
      rw [allB, List.all_cons, Bool.and_eq_true] at hall
      have hxs := ih xs (by rw [allB]; exact hall.2)
      rw [replaceSeqF]
      by_cases hm : (([k].map lowerStr).isPrefixOf ((x :: xs).map lowerStr)) = true
      · rw [if_pos hm]
        rw [List.map_cons, List.map_cons, List.map_nil, List.isPrefixOf, List.isPrefixOf,
          Bool.and_true, beq_iff_eq] at hm
        have hx : lowerStr x = k := by rw [← hm, hk]
        have hxr : x = r := by
          rcases Bool.or_eq_true_iff.mp hall.1 with h | h
          · rw [decide_eq_true_eq] at h; exact absurd hx h
          · rw [decide_eq_true_eq] at h; exact h
        rw [List.length_singleton, List.drop_succ_cons, List.drop_zero, hxs, hxr]
      · rw [if_neg hm, hxs]

/-- After a replacement pass of a class-B key, every matching token is the
id. -/
theorem replaceSeqF_allB (k r : String) (hk : lowerStr k = k) :
    ∀ fuel T, T.length ≤ fuel → allB k r (replaceSeqF [k] r fuel T) = true := by
  intro fuel
  induction fuel with
  | zero =>
    intro T hlen
    cases T with
    | nil => rfl
    | cons x xs => simp at hlen
  | succ n ih =>
    intro T hlen
    cases T with
    | nil => rfl
    | cons x xs =>
      rw [replaceSeqF]
      by_cases hm : (([k].map lowerStr).isPrefixOf ((x :: xs).map lowerStr)) = true
      · rw [if_pos hm, allB, List.all_cons, Bool.and_eq_true]
        constructor
        · rw [Bool.or_eq_true_iff]
          right
          rw [decide_eq_true_eq]
        · have := ih (List.drop 1 (x :: xs)) (by
            rw [List.drop_succ_cons, List.drop_zero]
            rw [List.length_cons] at hlen
            omega)
          rw [allB] at this
          rw [List.length_singleton] at *
          exact this
      · rw [if_neg hm, allB, List.all_cons, Bool.and_eq_true]
        constructor
        · rw [Bool.or_eq_true_iff]
          left
          rw [decide_eq_true_eq]
          intro hx
          apply hm
          rw [List.map_cons, List.map_cons, List.map_nil, List.isPrefixOf, List.isPrefixOf,
            Bool.and_true, beq_iff_eq, hx, hk]
        · have := ih xs (by rw [List.length_cons] at hlen; omega)
          rw [allB] at this
          exact this

/-- Tokens of a replacement result are the id or tokens of the input. -/
theorem replaceSeqF_mem (patR : Phrase) (rR : String) :
    ∀ fuel T w, w ∈ replaceSeqF patR rR fuel T → w = rR ∨ w ∈ T := by
  intro fuel
  induction fuel with
  | zero => exact fun T w h => Or.inr h
  | succ n ih =>
    intro T w h
    cases T with
    | nil => exact Or.inr h
    | cons x xs =>
      rw [replaceSeqF] at h
      by_cases hm : ((patR.map lowerStr).isPrefixOf ((x :: xs).map lowerStr)) = true
      · rw [if_pos hm] at h
        rcases List.mem_cons.mp h with h | h
        · exact Or.inl h
        · rcases ih _ w h with h | h
          · exact Or.inl h
          · exact Or.inr (List.mem_of_mem_drop h)
      · rw [if_neg hm] at h
        rcases List.mem_cons.mp h with h | h
        · exact Or.inr (h ▸ List.mem_cons_self x xs)
        · rcases ih xs w h with h | h
          · exact Or.inl h
          · exact Or.inr (List.mem_cons_of_mem x h)

/-- Other replacement passes preserve the normalized-token property as
long as no foreign id shares the key's lowercase form. -/
theorem allB_replaceSeqF (k r : String) (patR : Phrase) (rR : String)
    (hrR : lowerStr rR = k → rR = r) :
    ∀ fuel T, allB k r T = true → allB k r (replaceSeqF patR rR fuel T) = true := by
  intro fuel T hall
  rw [allB, List.all_eq_true]
  intro w hw
  rcases replaceSeqF_mem patR rR fuel T w hw with h | h
  · subst h
    rw [Bool.or_eq_true_iff]
    by_cases hk : lowerStr w = k
    · right; rw [decide_eq_true_eq]; exact hrR hk
    · left; rw [decide_eq_true_eq]; exact hk
  · rw [allB, List.all_eq_true] at hall
    exact hall w h

/-- One normalization step (the body of the fold in
`normalizeConceptsInText`). -/
def normStep (acc : Phrase) (kv : String × String) : Phrase :=
  replaceSeq (keyWords kv.1) kv.2 acc

/-- The per-key invariant carried through the fold: class-A keys no longer
occur, class-B keys occur only as their own id. -/
def StateOK (vals : List String) (keys : List (String × String))
    (kv : String × String) (T : Phrase) : Prop :=
  (condA vals kv = true ∧ hasOccur (keyWords kv.1) T = false) ∨
  (condB keys kv = true ∧ allB kv.1 kv.2 T = true)

theorem condA_not_val (vals : List String) (kv : String × String)
    (hA : condA vals kv = true) (r : String) (hr : r ∈ vals) :
    ∀ w ∈ keyWords kv.1, ¬ lowerStr w = lowerStr r := by
  rw [condA, Bool.and_eq_true] at hA
  intro w hw
  have h1 := List.all_eq_true.mp hA.2 w hw
  have h2 := List.all_eq_true.mp h1 r hr
  exact of_decide_eq_true h2

theorem normStep_establish (vals : List String) (keys : List (String × String))
    (kv : String × String) (hok : (condA vals kv || condB keys kv) = true)
    (hv : kv.2 ∈ vals) (T : Phrase) : StateOK vals keys kv (normStep T kv) := by
  rcases Bool.or_eq_true_iff.mp hok with hA | hB
  · left
    refine ⟨hA, ?_⟩
    have hp : keyWords kv.1 ≠ [] := by
      rw [condA, Bool.and_eq_true] at hA
      intro he
      rw [he] at hA
      simp at hA
    rw [normStep, replaceSeq]
    exact replaceSeqF_noOccur _ kv.2 hp (condA_not_val vals kv hA kv.2 hv) T.length T le_rfl
  · right
    refine ⟨hB, ?_⟩
    simp only [condB, Bool.and_eq_true] at hB
    obtain ⟨⟨⟨h1, h2⟩, h3⟩, h4⟩ := hB
    rw [normStep, replaceSeq, of_decide_eq_true h1]
    exact replaceSeqF_allB kv.1 kv.2 (of_decide_eq_true h2) T.length T le_rfl

theorem normStep_preserve (vals : List String) (keys : List (String × String))
    (kv kv' : String × String) (hv' : kv'.2 ∈ vals) (hk' : kv' ∈ keys)
    (T : Phrase) (hst : StateOK vals keys kv T) :
    StateOK vals keys kv (normStep T kv') := by
  rcases hst with ⟨hA, hocc⟩ | ⟨hB, hall⟩
  · left
    refine ⟨hA, ?_⟩
    rw [normStep, replaceSeq]
    exact hasOccur_replaceSeqF _ kv'.2 _ (condA_not_val vals kv hA kv'.2 hv') T.length T hocc
  · right
    refine ⟨hB, ?_⟩
    have himp : lowerStr kv'.2 = kv.1 → kv'.2 = kv.2 := by
      simp only [condB, Bool.and_eq_true] at hB
      have h4 := List.all_eq_true.mp hB.2 kv' hk'
      rw [Bool.or_eq_true_iff] at h4
      intro he
      rcases h4 with h | h
      · exact absurd he (of_decide_eq_true h)
      · exact of_decide_eq_true h
    rw [normStep, replaceSeq]
    exact allB_replaceSeqF kv.1 kv.2 _ kv'.2 himp T.length T hall

theorem StateOK_fixed (vals : List String) (keys : List (String × String))
    (kv : String × String) (T : Phrase) (h : StateOK vals keys kv T) :
    normStep T kv = T := by
  rcases h with ⟨-, hocc⟩ | ⟨hB, hall⟩
  · rw [normStep, replaceSeq]
    exact replaceSeqF_id _ _ _ _ hocc
  · simp only [condB, Bool.and_eq_true] at hB
    obtain ⟨⟨⟨h1, h2⟩, h3⟩, h4⟩ := hB
    rw [normStep, replaceSeq, of_decide_eq_true h1]
    exact replaceSeqF_allB_id kv.1 kv.2 (of_decide_eq_true h2) T.length T hall

theorem fold_preserve (vals : List String) (keys : List (String × String)) :
    ∀ (rest : List (String × String)) (T : Phrase) (kv : String × String),
      (∀ kv' ∈ rest, kv'.2 ∈ vals) → (∀ kv' ∈ rest, kv' ∈ keys) →
      StateOK vals keys kv T →
      StateOK vals keys kv (rest.foldl normStep T) := by
  intro rest
  induction rest with
  | nil => exact fun T kv _ _ h => h
  | cons kv0 rest ih =>
    intro T kv hv hk hst
    rw [List.foldl_cons]
    exact ih (normStep T kv0) kv
      (fun x hx => hv x (List.mem_cons_of_mem kv0 hx))
      (fun x hx => hk x (List.mem_cons_of_mem kv0 hx))
      (normStep_preserve vals keys kv kv0 (hv kv0 (List.mem_cons_self kv0 rest))
        (hk kv0 (List.mem_cons_self kv0 rest)) T hst)

theorem fold_establish (vals : List String) (keys : List (String × String)) :
    ∀ (ks : List (String × String)) (T : Phrase),
      (∀ kv ∈ ks, (condA vals kv || condB keys kv) = true) →
      (∀ kv ∈ ks, kv.2 ∈ vals) →
      (∀ kv ∈ ks, kv ∈ keys) →
      ∀ kv ∈ ks, StateOK vals keys kv (ks.foldl normStep T) := by
  intro ks
  induction ks with
  | nil => intro T _ _ _ kv hm; simp at hm
  | cons kv0 rest ih =>
    intro T hok hv hk kv hm
    rw [List.foldl_cons]
    rcases List.mem_cons.mp hm with rfl | hm'
    · exact fold_preserve vals keys rest (normStep T kv) kv
        (fun x hx => hv x (List.mem_cons_of_mem kv hx))
        (fun x hx => hk x (List.mem_cons_of_mem kv hx))
        (normStep_establish vals keys kv (hok kv (List.mem_cons_self kv rest))
          (hv kv (List.mem_cons_self kv rest)) T)
    · exact ih (normStep T kv0)
        (fun x hx => hok x (List.mem_cons_of_mem kv0 hx))
        (fun x hx => hv x (List.mem_cons_of_mem kv0 hx))
        (fun x hx => hk x (List.mem_cons_of_mem kv0 hx)) kv hm'

theorem fold_fixed :
    ∀ (ks : List (String × String)) (T : Phrase),
      (∀ kv ∈ ks, normStep T kv = T) → ks.foldl normStep T = T := by
  intro ks
  induction ks with
  | nil => exact fun T _ => rfl
  | cons kv0 rest ih =>
    intro T h
    rw [List.foldl_cons, h kv0 (List.mem_cons_self kv0 rest)]
    exact ih T (fun x hx => h x (List.mem_cons_of_mem kv0 hx))

set_option maxRecDepth 10000 in
set_option maxHeartbeats 4000000 in
/-- The decide-checked classification of the 119 concept keys: each is
class A (no key word collides case-insensitively with any id) or class B
(a single-word key that is exactly the lowercase of its id, shared by no
other id). -/
theorem conceptKeysClassified :
    sortedConceptKeys.all (fun kv =>
      condA (sortedConceptKeys.map Prod.snd) kv || condB sortedConceptKeys kv) = true := by
  decide

/-- C7: concept normalization is idempotent — normalizing already
normalized text is the identity. -/
theorem claim_C7 (t : Phrase) :
    normalizeConceptsInText (normalizeConceptsInText t) = normalizeConceptsInText t := by
  have hok := List.all_eq_true.mp conceptKeysClassified
  have hstate := fold_establish (sortedConceptKeys.map Prod.snd) sortedConceptKeys
    sortedConceptKeys t (fun kv h => hok kv h)
    (fun kv h => List.mem_map_of_mem Prod.snd h)
    (fun kv h => h)
  show sortedConceptKeys.foldl normStep (normalizeConceptsInText t) = normalizeConceptsInText t
  refine fold_fixed sortedConceptKeys _ (fun kv hm => ?_)
  exact StateOK_fixed _ _ kv _ (hstate kv hm)
